import Mathlib

/-!
Verification of the flt2dec2flt crate (float ↔ decimal conversion).

The development shallowly embeds the crate's code:

* `round_up`, `estimate_max_buf_len`, `MAX_SIG_DIGITS` and the
  `PREFORMAT_*` constants are translated from
  `src/core_num/flt2dec/mod.rs` and `src/lib.rs`.
* The conversion kernels themselves (`decoder.rs`, `strategy/grisu.rs`,
  `strategy/dragon.rs`, the `dec2flt` algorithms) are not part of the
  sources; where a claim depends on them they are modelled from the
  specification (each such definition carries a doc comment starting
  with `Modelled from the spec:`).

Machine integers are embedded as `ℕ`/`ℤ`; byte slices as `List ℕ`;
rational values appear through an explicit fraction type `Frac`
(numerator/denominator pairs without normalisation) so that all
definitions evaluate by kernel reduction.
-/

/-! ### Fuel-based numeric helpers (kernel-computable) -/

/-- Floor logarithm with explicit fuel; `natLogAux b f n` is correct as
long as `n < b ^ f`. -/
def natLogAux (b : ℕ) : ℕ → ℕ → ℕ
  | 0, _ => 0
  | f + 1, n => if n < b then 0 else natLogAux b f (n / b) + 1

/-- Floor logarithm of `n` in base `b` (for `2 ≤ b`), total and
kernel-computable. -/
def natLog (b n : ℕ) : ℕ :=
  natLogAux b n n

theorem natLogAux_spec (b : ℕ) (hb : 2 ≤ b) :
    ∀ f n, n < b ^ f →
      (1 ≤ n → b ^ natLogAux b f n ≤ n) ∧ n < b ^ (natLogAux b f n + 1) := by
  intro f
  induction f with
  | zero =>
    intro n hn
    simp only [pow_zero] at hn
    interval_cases n
    constructor
    · omega
    · simpa [natLogAux] using by positivity
  | succ f ih =>
    intro n hn
    by_cases hsmall : n < b
    · refine ⟨fun h1 => ?_, ?_⟩
      · simpa [natLogAux, hsmall] using h1
      · simpa [natLogAux, hsmall] using hsmall
    · push_neg at hsmall
      have hbpos : 0 < b := by omega
      have hdivlt : n / b < b ^ f := by
        rw [Nat.div_lt_iff_lt_mul hbpos]
        calc n < b ^ (f + 1) := hn
        _ = b ^ f * b := by ring
      obtain ⟨h1, h2⟩ := ih (n / b) hdivlt
      have hone : 1 ≤ n / b := (Nat.one_le_div_iff hbpos).mpr hsmall
      have hns : ¬ n < b := by omega
      constructor
      · intro _
        have := h1 hone
        calc b ^ natLogAux b (f + 1) n = b ^ (natLogAux b f (n / b) + 1) := by
              simp [natLogAux, hns]
        _ = b ^ natLogAux b f (n / b) * b := by ring
        _ ≤ (n / b) * b := by exact Nat.mul_le_mul_right b this
        _ ≤ n := Nat.div_mul_le_self n b
      · have : n < b ^ (natLogAux b f (n / b) + 1) * b := by
          rw [← Nat.div_lt_iff_lt_mul hbpos]; exact h2
        calc n < b ^ (natLogAux b f (n / b) + 1) * b := this
        _ = b ^ (natLogAux b (f + 1) n + 1) := by
              simp [natLogAux, hns]; ring

theorem natLog_le_self (b n : ℕ) (hb : 2 ≤ b) (hn : 1 ≤ n) :
    b ^ natLog b n ≤ n := by
  have hfuel : n < b ^ n := by
    calc n < 2 ^ n := Nat.lt_two_pow n
    _ ≤ b ^ n := Nat.pow_le_pow_left hb n
  exact (natLogAux_spec b hb n n hfuel).1 hn

theorem natLog_lt (b n : ℕ) (hb : 2 ≤ b) :
    n < b ^ (natLog b n + 1) := by
  have hfuel : n < b ^ n := by
    calc n < 2 ^ n := Nat.lt_two_pow n
    _ ≤ b ^ n := Nat.pow_le_pow_left hb n
  exact (natLogAux_spec b hb n n hfuel).2

/-- Number of decimal digits of a natural number (`0` for zero). -/
def decDigits (n : ℕ) : ℕ :=
  if n = 0 then 0 else natLog 10 n + 1

theorem decDigits_le (n k : ℕ) (h : n < 10 ^ k) : decDigits n ≤ k := by
  unfold decDigits
  by_cases hz : n = 0
  · simp [hz]
  · simp only [hz, if_false]
    by_contra hcon
    push_neg at hcon
    have hk : k ≤ natLog 10 n := by omega
    have h1 : (10 : ℕ) ^ natLog 10 n ≤ n := natLog_le_self 10 n (by norm_num) (by omega)
    have h2 : (10 : ℕ) ^ k ≤ 10 ^ natLog 10 n := Nat.pow_le_pow_right (by norm_num) hk
    omega

theorem lt_pow_decDigits (n : ℕ) : n < 10 ^ decDigits n := by
  unfold decDigits
  by_cases hz : n = 0
  · simp [hz]
  · simp only [hz, if_false]
    exact natLog_lt 10 n (by norm_num)

/-- Remove factors of ten, with explicit fuel. -/
def stripZerosAux : ℕ → ℕ → ℕ
  | 0, n => n
  | f + 1, n => if n % 10 = 0 ∧ n ≠ 0 then stripZerosAux f (n / 10) else n

/-- Remove all trailing (decimal) zeros from a natural number. -/
def stripZeros (n : ℕ) : ℕ :=
  stripZerosAux n n

theorem stripZerosAux_le : ∀ f n, stripZerosAux f n ≤ n := by
  intro f
  induction f with
  | zero => intro n; simp [stripZerosAux]
  | succ f ih =>
    intro n
    unfold stripZerosAux
    split
    · calc stripZerosAux f (n / 10) ≤ n / 10 := ih (n / 10)
      _ ≤ n := Nat.div_le_self n 10
    · exact Nat.le_refl n

theorem stripZeros_le (n : ℕ) : stripZeros n ≤ n :=
  stripZerosAux_le n n

/-! ### Digit-list helpers -/

/-- The numeric value of a most-significant-first list of ASCII digit
bytes (each byte `48..57`). -/
def digitsVal (l : List ℕ) : ℕ :=
  l.foldl (fun a c => a * 10 + (c - 48)) 0

theorem digitsVal_foldl (l : List ℕ) :
    ∀ acc : ℕ, l.foldl (fun a c => a * 10 + (c - 48)) acc
      = acc * 10 ^ l.length + digitsVal l := by
  induction l with
  | nil => intro acc; simp [digitsVal]
  | cons c t ih =>
    intro acc
    have h1 := ih (acc * 10 + (c - 48))
    have h2 := ih (0 * 10 + (c - 48))
    simp only [List.foldl_cons, digitsVal] at *
    rw [h1, h2]
    simp only [List.length_cons]
    ring

theorem digitsVal_cons (c : ℕ) (t : List ℕ) :
    digitsVal (c :: t) = (c - 48) * 10 ^ t.length + digitsVal t := by
  have := digitsVal_foldl t (0 * 10 + (c - 48))
  simp only [digitsVal, List.foldl_cons]
  simpa using this

theorem digitsVal_append (a b : List ℕ) :
    digitsVal (a ++ b) = digitsVal a * 10 ^ b.length + digitsVal b := by
  induction a with
  | nil => simp [digitsVal]
  | cons c t ih =>
    rw [List.cons_append, digitsVal_cons, digitsVal_cons, ih,
      List.length_append]
    ring

theorem digitsVal_replicate_57 (k : ℕ) :
    digitsVal (List.replicate k 57) = 10 ^ k - 1 := by
  induction k with
  | zero => simp [digitsVal]
  | succ k ih =>
    rw [List.replicate_succ, digitsVal_cons, ih, List.length_replicate]
    have : 1 ≤ (10 : ℕ) ^ k := Nat.one_le_pow k 10 (by norm_num)
    omega

theorem digitsVal_replicate_48 (k : ℕ) :
    digitsVal (List.replicate k 48) = 0 := by
  induction k with
  | zero => simp [digitsVal]
  | succ k ih => rw [List.replicate_succ, digitsVal_cons, ih]; simp

theorem digitsVal_lt (l : List ℕ) (h : ∀ c ∈ l, c ≤ 57) :
    digitsVal l < 10 ^ l.length := by
  induction l with
  | nil => simp [digitsVal]
  | cons c t ih =>
    rw [digitsVal_cons]
    have hc : c ≤ 57 := h c (by simp)
    have ht : digitsVal t < 10 ^ t.length := ih (fun x hx => h x (by simp [hx]))
    have h9 : c - 48 ≤ 9 := by omega
    have : (c - 48) * 10 ^ t.length ≤ 9 * 10 ^ t.length :=
      Nat.mul_le_mul_right _ h9
    calc (c - 48) * 10 ^ t.length + digitsVal t
        < (c - 48) * 10 ^ t.length + 10 ^ t.length := by omega
    _ ≤ 9 * 10 ^ t.length + 10 ^ t.length := by omega
    _ = 10 ^ (t.length + 1) := by ring
    _ = 10 ^ (c :: t).length := by simp

/-! ### `round_up` (translated from `src/core_num/flt2dec/mod.rs`) -/

/-- `d.iter().rposition(|&c| c != b'9')`: index of the last byte that is
not `'9'` (57). -/
def rposition : List ℕ → Option ℕ
  | [] => none
  | c :: rest =>
    match rposition rest with
    | some i => some (i + 1)
    | none => if c ≠ 57 then some 0 else none

/-- Translation of `round_up` from `src/core_num/flt2dec/mod.rs`.  The
in-place mutation of the byte slice is made explicit: the result is the
new contents of the slice paired with the returned `Option<u8>`. -/
def round_up (d : List ℕ) : List ℕ × Option ℕ :=
  match rposition d with
  | some i =>
      (d.take i ++ ((d[i]?).getD 0 + 1) :: List.replicate (d.length - i - 1) 48,
        none)
  | none =>
      if d.length > 0 then
        (49 :: List.replicate (d.length - 1) 48, some 48)
      else
        ([], some 49)

theorem rposition_cons (c : ℕ) (t : List ℕ) :
    rposition (c :: t) =
      match rposition t with
      | some i => some (i + 1)
      | none => if c ≠ 57 then some 0 else none := rfl

theorem rposition_eq_none_iff (d : List ℕ) :
    rposition d = none ↔ ∀ c ∈ d, c = 57 := by
  induction d with
  | nil => simp [rposition]
  | cons c t ih =>
    rw [rposition_cons]
    cases ht : rposition t with
    | some j =>
      simp only []
      constructor
      · intro h; exact absurd h (by simp)
      · intro h
        have hall : ∀ x ∈ t, x = 57 := fun x hx => h x (by simp [hx])
        rw [ih.mpr hall] at ht
        exact absurd ht (by simp)
    | none =>
      simp only []
      by_cases hc : c = 57
      · subst hc
        simp only [ne_eq, not_true_eq_false, if_false, true_iff]
        intro x hx
        rcases List.mem_cons.mp hx with h | h
        · exact h
        · exact ih.mp ht x h
      · simp [hc, List.forall_mem_cons]

theorem rposition_spec (d : List ℕ) (i : ℕ) (h : rposition d = some i) :
    i < d.length ∧ (d[i]?).getD 0 ≠ 57 ∧
      d.drop (i + 1) = List.replicate (d.length - i - 1) 57 := by
  induction d generalizing i with
  | nil => simp [rposition] at h
  | cons c t ih =>
    rw [rposition_cons] at h
    cases ht : rposition t with
    | some j =>
      rw [ht] at h
      cases h
      obtain ⟨h1, h2, h3⟩ := ih j ht
      refine ⟨by simpa using Nat.succ_lt_succ h1, by simpa using h2, ?_⟩
      have hlen : (c :: t).length - (j + 1) - 1 = t.length - j - 1 := by
        simp only [List.length_cons]; omega
      rw [hlen]
      simpa using h3
    | none =>
      rw [ht] at h
      by_cases hc : c ≠ 57
      · rw [if_pos hc] at h
        cases h
        refine ⟨by simp, by simpa using hc, ?_⟩
        have hall : ∀ x ∈ t, x = 57 := (rposition_eq_none_iff t).mp ht
        simp only [List.drop_succ_cons, List.drop_zero, List.length_cons]
        rw [List.eq_replicate_iff]
        refine ⟨by omega, hall⟩
      · rw [if_neg hc] at h
        exact absurd h (by simp)

/-- Claim C10: `round_up` applied to an empty digit buffer returns
`Some(b'1')` and leaves the buffer empty (carry-out producing the new
leading digit `'1'`), rather than being an error. -/
theorem round_up_nil : round_up [] = ([], some 49) := by
  rfl

/-- Claim C9: on a nonempty buffer of ASCII digits representing `N`,
if `N + 1 < 10 ^ n` then `round_up` returns `None` and the buffer holds
the `n`-digit representation of `N + 1`; if all digits are `'9'` the
result is `Some` and the buffer becomes `'1'` followed by `n - 1` bytes
`'0'`. -/
theorem round_up_spec (d : List ℕ) (hd : ∀ c ∈ d, 48 ≤ c ∧ c ≤ 57) :
    (digitsVal d + 1 < 10 ^ d.length →
      (round_up d).2 = none ∧ (round_up d).1.length = d.length ∧
        digitsVal (round_up d).1 = digitsVal d + 1 ∧
        ∀ c ∈ (round_up d).1, 48 ≤ c ∧ c ≤ 57) ∧
    ((∀ c ∈ d, c = 57) → d ≠ [] →
      (round_up d).2 = some 48 ∧
        (round_up d).1 = 49 :: List.replicate (d.length - 1) 48) := by
  constructor
  · intro hlt
    match hrp : rposition d with
    | none =>
      exfalso
      have hall : ∀ c ∈ d, c = 57 := (rposition_eq_none_iff d).mp hrp
      have : digitsVal d = 10 ^ d.length - 1 := by
        have : d = List.replicate d.length 57 :=
          (List.eq_replicate_iff).mpr ⟨rfl, hall⟩
        rw [this, digitsVal_replicate_57]; simp
      have hpow : 1 ≤ (10 : ℕ) ^ d.length := Nat.one_le_pow _ 10 (by norm_num)
      omega
    | some i =>
      obtain ⟨hi, hxi, hdrop⟩ := rposition_spec d i hrp
      set x := (d[i]?).getD 0 with hx
      have hxmem : x ∈ d := by
        have : d[i]? = some d[i] := List.getElem?_eq_getElem hi
        rw [hx, this]
        simp only [Option.getD_some]
        exact List.getElem_mem hi
      obtain ⟨hx48, hx57⟩ := hd x hxmem
      have hxne : x ≠ 57 := hxi
      -- decompose d = take i ++ x :: replicate k 57
      have htake : d.take (i + 1) = d.take i ++ [x] := by
        rw [List.take_succ]
        congr 1
        have : d[i]? = some d[i] := List.getElem?_eq_getElem hi
        rw [this]
        simp only [Option.toList_some]
        congr 1
        rw [hx, this]; simp
      set k := d.length - i - 1 with hk
      have hdecomp : d = d.take i ++ x :: List.replicate k 57 := by
        conv_lhs => rw [← List.take_append_drop (i + 1) d]
        rw [htake, hdrop]
        simp
      have hlentake : (d.take i).length = i := List.length_take_of_le (by omega)
      have hvald : digitsVal d
          = digitsVal (d.take i) * 10 ^ (k + 1)
            + ((x - 48) * 10 ^ k + (10 ^ k - 1)) := by
        conv_lhs => rw [hdecomp]
        rw [digitsVal_append, digitsVal_cons, digitsVal_replicate_57]
        simp only [List.length_cons, List.length_replicate]
      have hru : round_up d
          = (d.take i ++ (x + 1) :: List.replicate k 48, none) := by
        unfold round_up
        rw [hrp]
      constructor
      · rw [hru]
      constructor
      · rw [hru]
        simp only [List.length_append, List.length_cons, List.length_replicate,
          hlentake]
        omega
      constructor
      · rw [hru]
        simp only []
        have hpow : 1 ≤ (10 : ℕ) ^ k := Nat.one_le_pow _ 10 (by norm_num)
        have hx1 : x + 1 - 48 = (x - 48) + 1 := by omega
        calc digitsVal (d.take i ++ (x + 1) :: List.replicate k 48)
            = digitsVal (d.take i) * 10 ^ (k + 1)
              + ((x + 1 - 48) * 10 ^ k + digitsVal (List.replicate k 48)) := by
              rw [digitsVal_append, digitsVal_cons]
              simp only [List.length_cons, List.length_replicate]
        _ = digitsVal (d.take i) * 10 ^ (k + 1) + (((x - 48) + 1) * 10 ^ k + 0) := by
              rw [hx1, digitsVal_replicate_48]
        _ = digitsVal (d.take i) * 10 ^ (k + 1)
              + ((x - 48) * 10 ^ k + 10 ^ k) := by ring
        _ = digitsVal (d.take i) * 10 ^ (k + 1)
              + ((x - 48) * 10 ^ k + ((10 ^ k - 1) + 1)) := by
              congr 2
              omega
        _ = digitsVal (d.take i) * 10 ^ (k + 1)
              + ((x - 48) * 10 ^ k + (10 ^ k - 1)) + 1 := by ring
        _ = digitsVal d + 1 := by rw [hvald]
      · rw [hru]
        simp only []
        intro c hc
        rcases List.mem_append.mp hc with h | h
        · exact hd c (by rw [hdecomp]; exact List.mem_append.mpr (Or.inl h))
        · rcases List.mem_cons.mp h with h | h
          · omega
          · have := List.eq_of_mem_replicate h
            omega
  · intro hall hne
    have hrp : rposition d = none := (rposition_eq_none_iff d).mpr hall
    have hlen : d.length > 0 := List.length_pos.mpr hne
    unfold round_up
    rw [hrp]
    simp [hlen]

/-- Witness for C9: both branches exercised on concrete buffers. -/
theorem round_up_spec_witness :
    ((round_up [49, 57]).2 = none ∧ (round_up [49, 57]).1.length = 2 ∧
      digitsVal (round_up [49, 57]).1 = digitsVal [49, 57] + 1 ∧
      ∀ c ∈ (round_up [49, 57]).1, 48 ≤ c ∧ c ≤ 57) ∧
    ((round_up [57, 57]).2 = some 48 ∧
      (round_up [57, 57]).1 = 49 :: List.replicate 1 48) := by
  constructor
  · exact (round_up_spec [49, 57] (by decide)).1 (by decide)
  · exact ((round_up_spec [57, 57] (by decide)).2 (by decide) (by decide))

/-! ### `estimate_max_buf_len` (translated from `src/core_num/flt2dec/mod.rs`) -/

/-- The minimum size of buffer necessary for the shortest mode
(`MAX_SIG_DIGITS` in `src/core_num/flt2dec/mod.rs`). -/
def MAX_SIG_DIGITS : ℕ := 17

/-- `PREFORMAT_SHORTEST_BUF_LEN` from `src/lib.rs`. -/
def PREFORMAT_SHORTEST_BUF_LEN : ℕ := MAX_SIG_DIGITS

/-- `PREFORMAT_EXACT_FIXED_BASE_BUF_LEN` from `src/lib.rs`. -/
def PREFORMAT_EXACT_FIXED_BASE_BUF_LEN : ℕ := 826

/-- Translation of `estimate_max_buf_len` from
`src/core_num/flt2dec/mod.rs`:
`21 + ((if exp < 0 { -12 } else { 5 } * exp as i32) as usize >> 4)`. -/
def estimate_max_buf_len (exp : ℤ) : ℕ :=
  21 + ((if exp < 0 then -12 * exp else 5 * exp).toNat >>> 4)

theorem pow2_lt_pow10 : ∀ e : ℕ, 2 ^ e < 10 ^ (1 + 5 * e / 16) := by
  intro e
  induction e using Nat.strong_induction_on with
  | _ e ih =>
    by_cases hsmall : e < 16
    · have hfin : ∀ m, m < 16 → 2 ^ m < 10 ^ (1 + 5 * m / 16) := by decide
      exact hfin e hsmall
    · push_neg at hsmall
      have h1 : 2 ^ (e - 16) < 10 ^ (1 + 5 * (e - 16) / 16) := ih (e - 16) (by omega)
      have hidx : 1 + 5 * (e - 16) / 16 + 5 = 1 + 5 * e / 16 := by
        have : 5 * (e - 16) = 5 * e - 80 := by omega
        rw [this]
        omega
      calc 2 ^ e = 2 ^ (e - 16) * 2 ^ 16 := by
            rw [← pow_add]; congr 1; omega
      _ < 10 ^ (1 + 5 * (e - 16) / 16) * 2 ^ 16 := by
            exact (Nat.mul_lt_mul_right (by norm_num)).mpr h1
      _ ≤ 10 ^ (1 + 5 * (e - 16) / 16) * 10 ^ 5 := by
            exact Nat.mul_le_mul_left _ (by norm_num)
      _ = 10 ^ (1 + 5 * e / 16) := by rw [← pow_add, hidx]

theorem pow5_lt_pow10 : ∀ e : ℕ, 5 ^ e < 10 ^ (1 + 12 * e / 16) := by
  intro e
  induction e using Nat.strong_induction_on with
  | _ e ih =>
    by_cases hsmall : e < 16
    · have hfin : ∀ m, m < 16 → 5 ^ m < 10 ^ (1 + 12 * m / 16) := by decide
      exact hfin e hsmall
    · push_neg at hsmall
      have h1 : 5 ^ (e - 16) < 10 ^ (1 + 12 * (e - 16) / 16) := ih (e - 16) (by omega)
      have hidx : 1 + 12 * (e - 16) / 16 + 12 = 1 + 12 * e / 16 := by
        have : 12 * (e - 16) = 12 * e - 192 := by omega
        rw [this]
        omega
      calc 5 ^ e = 5 ^ (e - 16) * 5 ^ 16 := by
            rw [← pow_add]; congr 1; omega
      _ < 10 ^ (1 + 12 * (e - 16) / 16) * 5 ^ 16 := by
            exact (Nat.mul_lt_mul_right (by norm_num)).mpr h1
      _ ≤ 10 ^ (1 + 12 * (e - 16) / 16) * 10 ^ 12 := by
            exact Nat.mul_le_mul_left _ (by norm_num)
      _ = 10 ^ (1 + 12 * e / 16) := by rw [← pow_add, hidx]

/-- The number of significant decimal digits needed to write
`mant * 2 ^ exp` exactly in decimal: for `exp ≥ 0` the value is the
integer `mant * 2 ^ exp`, for `exp < 0` it is `mant * 5 ^ (-exp)`
divided by `10 ^ (-exp)`; significant digits are counted after removing
trailing decimal zeros. -/
def sigDigits (mant : ℕ) (exp : ℤ) : ℕ :=
  if 0 ≤ exp then decDigits (stripZeros (mant * 2 ^ exp.toNat))
  else decDigits (stripZeros (mant * 5 ^ (-exp).toNat))

/-- Claim C7: `estimate_max_buf_len` computes
`21 + ((5*exp) >> 4)` for `exp ≥ 0` and `21 + ((12*|exp|) >> 4)` for
`exp < 0`, and bounds the count of significant decimal digits of
`mant * 2 ^ exp` for every mantissa below `2^64` and every `i16`
exponent. -/
theorem estimate_max_buf_len_spec (exp : ℤ)
    (hlo : -32768 ≤ exp) (hhi : exp ≤ 32767) :
    (0 ≤ exp → estimate_max_buf_len exp = 21 + (5 * exp).toNat >>> 4) ∧
    (exp < 0 → estimate_max_buf_len exp = 21 + (12 * (-exp)).toNat >>> 4) ∧
    ∀ mant : ℕ, 0 < mant → mant < 2 ^ 64 →
      sigDigits mant exp ≤ estimate_max_buf_len exp := by
  refine ⟨?_, ?_, ?_⟩
  · intro h
    unfold estimate_max_buf_len
    rw [if_neg (by omega)]
  · intro h
    unfold estimate_max_buf_len
    rw [if_pos h]
    congr 2
    ring
  · intro mant hm0 hm64
    by_cases hsign : 0 ≤ exp
    · set e := exp.toNat with he
      have hexp : estimate_max_buf_len exp = 21 + 5 * e / 16 := by
        unfold estimate_max_buf_len
        rw [if_neg (by omega), Nat.shiftRight_eq_div_pow]
        congr 2
        omega
      rw [hexp]
      unfold sigDigits
      rw [if_pos hsign]
      apply decDigits_le
      have h1 : stripZeros (mant * 2 ^ e) ≤ mant * 2 ^ e := stripZeros_le _
      have h2 : mant * 2 ^ e < 2 ^ 64 * 10 ^ (1 + 5 * e / 16) :=
        Nat.mul_lt_mul_of_lt_of_lt hm64 (pow2_lt_pow10 e)
      have h3 : (2 : ℕ) ^ 64 < 10 ^ 20 := by norm_num
      calc stripZeros (mant * 2 ^ e) < 2 ^ 64 * 10 ^ (1 + 5 * e / 16) := by omega
      _ ≤ 10 ^ 20 * 10 ^ (1 + 5 * e / 16) := Nat.mul_le_mul_right _ (by omega)
      _ = 10 ^ (21 + 5 * e / 16) := by rw [← pow_add]; congr 1; omega
    · push_neg at hsign
      set p := (-exp).toNat with hp
      have hexp : estimate_max_buf_len exp = 21 + 12 * p / 16 := by
        unfold estimate_max_buf_len
        rw [if_pos hsign, Nat.shiftRight_eq_div_pow]
        congr 2
        omega
      rw [hexp]
      unfold sigDigits
      rw [if_neg (by omega)]
      apply decDigits_le
      have h1 : stripZeros (mant * 5 ^ p) ≤ mant * 5 ^ p := stripZeros_le _
      have h2 : mant * 5 ^ p < 2 ^ 64 * 10 ^ (1 + 12 * p / 16) :=
        Nat.mul_lt_mul_of_lt_of_lt hm64 (pow5_lt_pow10 p)
      have h3 : (2 : ℕ) ^ 64 < 10 ^ 20 := by norm_num
      calc stripZeros (mant * 5 ^ p) < 2 ^ 64 * 10 ^ (1 + 12 * p / 16) := by omega
      _ ≤ 10 ^ 20 * 10 ^ (1 + 12 * p / 16) := Nat.mul_le_mul_right _ (by omega)
      _ = 10 ^ (21 + 12 * p / 16) := by rw [← pow_add]; congr 1; omega

/-- Witness for C7 at `exp = -3`, `mant = 5`. -/
theorem estimate_max_buf_len_spec_witness :
    estimate_max_buf_len (-3) = 21 + (12 * (3 : ℤ)).toNat >>> 4 ∧
      sigDigits 5 (-3) ≤ estimate_max_buf_len (-3) := by
  have h := estimate_max_buf_len_spec (-3) (by decide) (by decide)
  refine ⟨?_, h.2.2 5 (by decide) (by decide)⟩
  have := h.2.1 (by decide)
  simpa using this

/-! ### Unnormalised fractions

All executable definitions compute with explicit numerator/denominator
pairs (no gcd), so that closed instances evaluate by kernel reduction;
`Frac.toQ` bridges to `ℚ` for the proofs. -/

structure Frac where
  num : ℤ
  den : ℤ
deriving DecidableEq

/-- Semantics of a fraction. -/
def Frac.toQ (a : Frac) : ℚ :=
  (a.num : ℚ) / (a.den : ℚ)

def Frac.ofInt (n : ℤ) : Frac :=
  ⟨n, 1⟩

def Frac.mul (a b : Frac) : Frac :=
  ⟨a.num * b.num, a.den * b.den⟩

def Frac.le (a b : Frac) : Prop :=
  a.num * b.den ≤ b.num * a.den

def Frac.lt (a b : Frac) : Prop :=
  a.num * b.den < b.num * a.den

def Frac.equ (a b : Frac) : Prop :=
  a.num * b.den = b.num * a.den

instance (a b : Frac) : Decidable (Frac.le a b) := by
  unfold Frac.le; infer_instance

instance (a b : Frac) : Decidable (Frac.lt a b) := by
  unfold Frac.lt; infer_instance

instance (a b : Frac) : Decidable (Frac.equ a b) := by
  unfold Frac.equ; infer_instance

/-- Floor of a fraction (Euclidean division, so a true floor whenever
the denominator is positive). -/
def Frac.floor (a : Frac) : ℤ :=
  a.num / a.den

def Frac.neg (a : Frac) : Frac :=
  ⟨-a.num, a.den⟩

/-- Ceiling of a fraction with positive denominator. -/
def Frac.ceil (a : Frac) : ℤ :=
  -(Frac.floor (Frac.neg a))

theorem Frac.toQ_ofInt (n : ℤ) : (Frac.ofInt n).toQ = (n : ℚ) := by
  simp [Frac.toQ, Frac.ofInt]

theorem Frac.toQ_mul (a b : Frac) : (a.mul b).toQ = a.toQ * b.toQ := by
  unfold Frac.toQ Frac.mul
  push_cast
  rw [div_mul_div_comm]

theorem Frac.le_iff (a b : Frac) (ha : 0 < a.den) (hb : 0 < b.den) :
    Frac.le a b ↔ a.toQ ≤ b.toQ := by
  unfold Frac.le Frac.toQ
  rw [div_le_div_iff (by exact_mod_cast ha) (by exact_mod_cast hb)]
  constructor
  · intro h; exact_mod_cast h
  · intro h; exact_mod_cast h

theorem Frac.lt_iff (a b : Frac) (ha : 0 < a.den) (hb : 0 < b.den) :
    Frac.lt a b ↔ a.toQ < b.toQ := by
  unfold Frac.lt Frac.toQ
  rw [div_lt_div_iff (by exact_mod_cast ha) (by exact_mod_cast hb)]
  constructor
  · intro h; exact_mod_cast h
  · intro h; exact_mod_cast h

theorem Frac.equ_iff (a b : Frac) (ha : 0 < a.den) (hb : 0 < b.den) :
    Frac.equ a b ↔ a.toQ = b.toQ := by
  unfold Frac.equ Frac.toQ
  rw [div_eq_div_iff (by positivity) (by positivity)]
  constructor
  · intro h; exact_mod_cast h
  · intro h; exact_mod_cast h

theorem Int.ediv_eq_floor_div (n d : ℤ) (hd : 0 < d) :
    (n / d : ℤ) = ⌊(n : ℚ) / (d : ℚ)⌋ := by
  have hdq : (0 : ℚ) < (d : ℚ) := by exact_mod_cast hd
  have hmod1 : (0 : ℤ) ≤ n % d := Int.emod_nonneg n (by omega)
  have hmod2 : n % d < d := Int.emod_lt_of_pos n hd
  have hz : d * (n / d) + n % d = n := Int.ediv_add_emod n d
  have hsplit : (d : ℚ) * ((n / d : ℤ) : ℚ) + ((n % d : ℤ) : ℚ) = (n : ℚ) := by
    exact_mod_cast hz
  have hq1 : (0 : ℚ) ≤ ((n % d : ℤ) : ℚ) := by exact_mod_cast hmod1
  have hq2 : ((n % d : ℤ) : ℚ) < (d : ℚ) := by exact_mod_cast hmod2
  symm
  rw [Int.floor_eq_iff]
  constructor
  · rw [le_div_iff hdq]
    nlinarith
  · rw [div_lt_iff hdq]
    nlinarith

theorem Frac.floor_eq (a : Frac) (ha : 0 < a.den) :
    Frac.floor a = ⌊a.toQ⌋ := by
  unfold Frac.floor Frac.toQ
  exact Int.ediv_eq_floor_div a.num a.den ha

theorem Frac.ceil_eq (a : Frac) (ha : 0 < a.den) :
    Frac.ceil a = ⌈a.toQ⌉ := by
  unfold Frac.ceil
  rw [Frac.floor_eq _ (by simpa [Frac.neg] using ha)]
  have : (Frac.neg a).toQ = -a.toQ := by
    unfold Frac.toQ Frac.neg
    push_cast
    ring
  rw [this, Int.floor_neg]
  omega

/-- Scaled integer `n * 2 ^ e` as a fraction. -/
def dyF (n : ℤ) (e : ℤ) : Frac :=
  if 0 ≤ e then ⟨n * 2 ^ e.toNat, 1⟩ else ⟨n, 2 ^ (-e).toNat⟩

/-- Scaled integer `n * 10 ^ e` as a fraction. -/
def deF (n : ℤ) (e : ℤ) : Frac :=
  if 0 ≤ e then ⟨n * 10 ^ e.toNat, 1⟩ else ⟨n, 10 ^ (-e).toNat⟩

theorem dyF_den_pos (n e : ℤ) : 0 < (dyF n e).den := by
  unfold dyF
  split <;> simp

theorem deF_den_pos (n e : ℤ) : 0 < (deF n e).den := by
  unfold deF
  split <;> simp

theorem dyF_toQ (n e : ℤ) : (dyF n e).toQ = (n : ℚ) * 2 ^ e := by
  unfold dyF Frac.toQ
  by_cases h : 0 ≤ e
  · rw [if_pos h]
    have : ((2 : ℚ) ^ e) = ((2 : ℚ) ^ e.toNat) := by
      rw [← zpow_natCast]
      congr 1
      omega
    rw [this]
    push_cast
    ring
  · rw [if_neg h]
    have hpow : (2 : ℚ) ^ e = ((2 : ℚ) ^ ((-e).toNat))⁻¹ := by
      rw [← zpow_natCast, ← zpow_neg]
      congr 1
      omega
    rw [hpow]
    push_cast
    rw [div_eq_mul_inv]

theorem deF_toQ (n e : ℤ) : (deF n e).toQ = (n : ℚ) * 10 ^ e := by
  unfold deF Frac.toQ
  by_cases h : 0 ≤ e
  · rw [if_pos h]
    have : ((10 : ℚ) ^ e) = ((10 : ℚ) ^ e.toNat) := by
      rw [← zpow_natCast]
      congr 1
      omega
    rw [this]
    push_cast
    ring
  · rw [if_neg h]
    have hpow : (10 : ℚ) ^ e = ((10 : ℚ) ^ ((-e).toNat))⁻¹ := by
      rw [← zpow_natCast, ← zpow_neg]
      congr 1
      omega
    rw [hpow]
    push_cast
    rw [div_eq_mul_inv]

/-! ### The float bit-pattern model -/

/-- A binary IEEE-754 format: `mb` mantissa bits (including the implicit
leading bit) and `eb` exponent-field bits. -/
structure Fmt where
  mb : ℕ
  eb : ℕ
deriving DecidableEq

def f32fmt : Fmt := ⟨24, 8⟩

def f64fmt : Fmt := ⟨53, 11⟩

def Fmt.bias (φ : Fmt) : ℤ := 2 ^ (φ.eb - 1) - 1

/-- Exponent of the least significant mantissa bit for subnormals
(`1 - bias - (mb - 1)`). -/
def Fmt.emin (φ : Fmt) : ℤ := 3 - 2 ^ (φ.eb - 1) - φ.mb

/-- A float of format `φ` as its three bit fields. -/
structure Flt where
  sign : Bool
  be : ℕ
  mbits : ℕ
deriving DecidableEq

def Flt.WF (φ : Fmt) (f : Flt) : Prop :=
  f.be < 2 ^ φ.eb ∧ f.mbits < 2 ^ (φ.mb - 1)

instance (φ : Fmt) (f : Flt) : Decidable (Flt.WF φ f) := by
  unfold Flt.WF; infer_instance

/-- Integer mantissa (with the implicit bit restored for normals). -/
def Flt.mant0 (φ : Fmt) (f : Flt) : ℕ :=
  if f.be = 0 then f.mbits else 2 ^ (φ.mb - 1) + f.mbits

/-- Exponent of the least significant mantissa bit. -/
def Flt.E0 (φ : Fmt) (f : Flt) : ℤ :=
  if f.be = 0 then φ.emin else (f.be : ℤ) - φ.bias - φ.mb + 1

/-- `NaN`: exponent field all ones, nonzero mantissa field. -/
def Flt.isNaN (φ : Fmt) (f : Flt) : Prop :=
  f.be = 2 ^ φ.eb - 1 ∧ f.mbits ≠ 0

/-- Infinity: exponent field all ones, zero mantissa field. -/
def Flt.isInf (φ : Fmt) (f : Flt) : Prop :=
  f.be = 2 ^ φ.eb - 1 ∧ f.mbits = 0

def Flt.isZero (f : Flt) : Prop :=
  f.be = 0 ∧ f.mbits = 0

/-- Finite and nonzero. -/
def Flt.isFinNZ (φ : Fmt) (f : Flt) : Prop :=
  f.be ≠ 2 ^ φ.eb - 1 ∧ ¬ (f.be = 0 ∧ f.mbits = 0)

instance (φ : Fmt) (f : Flt) : Decidable (Flt.isNaN φ f) := by
  unfold Flt.isNaN; infer_instance

instance (φ : Fmt) (f : Flt) : Decidable (Flt.isInf φ f) := by
  unfold Flt.isInf; infer_instance

instance (f : Flt) : Decidable (Flt.isZero f) := by
  unfold Flt.isZero; infer_instance

instance (φ : Fmt) (f : Flt) : Decidable (Flt.isFinNZ φ f) := by
  unfold Flt.isFinNZ; infer_instance

/-- Magnitude of a finite float as a fraction. -/
def Flt.magF (φ : Fmt) (f : Flt) : Frac :=
  dyF (f.mant0 φ) (f.E0 φ)

/-- Magnitude of a finite float in `ℚ` (proof-side semantics). -/
def Flt.mag (φ : Fmt) (f : Flt) : ℚ :=
  (f.mant0 φ : ℚ) * 2 ^ f.E0 φ

theorem Flt.magF_toQ (φ : Fmt) (f : Flt) : (f.magF φ).toQ = f.mag φ := by
  unfold Flt.magF Flt.mag
  rw [dyF_toQ]
  norm_num

/-- IEEE negation: flip the sign bit (this is what Rust `-v` does). -/
def Flt.negate (f : Flt) : Flt :=
  ⟨!f.sign, f.be, f.mbits⟩

/-- Modelled from the spec: the decoder lives in `decoder.rs`, which is
not among the sources.  Per spec §4.1, subnormals are represented with
their true mantissa and the minimum exponent; a normal float whose raw
mantissa bits are all zero and whose exponent is above the smallest
normal sits on a binade boundary and is shifted by one, decrementing the
exponent.  This is the `exp` field of the `Decoded` value, which the
façade feeds to `estimate_max_buf_len`. -/
def decodedExp (φ : Fmt) (f : Flt) : ℤ :=
  if f.be = 0 then φ.emin
  else if f.mbits = 0 ∧ 1 < f.be then f.E0 φ - 1
  else f.E0 φ

theorem estimate_le_of_range (exp : ℤ) (h1 : -1074 ≤ exp) (h2 : exp ≤ 971) :
    estimate_max_buf_len exp ≤ 826 := by
  unfold estimate_max_buf_len
  rw [Nat.shiftRight_eq_div_pow]
  by_cases h : exp < 0
  · rw [if_pos h]
    have ht : (-12 * exp).toNat ≤ 12888 := by omega
    have := Nat.div_le_div_right (c := 2 ^ 4) ht
    omega
  · rw [if_neg h]
    have ht : (5 * exp).toNat ≤ 4855 := by omega
    have := Nat.div_le_div_right (c := 2 ^ 4) ht
    omega

/-- Claim C8: `PREFORMAT_EXACT_FIXED_BASE_BUF_LEN = 826`; every exponent
produced by decoding a finite f64 is at least `-1074` and its
`estimate_max_buf_len` is at most `826` (so a buffer of
`826 + frac_digits` bytes covers the `maxlen` slice taken by
`preformat_exact_fixed`); equality is attained at `exp = -1074`. -/
theorem preformat_exact_fixed_buf_len_spec :
    PREFORMAT_EXACT_FIXED_BASE_BUF_LEN = 826 ∧
    (∀ f : Flt, Flt.WF f64fmt f → f.be ≠ 2 ^ f64fmt.eb - 1 →
      -1074 ≤ decodedExp f64fmt f ∧
      estimate_max_buf_len (decodedExp f64fmt f) ≤ 826 ∧
      ∀ frac_digits : ℕ,
        estimate_max_buf_len (decodedExp f64fmt f)
          ≤ PREFORMAT_EXACT_FIXED_BASE_BUF_LEN + frac_digits) ∧
    decodedExp f64fmt ⟨false, 0, 1⟩ = -1074 ∧
    estimate_max_buf_len (-1074) = 826 := by
  have hmain : ∀ f : Flt, Flt.WF f64fmt f → f.be ≠ 2 ^ f64fmt.eb - 1 →
      -1074 ≤ decodedExp f64fmt f ∧ decodedExp f64fmt f ≤ 971 := by
    intro f hwf hfin
    obtain ⟨hbe, _⟩ := hwf
    have hbe2046 : f.be ≤ 2046 := by
      have : f.be < 2 ^ (11 : ℕ) := hbe
      have hne : f.be ≠ 2047 := by
        intro h; exact hfin (by rw [h]; rfl)
      omega
    unfold decodedExp Flt.E0
    by_cases h0 : f.be = 0
    · rw [if_pos h0]
      constructor <;> simp [f64fmt, Fmt.emin] <;> norm_num
    · rw [if_neg h0]
      have hbe1 : 1 ≤ f.be := by omega
      by_cases hb : f.mbits = 0 ∧ 1 < f.be
      · rw [if_pos hb, if_neg h0]
        simp only [f64fmt, Fmt.bias]
        norm_num
        omega
      · rw [if_neg hb, if_neg h0]
        simp only [f64fmt, Fmt.bias]
        norm_num
        omega
  refine ⟨rfl, ?_, by decide, by decide⟩
  intro f hwf hfin
  obtain ⟨hlo, hhi⟩ := hmain f hwf hfin
  refine ⟨hlo, estimate_le_of_range _ hlo hhi, ?_⟩
  intro fd
  have := estimate_le_of_range _ hlo hhi
  unfold PREFORMAT_EXACT_FIXED_BASE_BUF_LEN
  omega

/-- Witness for C8: the smallest positive f64 subnormal. -/
theorem preformat_exact_fixed_buf_len_spec_witness :
    -1074 ≤ decodedExp f64fmt ⟨false, 0, 1⟩ ∧
      estimate_max_buf_len (decodedExp f64fmt ⟨false, 0, 1⟩) ≤ 826 := by
  have h := preformat_exact_fixed_buf_len_spec.2.1 ⟨false, 0, 1⟩
    (by decide) (by decide)
  exact ⟨h.1, h.2.1⟩

/-! ### Round-half-to-even -/

/-- Round to the nearest integer, ties to even, on a fraction with
positive denominator.  Integer-only computation. -/
def rndHE (a : Frac) : ℤ :=
  let f := Frac.floor a
  let t := 2 * (a.num - f * a.den)
  if t < a.den then f
  else if a.den < t then f + 1
  else if f % 2 = 0 then f else f + 1

/-- Proof-side round-half-to-even on `ℚ`. -/
def rndQ (x : ℚ) : ℤ :=
  if x - ⌊x⌋ < 1/2 then ⌊x⌋
  else if 1/2 < x - ⌊x⌋ then ⌊x⌋ + 1
  else if ⌊x⌋ % 2 = 0 then ⌊x⌋ else ⌊x⌋ + 1

theorem rndHE_eq_rndQ (a : Frac) (ha : 0 < a.den) : rndHE a = rndQ a.toQ := by
  have hdq : (0 : ℚ) < (a.den : ℚ) := by exact_mod_cast ha
  have hfl : Frac.floor a = ⌊a.toQ⌋ := Frac.floor_eq a ha
  have hx : a.toQ - (⌊a.toQ⌋ : ℚ)
      = ((a.num - ⌊a.toQ⌋ * a.den : ℤ) : ℚ) / (a.den : ℚ) := by
    unfold Frac.toQ
    push_cast
    field_simp
    ring
  have hiff1 : 2 * (a.num - Frac.floor a * a.den) < a.den
      ↔ a.toQ - (⌊a.toQ⌋ : ℚ) < 1/2 := by
    rw [hfl, hx, div_lt_iff hdq]
    push_cast
    constructor
    · intro h
      have h2 : ((2 * (a.num - ⌊a.toQ⌋ * a.den) : ℤ) : ℚ) < ((a.den : ℤ) : ℚ) := by
        exact_mod_cast h
      push_cast at h2
      linarith
    · intro h
      have h2 : ((2 * (a.num - ⌊a.toQ⌋ * a.den) : ℤ) : ℚ) < ((a.den : ℤ) : ℚ) := by
        push_cast
        linarith
      exact_mod_cast h2
  have hiff2 : a.den < 2 * (a.num - Frac.floor a * a.den)
      ↔ 1/2 < a.toQ - (⌊a.toQ⌋ : ℚ) := by
    rw [hfl, hx, lt_div_iff hdq]
    push_cast
    constructor
    · intro h
      have h2 : ((a.den : ℤ) : ℚ) < ((2 * (a.num - ⌊a.toQ⌋ * a.den) : ℤ) : ℚ) := by
        exact_mod_cast h
      push_cast at h2
      linarith
    · intro h
      have h2 : ((a.den : ℤ) : ℚ) < ((2 * (a.num - ⌊a.toQ⌋ * a.den) : ℤ) : ℚ) := by
        push_cast
        linarith
      exact_mod_cast h2
  unfold rndHE rndQ
  simp only []
  by_cases h1 : 2 * (a.num - Frac.floor a * a.den) < a.den
  · rw [if_pos h1, if_pos (hiff1.mp h1), hfl]
  · rw [if_neg h1, if_neg (fun hc => h1 (hiff1.mpr hc))]
    by_cases h2 : a.den < 2 * (a.num - Frac.floor a * a.den)
    · rw [if_pos h2, if_pos (hiff2.mp h2), hfl]
    · rw [if_neg h2, if_neg (fun hc => h2 (hiff2.mpr hc)), hfl]

/-- Complete characterisation of round-half-to-even. -/
theorem rndQ_eq_iff (x : ℚ) (m : ℤ) :
    rndQ x = m ↔
      (((m : ℚ) - 1/2 < x ∧ x < (m : ℚ) + 1/2) ∨
        (x = (m : ℚ) - 1/2 ∧ m % 2 = 0) ∨
        (x = (m : ℚ) + 1/2 ∧ m % 2 = 0)) := by
  have hf0 : ((⌊x⌋ : ℤ) : ℚ) ≤ x := Int.floor_le x
  have hf1 : x < (⌊x⌋ : ℚ) + 1 := Int.lt_floor_add_one x
  constructor
  · intro h
    unfold rndQ at h
    by_cases h1 : x - (⌊x⌋ : ℚ) < 1/2
    · rw [if_pos h1] at h
      subst h
      left
      constructor <;> push_cast <;> linarith
    · rw [if_neg h1] at h
      push_neg at h1
      by_cases h2 : (1 : ℚ)/2 < x - (⌊x⌋ : ℚ)
      · rw [if_pos h2] at h
        subst h
        left
        constructor <;> push_cast <;> linarith
      · rw [if_neg h2] at h
        push_neg at h2
        have hr : x - (⌊x⌋ : ℚ) = 1/2 := le_antisymm h2 h1
        by_cases h3 : ⌊x⌋ % 2 = 0
        · rw [if_pos h3] at h
          subst h
          right; right
          exact ⟨by linarith, h3⟩
        · rw [if_neg h3] at h
          subst h
          right; left
          refine ⟨by push_cast; linarith, by omega⟩
  · intro h
    rcases h with ⟨ha, hb⟩ | ⟨ha, hb⟩ | ⟨ha, hb⟩
    · by_cases hxm : (m : ℚ) ≤ x
      · have hfx : ⌊x⌋ = m := by
          rw [Int.floor_eq_iff]
          exact ⟨hxm, by linarith⟩
        unfold rndQ
        rw [hfx, if_pos (by push_cast; linarith)]
      · push_neg at hxm
        have hfx : ⌊x⌋ = m - 1 := by
          rw [Int.floor_eq_iff]
          constructor
          · push_cast; linarith
          · push_cast; linarith
        unfold rndQ
        rw [hfx]
        rw [if_neg (by push_cast; intro hc; linarith), if_pos (by push_cast; linarith)]
        omega
    · have hfx : ⌊x⌋ = m - 1 := by
        rw [Int.floor_eq_iff]
        constructor
        · push_cast; linarith
        · push_cast; linarith
      unfold rndQ
      rw [hfx]
      have hr : x - ((m - 1 : ℤ) : ℚ) = 1/2 := by push_cast; linarith
      rw [if_neg (by rw [hr]; norm_num), if_neg (by rw [hr]; norm_num),
        if_neg (by omega)]
      omega
    · have hfx : ⌊x⌋ = m := by
        rw [Int.floor_eq_iff]
        constructor
        · push_cast; linarith
        · push_cast; linarith
      unfold rndQ
      rw [hfx]
      have hr : x - ((m : ℤ) : ℚ) = 1/2 := by push_cast; linarith
      rw [if_neg (by rw [hr]; norm_num), if_neg (by rw [hr]; norm_num),
        if_pos hb]

theorem rndQ_intCast (m : ℤ) : rndQ (m : ℚ) = m := by
  rw [rndQ_eq_iff]
  left
  constructor <;> norm_num

/-! ### Binary logarithm of a fraction -/

/-- Fuel used by the fraction logarithms; correct for numerators and
denominators below `2 ^ logFuel`. -/
def logFuel : ℕ := 8192

/-- `⌊log₂ q⌋` for a positive fraction (correct when both components are
below `2 ^ logFuel`). -/
def fracILog2 (a : Frac) : ℤ :=
  let ln : ℤ := natLogAux 2 logFuel a.num.toNat
  let ld : ℤ := natLogAux 2 logFuel a.den.toNat
  let z := ln - ld
  if Frac.lt a (dyF 1 z) then z - 1 else z

theorem fracILog2_spec (a : Frac) (hn : 0 < a.num) (hd : 0 < a.den)
    (hfn : a.num.toNat < 2 ^ logFuel) (hfd : a.den.toNat < 2 ^ logFuel) :
    (2 : ℚ) ^ fracILog2 a ≤ a.toQ ∧ a.toQ < 2 ^ (fracILog2 a + 1) := by
  have h2 : (2 : ℕ) ≤ 2 := le_refl 2
  obtain ⟨hn1, hn2⟩ := natLogAux_spec 2 h2 logFuel a.num.toNat hfn
  obtain ⟨hd1, hd2⟩ := natLogAux_spec 2 h2 logFuel a.den.toNat hfd
  have hn1 := hn1 (by omega)
  have hd1 := hd1 (by omega)
  set ln := natLogAux 2 logFuel a.num.toNat with hln
  set ld := natLogAux 2 logFuel a.den.toNat with hld
  have hdq : (0 : ℚ) < (a.den : ℚ) := by exact_mod_cast hd
  have hNQ : (a.num.toNat : ℚ) = (a.num : ℚ) := by
    have h := Int.toNat_of_nonneg (le_of_lt hn)
    exact_mod_cast h
  have hDQ : (a.den.toNat : ℚ) = (a.den : ℚ) := by
    have h := Int.toNat_of_nonneg (le_of_lt hd)
    exact_mod_cast h
  have hnatpow : ∀ k : ℕ, ((2 ^ k : ℕ) : ℚ) = (2 : ℚ) ^ (k : ℤ) := by
    intro k
    push_cast
    rw [← zpow_natCast]
  have hQn1 : (2 : ℚ) ^ (ln : ℤ) ≤ (a.num : ℚ) := by
    rw [← hnatpow, ← hNQ]
    exact_mod_cast hn1
  have hQn2 : (a.num : ℚ) < 2 ^ ((ln : ℤ) + 1) := by
    have hcast : ((ln : ℤ) + 1) = ((ln + 1 : ℕ) : ℤ) := by push_cast; ring
    rw [hcast, ← hnatpow, ← hNQ]
    exact_mod_cast hn2
  have hQd1 : (2 : ℚ) ^ (ld : ℤ) ≤ (a.den : ℚ) := by
    rw [← hnatpow, ← hDQ]
    exact_mod_cast hd1
  have hQd2 : (a.den : ℚ) < 2 ^ ((ld : ℤ) + 1) := by
    have hcast : ((ld : ℤ) + 1) = ((ld + 1 : ℕ) : ℤ) := by push_cast; ring
    rw [hcast, ← hnatpow, ← hDQ]
    exact_mod_cast hd2
  have hqlow : (2 : ℚ) ^ ((ln : ℤ) - ld - 1) < a.toQ := by
    unfold Frac.toQ
    rw [lt_div_iff hdq]
    calc (2 : ℚ) ^ ((ln : ℤ) - ld - 1) * (a.den : ℚ)
        < 2 ^ ((ln : ℤ) - ld - 1) * 2 ^ ((ld : ℤ) + 1) := by
          have hppos : (0 : ℚ) < 2 ^ ((ln : ℤ) - ld - 1) := by positivity
          exact mul_lt_mul_of_pos_left hQd2 hppos
    _ = 2 ^ (ln : ℤ) := by
          rw [← zpow_add₀ (by norm_num : (2:ℚ) ≠ 0)]
          congr 1
          ring
    _ ≤ (a.num : ℚ) := hQn1
  have hqhigh : a.toQ < (2 : ℚ) ^ ((ln : ℤ) - ld + 1) := by
    unfold Frac.toQ
    rw [div_lt_iff hdq]
    calc (a.num : ℚ) < 2 ^ ((ln : ℤ) + 1) := hQn2
    _ = 2 ^ ((ln : ℤ) - ld + 1) * 2 ^ (ld : ℤ) := by
          rw [← zpow_add₀ (by norm_num : (2:ℚ) ≠ 0)]
          congr 1
          ring
    _ ≤ 2 ^ ((ln : ℤ) - ld + 1) * (a.den : ℚ) := by
          have hppos : (0 : ℚ) < 2 ^ ((ln : ℤ) - ld + 1) := by positivity
          exact mul_le_mul_of_nonneg_left hQd1 (le_of_lt hppos)
  unfold fracILog2
  rw [← hln, ← hld]
  simp only []
  by_cases hcase : Frac.lt a (dyF 1 ((ln : ℤ) - ld))
  · rw [if_pos hcase]
    have hlt : a.toQ < 2 ^ ((ln : ℤ) - ld) := by
      have := (Frac.lt_iff a (dyF 1 ((ln : ℤ) - ld)) hd (dyF_den_pos _ _)).mp hcase
      rw [dyF_toQ] at this
      simpa using this
    constructor
    · exact le_of_lt hqlow
    · have heq : ((ln : ℤ) - ld - 1) + 1 = (ln : ℤ) - ld := by ring
      rw [heq]
      exact hlt
  · rw [if_neg hcase]
    have hge : (2 : ℚ) ^ ((ln : ℤ) - ld) ≤ a.toQ := by
      have := (Frac.lt_iff a (dyF 1 ((ln : ℤ) - ld)) hd (dyF_den_pos _ _)).not.mp hcase
      rw [dyF_toQ] at this
      push_neg at this
      simpa using this
    exact ⟨hge, hqhigh⟩

/-! ### dec2flt (modelled from the spec) -/

/-- The error kinds of the dec2flt kernel (spec §7). -/
inductive FloatErr where
  | empty
  | invalid
  | posOverflow
  | negOverflow
deriving DecidableEq

/-- Result type of the modelled dec2flt kernel. -/
inductive D2FRes where
  | err (e : FloatErr)
  | ok (v : Flt)
deriving DecidableEq

/-- Result of positive-value rounding: overflow, or a rounded mantissa
`m < 2 ^ mb` at exponent `E` (`m = 0` is underflow to zero). -/
inductive RndRes where
  | overflow
  | fin (m : ℕ) (E : ℤ)
deriving DecidableEq

/-- Exponent of the least significant mantissa bit of the largest
finite float. -/
def Fmt.emax (φ : Fmt) : ℤ := (2 ^ φ.eb - 2 : ℤ) - φ.bias - φ.mb + 1

/-- Modelled from the spec: correct (round-to-nearest, ties-to-even)
rounding of a positive value to a float of format `φ`, the role of the
absent dec2flt kernel (`spec §4.6`: "produce the correctly-rounded
nearest finite float, or report overflow/underflow/zero"). -/
def rndPos (φ : Fmt) (a : Frac) : RndRes :=
  let e1 : ℤ := max φ.emin (fracILog2 a - ((φ.mb : ℤ) - 1))
  let m1 : ℤ := rndHE (Frac.mul a (dyF 1 (-e1)))
  let p : ℤ × ℤ := if m1 = 2 ^ φ.mb then (2 ^ (φ.mb - 1), e1 + 1) else (m1, e1)
  if φ.emax < p.2 then RndRes.overflow
  else RndRes.fin p.1.toNat p.2

/-- Pack a rounded mantissa/exponent pair into a bit pattern (positive
sign).  For `m ≥ 2 ^ (mb-1)` the value is normal with
`be = E - emin + 1`; smaller mantissas are subnormal (`E = emin`). -/
def encodeFin (φ : Fmt) (m : ℕ) (E : ℤ) : Flt :=
  if m = 0 then ⟨false, 0, 0⟩
  else if m < 2 ^ (φ.mb - 1) then ⟨false, 0, m⟩
  else ⟨false, (E - φ.emin + 1).toNat, m - 2 ^ (φ.mb - 1)⟩

/-- All bytes are ASCII digits. -/
def validDigits (l : List ℕ) : Prop :=
  ∀ c ∈ l, 48 ≤ c ∧ c ≤ 57

instance (l : List ℕ) : Decidable (validDigits l) := by
  unfold validDigits; infer_instance

/-- Modelled from the spec: the dec2flt kernel
(`core_num::dec2flt::convert` together with `Decimal::new`), which is
not among the sources.  Spec §4.6: any non-digit byte is `Invalid`;
if the significant digit count is zero the result is positive zero;
otherwise the decimal value `int.frac × 10^e` is rounded to the nearest
float, overflowing to `PosOverflow` and underflowing to zero. -/
def dec2flt (φ : Fmt) (intd fracd : List ℕ) (e : ℤ) : D2FRes :=
  if validDigits intd ∧ validDigits fracd then
    let N : ℕ := digitsVal intd * 10 ^ fracd.length + digitsVal fracd
    if N = 0 then .ok ⟨false, 0, 0⟩
    else
      match rndPos φ (deF N (e - fracd.length)) with
      | .overflow => .err .posOverflow
      | .fin m E => .ok (encodeFin φ m E)
  else .err .invalid

/-- A pre-parsed decimal number (`PreParsed` in `src/lib.rs`): the value
is `sign int_digits.frac_digits × 10^exp`. -/
structure PreParsed where
  sign : Bool
  int_digits : List ℕ
  frac_digits : List ℕ
  exp : ℤ
deriving DecidableEq

/-- Translation of `generic::from_preparsed` from `src/lib.rs` (the
dec2flt kernel it calls is modelled from the spec): convert, then negate
on `sign`, and collapse every dec2flt error to `None`. -/
def from_preparsed (φ : Fmt) (p : PreParsed) : Option Flt :=
  match dec2flt φ p.int_digits p.frac_digits p.exp with
  | .err _ => none
  | .ok v => some (if p.sign then v.negate else v)

/-- Counterexample to claim C2 as stated: with both digit slices empty,
dec2flt returns positive zero (not the `Empty` error), so
`from_preparsed` returns `Some(+0.0)`, not `None`. -/
theorem from_preparsed_empty_not_none :
    dec2flt f32fmt [] [] 0 = .ok ⟨false, 0, 0⟩ ∧
      from_preparsed f32fmt ⟨false, [], [], 0⟩ ≠ none := by
  constructor
  · rfl
  · intro h
    simpa [from_preparsed, dec2flt, validDigits, digitsVal] using h

/-- Claim C2 (amended): for every `PreParsed` whose `int_digits` and
`frac_digits` are both empty, dec2flt returns positive zero (no error),
and `from_preparsed` returns `Some` of the zero carrying the input
sign. -/
theorem from_preparsed_empty (φ : Fmt) (s : Bool) (e : ℤ) :
    dec2flt φ [] [] e = .ok ⟨false, 0, 0⟩ ∧
      from_preparsed φ ⟨s, [], [], e⟩ = some ⟨s, 0, 0⟩ := by
  constructor
  · rfl
  · cases s <;> rfl

/-- Claim C3: `from_preparsed` with `sign = true` and empty digit slices
returns negative zero; in general the sign flag is applied by negating
the dec2flt result (so the zero's sign is preserved). -/
theorem from_preparsed_neg_zero (φ : Fmt) :
    from_preparsed φ ⟨true, [], [], 0⟩ = some ⟨true, 0, 0⟩ ∧
    ∀ (p : PreParsed) (v : Flt),
      dec2flt φ p.int_digits p.frac_digits p.exp = .ok v →
      from_preparsed φ p = some (if p.sign then v.negate else v) := by
  constructor
  · rfl
  · intro p v h
    unfold from_preparsed
    rw [h]

/-- Witness for C3: negative zero concretely, and the sign negation
applied to the concrete parse of `"1"`. -/
theorem from_preparsed_neg_zero_witness :
    from_preparsed f32fmt ⟨true, [], [], 0⟩ = some ⟨true, 0, 0⟩ ∧
      from_preparsed f32fmt ⟨true, [49], [], 0⟩
        = some (Flt.negate ⟨false, 127, 0⟩) := by
  have h := from_preparsed_neg_zero f32fmt
  refine ⟨h.1, ?_⟩
  have h2 := h.2 ⟨true, [49], [], 0⟩ ⟨false, 127, 0⟩ (by decide)
  simpa using h2

/-! ### Base-`b` powers and floor logarithm of a fraction -/

/-- `b ^ z` as a fraction. -/
def powF (b : ℕ) (z : ℤ) : Frac :=
  if 0 ≤ z then ⟨(b : ℤ) ^ z.toNat, 1⟩ else ⟨1, (b : ℤ) ^ (-z).toNat⟩

theorem powF_den_pos (b : ℕ) (z : ℤ) (hb : 0 < b) : 0 < (powF b z).den := by
  unfold powF
  split
  · simp
  · simp only []
    positivity

theorem powF_toQ (b : ℕ) (z : ℤ) (hb : 0 < b) :
    (powF b z).toQ = (b : ℚ) ^ z := by
  unfold powF Frac.toQ
  by_cases h : 0 ≤ z
  · rw [if_pos h]
    have : ((b : ℚ) ^ z) = ((b : ℚ) ^ z.toNat) := by
      rw [← zpow_natCast]
      congr 1
      omega
    rw [this]
    push_cast
    ring
  · rw [if_neg h]
    have hpow : (b : ℚ) ^ z = ((b : ℚ) ^ ((-z).toNat))⁻¹ := by
      rw [← zpow_natCast, ← zpow_neg]
      congr 1
      omega
    rw [hpow]
    push_cast
    rw [div_eq_mul_inv]
    simp

/-- `⌊log_b q⌋` for a positive fraction (correct when both components
are below `2 ^ logFuel`). -/
def fracFLogB (b : ℕ) (a : Frac) : ℤ :=
  let ln : ℤ := natLogAux b logFuel a.num.toNat
  let ld : ℤ := natLogAux b logFuel a.den.toNat
  let z := ln - ld
  if Frac.lt a (powF b z) then z - 1 else z

theorem fracFLogB_spec (b : ℕ) (hb : 2 ≤ b) (a : Frac)
    (hn : 0 < a.num) (hd : 0 < a.den)
    (hfn : a.num.toNat < b ^ logFuel) (hfd : a.den.toNat < b ^ logFuel) :
    (b : ℚ) ^ fracFLogB b a ≤ a.toQ ∧ a.toQ < (b : ℚ) ^ (fracFLogB b a + 1) := by
  have hbq : (1 : ℚ) < (b : ℚ) := by exact_mod_cast hb
  have hbq0 : (0 : ℚ) < (b : ℚ) := by linarith
  have hbne : (b : ℚ) ≠ 0 := ne_of_gt hbq0
  obtain ⟨hn1, hn2⟩ := natLogAux_spec b hb logFuel a.num.toNat hfn
  obtain ⟨hd1, hd2⟩ := natLogAux_spec b hb logFuel a.den.toNat hfd
  have hn1 := hn1 (by omega)
  have hd1 := hd1 (by omega)
  set ln := natLogAux b logFuel a.num.toNat with hln
  set ld := natLogAux b logFuel a.den.toNat with hld
  have hdq : (0 : ℚ) < (a.den : ℚ) := by exact_mod_cast hd
  have hNQ : (a.num.toNat : ℚ) = (a.num : ℚ) := by
    have h := Int.toNat_of_nonneg (le_of_lt hn)
    exact_mod_cast h
  have hDQ : (a.den.toNat : ℚ) = (a.den : ℚ) := by
    have h := Int.toNat_of_nonneg (le_of_lt hd)
    exact_mod_cast h
  have hnatpow : ∀ k : ℕ, ((b ^ k : ℕ) : ℚ) = (b : ℚ) ^ (k : ℤ) := by
    intro k
    push_cast
    rw [← zpow_natCast]
  have hQn1 : (b : ℚ) ^ (ln : ℤ) ≤ (a.num : ℚ) := by
    rw [← hnatpow, ← hNQ]
    exact_mod_cast hn1
  have hQn2 : (a.num : ℚ) < (b : ℚ) ^ ((ln : ℤ) + 1) := by
    have hcast : ((ln : ℤ) + 1) = ((ln + 1 : ℕ) : ℤ) := by push_cast; ring
    rw [hcast, ← hnatpow, ← hNQ]
    exact_mod_cast hn2
  have hQd1 : (b : ℚ) ^ (ld : ℤ) ≤ (a.den : ℚ) := by
    rw [← hnatpow, ← hDQ]
    exact_mod_cast hd1
  have hQd2 : (a.den : ℚ) < (b : ℚ) ^ ((ld : ℤ) + 1) := by
    have hcast : ((ld : ℤ) + 1) = ((ld + 1 : ℕ) : ℤ) := by push_cast; ring
    rw [hcast, ← hnatpow, ← hDQ]
    exact_mod_cast hd2
  have hqlow : (b : ℚ) ^ ((ln : ℤ) - ld - 1) < a.toQ := by
    unfold Frac.toQ
    rw [lt_div_iff hdq]
    calc (b : ℚ) ^ ((ln : ℤ) - ld - 1) * (a.den : ℚ)
        < (b : ℚ) ^ ((ln : ℤ) - ld - 1) * (b : ℚ) ^ ((ld : ℤ) + 1) := by
          have hppos : (0 : ℚ) < (b : ℚ) ^ ((ln : ℤ) - ld - 1) := zpow_pos hbq0 _
          exact mul_lt_mul_of_pos_left hQd2 hppos
    _ = (b : ℚ) ^ (ln : ℤ) := by
          rw [← zpow_add₀ hbne]
          congr 1
          ring
    _ ≤ (a.num : ℚ) := hQn1
  have hqhigh : a.toQ < (b : ℚ) ^ ((ln : ℤ) - ld + 1) := by
    unfold Frac.toQ
    rw [div_lt_iff hdq]
    calc (a.num : ℚ) < (b : ℚ) ^ ((ln : ℤ) + 1) := hQn2
    _ = (b : ℚ) ^ ((ln : ℤ) - ld + 1) * (b : ℚ) ^ (ld : ℤ) := by
          rw [← zpow_add₀ hbne]
          congr 1
          ring
    _ ≤ (b : ℚ) ^ ((ln : ℤ) - ld + 1) * (a.den : ℚ) := by
          have hppos : (0 : ℚ) < (b : ℚ) ^ ((ln : ℤ) - ld + 1) := zpow_pos hbq0 _
          exact mul_le_mul_of_nonneg_left hQd1 (le_of_lt hppos)
  unfold fracFLogB
  rw [← hln, ← hld]
  simp only []
  by_cases hcase : Frac.lt a (powF b ((ln : ℤ) - ld))
  · rw [if_pos hcase]
    have hlt : a.toQ < (b : ℚ) ^ ((ln : ℤ) - ld) := by
      have := (Frac.lt_iff a (powF b ((ln : ℤ) - ld)) hd
        (powF_den_pos b _ (by omega))).mp hcase
      rw [powF_toQ b _ (by omega)] at this
      exact this
    constructor
    · exact le_of_lt hqlow
    · have heq : ((ln : ℤ) - ld - 1) + 1 = (ln : ℤ) - ld := by ring
      rw [heq]
      exact hlt
  · rw [if_neg hcase]
    have hge : (b : ℚ) ^ ((ln : ℤ) - ld) ≤ a.toQ := by
      have := (Frac.lt_iff a (powF b ((ln : ℤ) - ld)) hd
        (powF_den_pos b _ (by omega))).not.mp hcase
      rw [powF_toQ b _ (by omega)] at this
      push_neg at this
      exact this
    exact ⟨hge, hqhigh⟩

/-! ### Rendering digits of a natural number -/

/-- Decimal digits of `v`, least significant first, with fuel. -/
def digitsRevAux : ℕ → ℕ → List ℕ
  | 0, _ => []
  | f + 1, n => if n = 0 then [] else (n % 10) :: digitsRevAux f (n / 10)

theorem digitsRevAux_succ (f v : ℕ) :
    digitsRevAux (f + 1) v
      = if v = 0 then [] else (v % 10) :: digitsRevAux f (v / 10) := rfl

/-- Value of a least-significant-first digit list. -/
def valRev (l : List ℕ) : ℕ :=
  l.foldr (fun c a => c + 10 * a) 0

/-- The ASCII bytes of `v` rendered most significant first, assuming
`v < 10 ^ len`. -/
def digBytes (v : ℕ) (len : ℕ) : List ℕ :=
  ((digitsRevAux len v).reverse).map (· + 48)

theorem decDigits_eq (v k : ℕ) (hk : 1 ≤ k) (h1 : 10 ^ (k - 1) ≤ v)
    (h2 : v < 10 ^ k) : decDigits v = k := by
  have hle : decDigits v ≤ k := decDigits_le v k h2
  have hvpos : 0 < v := by
    have : 0 < 10 ^ (k - 1) := Nat.pos_pow_of_pos _ (by norm_num)
    omega
  by_contra hne
  have hlt : decDigits v ≤ k - 1 := by omega
  have h3 : v < 10 ^ decDigits v := lt_pow_decDigits v
  have h4 : (10 : ℕ) ^ decDigits v ≤ 10 ^ (k - 1) :=
    Nat.pow_le_pow_right (by norm_num) hlt
  omega

theorem digitsRevAux_spec : ∀ f v, v < 10 ^ f →
    valRev (digitsRevAux f v) = v ∧
    (∀ c ∈ digitsRevAux f v, c < 10) ∧
    (digitsRevAux f v).length = decDigits v := by
  intro f
  induction f with
  | zero =>
    intro v hv
    interval_cases v
    refine ⟨rfl, by simp [digitsRevAux], by simp [digitsRevAux, decDigits]⟩
  | succ f ih =>
    intro v hv
    by_cases hz : v = 0
    · subst hz
      refine ⟨rfl, by simp [digitsRevAux], by simp [digitsRevAux, decDigits]⟩
    · have hdiv : v / 10 < 10 ^ f := by
        rw [Nat.div_lt_iff_lt_mul (by norm_num)]
        calc v < 10 ^ (f + 1) := hv
        _ = 10 ^ f * 10 := by ring
      obtain ⟨ih1, ih2, ih3⟩ := ih (v / 10) hdiv
      have hda : digitsRevAux (f + 1) v = (v % 10) :: digitsRevAux f (v / 10) := by
        rw [digitsRevAux_succ, if_neg hz]
      refine ⟨?_, ?_, ?_⟩
      · rw [hda]
        unfold valRev at ih1 ⊢
        simp only [List.foldr_cons]
        rw [ih1]
        omega
      · rw [hda]
        intro c hc
        rcases List.mem_cons.mp hc with h | h
        · omega
        · exact ih2 c h
      · rw [hda]
        simp only [List.length_cons, ih3]
        -- decDigits (v / 10) + 1 = decDigits v
        by_cases hsmall : v < 10
        · have hv10 : v / 10 = 0 := by omega
          rw [hv10]
          have : decDigits v = 1 :=
            decDigits_eq v 1 (le_refl 1) (by simpa using by omega) (by simpa using hsmall)
          rw [this]
          simp [decDigits]
        · push_neg at hsmall
          have hvd : 1 ≤ v / 10 := (Nat.one_le_div_iff (by norm_num)).mpr hsmall
          set d := decDigits (v / 10) with hd
          have hd1 : 10 ^ (d - 1) ≤ v / 10 := by
            have := lt_pow_decDigits (v / 10)
            by_contra hcon
            push_neg at hcon
            have hdpos : 1 ≤ d := by
              rw [hd]
              unfold decDigits
              rw [if_neg (by omega)]
              omega
            have h10 : (10:ℕ) ^ (d-1) ≥ 1 := Nat.one_le_pow _ _ (by norm_num)
            -- v / 10 < 10 ^ (d - 1) contradicts minimality? use decDigits_le
            have := decDigits_le (v / 10) (d - 1) hcon
            omega
          have hd2 : v / 10 < 10 ^ d := lt_pow_decDigits (v / 10)
          have hv1 : 10 ^ d ≤ v := by
            calc (10:ℕ) ^ d = 10 ^ (d - 1) * 10 := by
                  rw [← pow_succ]
                  congr 1
                  have hdpos : 1 ≤ d := by
                    rw [hd]
                    unfold decDigits
                    rw [if_neg (by omega)]
                    omega
                  omega
            _ ≤ (v / 10) * 10 := Nat.mul_le_mul_right _ hd1
            _ ≤ v := by
                  have := Nat.div_mul_le_self v 10
                  omega
          have hv2 : v < 10 ^ (d + 1) := by
            calc v < (v / 10 + 1) * 10 := by
                  have h1 := Nat.div_add_mod v 10
                  have h2 : v % 10 < 10 := Nat.mod_lt _ (by norm_num)
                  omega
            _ ≤ 10 ^ d * 10 := Nat.mul_le_mul_right _ (by omega)
            _ = 10 ^ (d + 1) := by ring
          have : decDigits v = d + 1 :=
            decDigits_eq v (d + 1) (by omega) (by simpa using hv1) hv2
          omega

theorem digitsVal_reverse_map (l : List ℕ) (h : ∀ c ∈ l, c < 10) :
    digitsVal ((l.reverse).map (· + 48)) = valRev l := by
  induction l with
  | nil => simp [digitsVal, valRev]
  | cons c t ih =>
    have ht : ∀ x ∈ t, x < 10 := fun x hx => h x (by simp [hx])
    simp only [List.reverse_cons, List.map_append, List.map_cons, List.map_nil]
    rw [digitsVal_append, ih ht]
    unfold valRev
    simp only [List.foldr_cons]
    have hc : c < 10 := h c (by simp)
    simp only [List.length_cons, List.length_nil]
    rw [digitsVal_cons]
    simp [digitsVal]
    omega

theorem digBytes_spec (D len : ℕ) (hlen : 1 ≤ len)
    (hlo : 10 ^ (len - 1) ≤ D) (hhi : D < 10 ^ len) :
    (digBytes D len).length = len ∧
    digitsVal (digBytes D len) = D ∧
    (∀ c ∈ digBytes D len, 48 ≤ c ∧ c ≤ 57) ∧
    ∃ b t, digBytes D len = b :: t ∧ 49 ≤ b ∧ b ≤ 57 := by
  obtain ⟨h1, h2, h3⟩ := digitsRevAux_spec len D hhi
  have hdd : decDigits D = len := decDigits_eq D len hlen hlo hhi
  have hlen2 : (digBytes D len).length = len := by
    unfold digBytes
    simp [h3, hdd]
  have hval : digitsVal (digBytes D len) = D := by
    unfold digBytes
    rw [digitsVal_reverse_map _ h2, h1]
  have hbytes : ∀ c ∈ digBytes D len, 48 ≤ c ∧ c ≤ 57 := by
    unfold digBytes
    intro c hc
    simp only [List.mem_map, List.mem_reverse] at hc
    obtain ⟨x, hx, rfl⟩ := hc
    have := h2 x hx
    omega
  refine ⟨hlen2, hval, hbytes, ?_⟩
  match hm : digBytes D len with
  | [] =>
    exfalso
    rw [hm] at hlen2
    simp at hlen2
    omega
  | b :: t =>
    refine ⟨b, t, rfl, ?_, ?_⟩
    · by_contra hcon
      push_neg at hcon
      have hb48 : b = 48 := by
        have := hbytes b (by rw [hm]; simp)
        omega
      subst hb48
      have : digitsVal (48 :: t) = digitsVal t := by
        rw [digitsVal_cons]
        simp
      have hlt : digitsVal t < 10 ^ t.length := by
        apply digitsVal_lt
        intro c hc
        have := hbytes c (by rw [hm]; simp [hc])
        omega
      have hlenT : t.length = len - 1 := by
        rw [hm] at hlen2
        simp at hlen2
        omega
      rw [hm] at hval
      rw [hlenT] at hlt
      omega
    · have := hbytes b (by rw [hm]; simp)
      omega

/-- Bounds on round-half-to-even: the result is within one half of the
argument. -/
theorem rndQ_bounds (x : ℚ) :
    x - 1/2 ≤ (rndQ x : ℚ) ∧ (rndQ x : ℚ) ≤ x + 1/2 := by
  have hf0 : ((⌊x⌋ : ℤ) : ℚ) ≤ x := Int.floor_le x
  have hf1 : x < (⌊x⌋ : ℚ) + 1 := Int.lt_floor_add_one x
  unfold rndQ
  split_ifs with h1 h2 h3 <;> constructor <;> push_cast <;> linarith

/-! ### Exact/fixed formatting (modelled from the spec) -/

theorem q10_zpow_natCast (k : ℕ) : (10 : ℚ) ^ (k : ℤ) = ((10 ^ k : ℕ) : ℚ) := by
  push_cast
  rw [zpow_natCast]

theorem q10_zpow_sub_one (n : ℕ) (hn : 1 ≤ n) :
    (10 : ℚ) ^ ((n : ℤ) - 1) = ((10 ^ (n - 1) : ℕ) : ℚ) := by
  rw [show (n : ℤ) - 1 = ((n - 1 : ℕ) : ℤ) by omega, q10_zpow_natCast]

/-- Modelled from the spec: `format_exact` (the exact/fixed kernel of
`strategy/grisu.rs` with its `dragon.rs` fallback, absent from the
sources).  Spec §4.5.2: emit `n` digits with `n` bounded by the buffer
length `m` and by the last-digit limit (`k − n = limit`, clipped at
zero); round the next digit half-to-even; a final carry turns the
buffer into `1 00…0` and increments `k`; if the limit is reached before
any digit is produced, return `k = limit` (rendered as zero by the
caller) unless the value rounds up to `10 ^ limit`, in which case the
single digit `1` is emitted with `k = limit + 1`. -/
def formatExact (v : Frac) (m : ℕ) (limit : ℤ) : List ℕ × ℤ :=
  let k0 : ℤ := fracFLogB 10 v + 1
  let n : ℕ := min m (k0 - limit).toNat
  if n = 0 then
    if k0 ≤ limit then
      if rndHE (Frac.mul v (powF 10 (-limit))) = 1 then ([49], limit + 1)
      else ([], limit)
    else ([], k0)
  else
    let D : ℤ := rndHE (Frac.mul v (powF 10 ((n : ℤ) - k0)))
    if D = 10 ^ n then (49 :: List.replicate (n - 1) 48, k0 + 1)
    else (digBytes D.toNat n, k0)

/-- The `PreFormatted` result type from `src/lib.rs`. -/
inductive PreFormatted where
  | NaN
  | Inf (sign : Bool)
  | Zero (sign : Bool)
  | Finite (sign : Bool) (digits : List ℕ) (trailing_zeros : ℕ) (k : ℤ)
deriving DecidableEq

/-- Translation of `generic::preformat_exact_exp` from `src/lib.rs`
(decoding and the kernel are modelled from the spec): clip the digit
request to `estimate_max_buf_len`, format with `limit = i16::MIN`, and
report `ndigits - |digits|` trailing zeros. -/
def preformat_exact_exp (φ : Fmt) (f : Flt) (ndigits : ℕ) : PreFormatted :=
  if f.isNaN φ then .NaN
  else if f.isInf φ then .Inf f.sign
  else if f.isZero then .Zero f.sign
  else
    let maxlen := estimate_max_buf_len (decodedExp φ f)
    let trunc := min ndigits maxlen
    let r := formatExact (f.magF φ) trunc (-32768)
    .Finite f.sign r.1 (ndigits - r.1.length) r.2

/-- Translation of `generic::preformat_exact_fixed` from `src/lib.rs`
(decoding and the kernel are modelled from the spec): format with
`limit = -frac_digits` (saturated to `i16::MIN` for requests of
`0x8000` or more) in a `maxlen` slice; a kernel exponent at or below
the limit renders as zero; otherwise the trailing zeros are
`frac_digits + k - |digits|` when `k > 0` and `0` when `k ≤ 0`. -/
def preformat_exact_fixed (φ : Fmt) (f : Flt) (frac_digits : ℕ) : PreFormatted :=
  if f.isNaN φ then .NaN
  else if f.isInf φ then .Inf f.sign
  else if f.isZero then .Zero f.sign
  else
    let maxlen := estimate_max_buf_len (decodedExp φ f)
    let limit : ℤ := if frac_digits < 0x8000 then -(frac_digits : ℤ) else -32768
    let r := formatExact (f.magF φ) maxlen limit
    if r.2 ≤ limit then .Zero f.sign
    else
      let num_zeros : ℕ :=
        if 0 < r.2 then (frac_digits + r.2.toNat) - r.1.length else 0
      .Finite f.sign r.1 num_zeros r.2

/-- Case analysis of `formatExact` on a positive, size-bounded value. -/
theorem formatExact_cases (v : Frac) (hn0 : 0 < v.num) (hd0 : 0 < v.den)
    (hsn : v.num.toNat < 10 ^ logFuel) (hsd : v.den.toNat < 10 ^ logFuel)
    (m : ℕ) (limit : ℤ) :
    (min m ((fracFLogB 10 v + 1) - limit).toNat = 0 ∧
      fracFLogB 10 v + 1 ≤ limit ∧
      (formatExact v m limit = ([], limit) ∨
        formatExact v m limit = ([49], limit + 1))) ∨
    (min m ((fracFLogB 10 v + 1) - limit).toNat = 0 ∧
      limit < fracFLogB 10 v + 1 ∧
      formatExact v m limit = ([], fracFLogB 10 v + 1)) ∨
    (∃ ds k, formatExact v m limit = (ds, k) ∧
      1 ≤ min m ((fracFLogB 10 v + 1) - limit).toNat ∧
      ds.length = min m ((fracFLogB 10 v + 1) - limit).toNat ∧
      (∀ c ∈ ds, 48 ≤ c ∧ c ≤ 57) ∧
      (∃ b t, ds = b :: t ∧ 49 ≤ b ∧ b ≤ 57) ∧
      (k = fracFLogB 10 v + 1 ∨ k = fracFLogB 10 v + 2)) := by
  set k0 : ℤ := fracFLogB 10 v + 1 with hk0
  set n : ℕ := min m (k0 - limit).toNat with hn
  by_cases hnz : n = 0
  · by_cases hk : k0 ≤ limit
    · left
      refine ⟨hnz, hk, ?_⟩
      simp only [formatExact]
      rw [← hk0, ← hn]
      rw [if_pos hnz, if_pos hk]
      by_cases hr : rndHE (Frac.mul v (powF 10 (-limit))) = 1
      · right; rw [if_pos hr]
      · left; rw [if_neg hr]
    · right; left
      push_neg at hk
      refine ⟨hnz, hk, ?_⟩
      simp only [formatExact]
      rw [← hk0, ← hn]
      rw [if_pos hnz, if_neg (by omega)]
  · right; right
    -- the value sits in its decade
    have hflog := fracFLogB_spec 10 (by norm_num) v hn0 hd0 hsn hsd
    have hv1 : (10 : ℚ) ^ (k0 - 1) ≤ v.toQ := by
      rw [hk0]
      simpa using hflog.1
    have hv2 : v.toQ < (10 : ℚ) ^ k0 := by
      rw [hk0]
      simpa using hflog.2
    have hnge : 1 ≤ n := by omega
    -- the scaled value x
    set a : Frac := Frac.mul v (powF 10 ((n : ℤ) - k0)) with ha
    have haden : 0 < a.den := by
      rw [ha]
      unfold Frac.mul
      simp only []
      exact mul_pos hd0 (powF_den_pos 10 _ (by norm_num))
    have hx : a.toQ = v.toQ * (10 : ℚ) ^ ((n : ℤ) - k0) := by
      rw [ha, Frac.toQ_mul, powF_toQ 10 _ (by norm_num)]
      norm_num
    have hp : (0 : ℚ) < (10 : ℚ) ^ ((n : ℤ) - k0) := zpow_pos (by norm_num) _
    have hxlo : (10 : ℚ) ^ ((n : ℤ) - 1) ≤ a.toQ := by
      rw [hx]
      calc (10 : ℚ) ^ ((n : ℤ) - 1)
          = (10 : ℚ) ^ (k0 - 1) * (10 : ℚ) ^ ((n : ℤ) - k0) := by
            rw [← zpow_add₀ (by norm_num : (10:ℚ) ≠ 0)]
            congr 1
            ring
      _ ≤ v.toQ * (10 : ℚ) ^ ((n : ℤ) - k0) :=
            mul_le_mul_of_nonneg_right hv1 (le_of_lt hp)
    have hxhi : a.toQ < (10 : ℚ) ^ (n : ℤ) := by
      rw [hx]
      calc v.toQ * (10 : ℚ) ^ ((n : ℤ) - k0)
          < (10 : ℚ) ^ k0 * (10 : ℚ) ^ ((n : ℤ) - k0) :=
            mul_lt_mul_of_pos_right hv2 hp
      _ = (10 : ℚ) ^ (n : ℤ) := by
            rw [← zpow_add₀ (by norm_num : (10:ℚ) ≠ 0)]
            congr 1
            ring
    set D : ℤ := rndHE a with hD
    have hDr : D = rndQ a.toQ := by rw [hD]; exact rndHE_eq_rndQ a haden
    obtain ⟨hb1, hb2⟩ := rndQ_bounds a.toQ
    have hDlo : (10 : ℕ) ^ (n - 1) ≤ D := by
      have h1 : ((10 ^ (n - 1) : ℕ) : ℚ) - 1/2 ≤ (D : ℚ) := by
        rw [hDr]
        calc ((10 ^ (n - 1) : ℕ) : ℚ) - 1/2
            = (10 : ℚ) ^ ((n : ℤ) - 1) - 1/2 := by rw [q10_zpow_sub_one n hnge]
        _ ≤ a.toQ - 1/2 := by linarith
        _ ≤ (rndQ a.toQ : ℚ) := hb1
      have h2 : ((10 ^ (n - 1) : ℕ) : ℤ) - 1 < D := by
        have : (((10 ^ (n - 1) : ℕ) : ℤ) : ℚ) - 1 < (D : ℚ) := by
          push_cast at h1 ⊢
          linarith
        exact_mod_cast this
      omega
    have hDhi : D ≤ (10 : ℕ) ^ n := by
      have h1 : (D : ℚ) < ((10 ^ n : ℕ) : ℚ) + 1/2 := by
        rw [hDr]
        calc (rndQ a.toQ : ℚ) ≤ a.toQ + 1/2 := hb2
        _ < (10 : ℚ) ^ (n : ℤ) + 1/2 := by linarith
        _ = ((10 ^ n : ℕ) : ℚ) + 1/2 := by rw [q10_zpow_natCast]
      have h2 : (D : ℚ) < (((10 ^ n : ℕ) : ℤ) : ℚ) + 1 := by
        push_cast at h1 ⊢
        linarith
      have : D < ((10 ^ n : ℕ) : ℤ) + 1 := by exact_mod_cast h2
      omega
    by_cases hcarry : D = 10 ^ n
    · refine ⟨49 :: List.replicate (n - 1) 48, k0 + 1, ?_, hnge, ?_, ?_, ?_, ?_⟩
      · simp only [formatExact]
        rw [← hk0, ← hn]
        rw [if_neg hnz, ← ha, ← hD, if_pos (by exact_mod_cast hcarry)]
      · simp only [List.length_cons, List.length_replicate]
        omega
      · intro c hc
        rcases List.mem_cons.mp hc with h | h
        · omega
        · have := List.eq_of_mem_replicate h
          omega
      · exact ⟨49, List.replicate (n - 1) 48, rfl, by omega, by omega⟩
      · right
        rw [hk0]
        ring
    · have hDlt : D < (10 : ℕ) ^ n := by
        have : (D : ℤ) ≠ ((10 : ℕ) ^ n : ℤ) := by
          intro h
          apply hcarry
          push_cast at h
          exact_mod_cast h
        omega
      have hD0 : 0 ≤ D := by
        have : (0 : ℤ) < (10 : ℕ) ^ (n - 1) := by positivity
        omega
      have hDNlo : 10 ^ (n - 1) ≤ D.toNat := by omega
      have hDNhi : D.toNat < 10 ^ n := by omega
      obtain ⟨hl, hv, hbytes, b, t, hbt, hb49, hb57⟩ :=
        digBytes_spec D.toNat n hnge hDNlo hDNhi
      refine ⟨digBytes D.toNat n, k0, ?_, hnge, hl, hbytes, ⟨b, t, hbt, hb49, hb57⟩, Or.inl rfl⟩
      simp only [formatExact]
      rw [← hk0, ← hn]
      rw [if_neg hnz, ← ha, ← hD, if_neg (by exact_mod_cast hcarry)]

/-! ### Basic facts about finite nonzero floats -/

theorem isFinNZ_not_special (φ : Fmt) (f : Flt) (h : f.isFinNZ φ) :
    ¬ f.isNaN φ ∧ ¬ f.isInf φ ∧ ¬ f.isZero := by
  obtain ⟨h1, h2⟩ := h
  refine ⟨?_, ?_, h2⟩
  · intro hc; exact h1 hc.1
  · intro hc; exact h1 hc.1

theorem mant0_pos (φ : Fmt) (f : Flt) (h : f.isFinNZ φ) : 0 < f.mant0 φ := by
  obtain ⟨h1, h2⟩ := h
  unfold Flt.mant0
  by_cases hb : f.be = 0
  · rw [if_pos hb]
    have : f.mbits ≠ 0 := fun hc => h2 ⟨hb, hc⟩
    omega
  · rw [if_neg hb]
    have : 0 < 2 ^ (φ.mb - 1) := Nat.pos_pow_of_pos _ (by norm_num)
    omega

theorem E0_ge_emin (φ : Fmt) (f : Flt) : φ.emin ≤ f.E0 φ := by
  unfold Flt.E0 Fmt.emin Fmt.bias
  by_cases hb : f.be = 0
  · rw [if_pos hb]
  · rw [if_neg hb]
    have : 1 ≤ (f.be : ℤ) := by
      have : f.be ≠ 0 := hb
      omega
    omega

/-- Size bounds on the magnitude fraction, for formats with small
mantissa/exponent fields. -/
theorem magF_bounds (φ : Fmt) (f : Flt) (hwf : f.WF φ) (hfin : f.isFinNZ φ)
    (hmb1 : 1 ≤ φ.mb) (hmb : φ.mb ≤ 64) (heb : φ.eb ≤ 11) :
    0 < (f.magF φ).num ∧ 0 < (f.magF φ).den ∧
    (f.magF φ).num.toNat < 10 ^ logFuel ∧ (f.magF φ).den.toNat < 10 ^ logFuel := by
  have hm0 : 0 < f.mant0 φ := mant0_pos φ f hfin
  have hmhi : f.mant0 φ < 2 ^ φ.mb := by
    unfold Flt.mant0
    obtain ⟨_, hm⟩ := hwf
    have hpow2 : (2:ℕ) ^ (φ.mb - 1) + 2 ^ (φ.mb - 1) = 2 ^ φ.mb := by
      have h1 : φ.mb - 1 + 1 = φ.mb := by omega
      calc (2:ℕ) ^ (φ.mb - 1) + 2 ^ (φ.mb - 1) = 2 ^ (φ.mb - 1 + 1) := by ring
      _ = 2 ^ φ.mb := by rw [h1]
    have hpow : (2:ℕ) ^ (φ.mb - 1) ≤ 2 ^ φ.mb := Nat.pow_le_pow_right (by norm_num) (by omega)
    by_cases hb : f.be = 0
    · rw [if_pos hb]
      omega
    · rw [if_neg hb]
      omega
  have hE1 : -(5000:ℤ) ≤ f.E0 φ := by
    have := E0_ge_emin φ f
    unfold Fmt.emin at this
    have hp : (2:ℤ) ^ (φ.eb - 1) ≤ 2 ^ 12 := by
      apply pow_le_pow_right₀ (by norm_num)
      omega
    have hmb64 : (φ.mb : ℤ) ≤ 64 := by exact_mod_cast hmb
    omega
  have hE2 : f.E0 φ ≤ 5000 := by
    unfold Flt.E0 Fmt.emin Fmt.bias
    obtain ⟨hbe, _⟩ := hwf
    have hbeZ : (f.be : ℤ) < 2 ^ φ.eb := by exact_mod_cast hbe
    have hp : (2:ℤ) ^ φ.eb ≤ 2 ^ 11 := by
      apply pow_le_pow_right₀ (by norm_num)
      omega
    have hp2 : (0:ℤ) < 2 ^ (φ.eb - 1) := by positivity
    have hmbZ : (1:ℤ) ≤ (φ.mb : ℤ) := by exact_mod_cast hmb1
    by_cases hb : f.be = 0
    · rw [if_pos hb]
      omega
    · rw [if_neg hb]
      omega
  have hone : (1:ℕ) < 10 ^ logFuel := Nat.one_lt_pow (by norm_num [logFuel]) (by norm_num)
  refine ⟨?_, dyF_den_pos _ _, ?_, ?_⟩
  · unfold Flt.magF dyF
    split
    · simp only []
      positivity
    · simp only []
      exact_mod_cast hm0
  · unfold Flt.magF dyF
    split
    · simp only []
      have hEn : (f.E0 φ).toNat ≤ 5000 := by omega
      have hcast : (f.mant0 φ : ℤ) * 2 ^ (f.E0 φ).toNat
          = ((f.mant0 φ * 2 ^ (f.E0 φ).toNat : ℕ) : ℤ) := by
        push_cast
        ring
      rw [hcast, Int.toNat_natCast]
      calc f.mant0 φ * 2 ^ (f.E0 φ).toNat
          < 2 ^ 64 * 2 ^ 5001 := by
            apply Nat.mul_lt_mul_of_lt_of_lt
            · calc f.mant0 φ < 2 ^ φ.mb := hmhi
              _ ≤ 2 ^ 64 := Nat.pow_le_pow_right (by norm_num) hmb
            · exact Nat.pow_lt_pow_right (by norm_num) (by omega)
      _ = 2 ^ 5065 := by rw [← pow_add]
      _ < 2 ^ logFuel := Nat.pow_lt_pow_right (by norm_num) (by norm_num [logFuel])
      _ ≤ 10 ^ logFuel := Nat.pow_le_pow_left (by norm_num) _
    · simp only []
      rw [Int.toNat_natCast]
      calc f.mant0 φ < 2 ^ φ.mb := hmhi
      _ ≤ 2 ^ 64 := Nat.pow_le_pow_right (by norm_num) hmb
      _ < 2 ^ logFuel := Nat.pow_lt_pow_right (by norm_num) (by norm_num [logFuel])
      _ ≤ 10 ^ logFuel := Nat.pow_le_pow_left (by norm_num) _
  · unfold Flt.magF dyF
    split
    · simp only []
      simpa using hone
    · simp only []
      have hEn : (-(f.E0 φ)).toNat ≤ 5000 := by omega
      have hcast : ((2:ℤ) ^ (-(f.E0 φ)).toNat)
          = ((2 ^ (-(f.E0 φ)).toNat : ℕ) : ℤ) := by
        push_cast
        ring
      rw [hcast, Int.toNat_natCast]
      calc (2:ℕ) ^ (-(f.E0 φ)).toNat ≤ 2 ^ 5000 :=
            Nat.pow_le_pow_right (by norm_num) hEn
      _ < 2 ^ logFuel := Nat.pow_lt_pow_right (by norm_num) (by norm_num [logFuel])
      _ ≤ 10 ^ logFuel := Nat.pow_le_pow_left (by norm_num) _

theorem Frac.toQ_pos (a : Frac) (hn : 0 < a.num) (hd : 0 < a.den) :
    0 < a.toQ := by
  unfold Frac.toQ
  apply div_pos
  · exact_mod_cast hn
  · exact_mod_cast hd

/-- Claim C6: if the magnitude of a finite nonzero float rounds to zero
at scale `10 ^ (-frac_digits)` (its product with `10 ^ frac_digits`
rounds half-to-even to `0`), then `preformat_exact_fixed` returns
`Zero(sign)`. -/
theorem preformat_exact_fixed_zero_spec (φ : Fmt)
    (hφ : φ = f32fmt ∨ φ = f64fmt)
    (f : Flt) (hwf : f.WF φ) (hfin : f.isFinNZ φ) (frac_digits : ℕ)
    (hround : rndHE (Frac.mul (f.magF φ) (powF 10 (frac_digits : ℤ))) = 0) :
    preformat_exact_fixed φ f frac_digits = .Zero f.sign := by
  obtain ⟨hnan, hinf, hzero⟩ := isFinNZ_not_special φ f hfin
  obtain ⟨hn0, hd0, hsn, hsd⟩ := magF_bounds φ f hwf hfin
    (by rcases hφ with h | h <;> rw [h] <;> norm_num [f32fmt, f64fmt])
    (by rcases hφ with h | h <;> rw [h] <;> norm_num [f32fmt, f64fmt])
    (by rcases hφ with h | h <;> rw [h] <;> norm_num [f32fmt, f64fmt])
  set v : Frac := f.magF φ with hv
  have haden : 0 < (Frac.mul v (powF 10 (frac_digits : ℤ))).den := by
    unfold Frac.mul
    exact mul_pos hd0 (powF_den_pos 10 _ (by norm_num))
  have hxq : (Frac.mul v (powF 10 (frac_digits : ℤ))).toQ
      = v.toQ * (10 : ℚ) ^ (frac_digits : ℤ) := by
    rw [Frac.toQ_mul, powF_toQ 10 _ (by norm_num)]
    norm_num
  have hrndQ : rndQ (v.toQ * (10 : ℚ) ^ (frac_digits : ℤ)) = 0 := by
    rw [← hxq, ← rndHE_eq_rndQ _ haden]
    exact hround
  have hxle : v.toQ * (10 : ℚ) ^ (frac_digits : ℤ) ≤ 1/2 := by
    rcases (rndQ_eq_iff _ 0).mp hrndQ with ⟨_, h⟩ | ⟨h, _⟩ | ⟨h, _⟩
    · push_cast at h; linarith
    · push_cast at h
      have hvpos : 0 < v.toQ := Frac.toQ_pos v hn0 hd0
      have hppos : (0:ℚ) < (10:ℚ) ^ (frac_digits : ℤ) := zpow_pos (by norm_num) _
      have hxpos : 0 < v.toQ * (10:ℚ) ^ (frac_digits : ℤ) := mul_pos hvpos hppos
      linarith
    · push_cast at h; linarith
  have hflog := fracFLogB_spec 10 (by norm_num) v hn0 hd0 hsn hsd
  set k0 : ℤ := fracFLogB 10 v + 1 with hk0
  have hv1 : (10 : ℚ) ^ (k0 - 1) ≤ v.toQ := by
    rw [hk0]
    simpa using hflog.1
  by_cases hfr : frac_digits < 0x8000
  · -- limit = -frac_digits
    have hk0le : k0 ≤ -(frac_digits : ℤ) := by
      by_contra hcon
      push_neg at hcon
      have h1 : (0:ℤ) ≤ k0 - 1 + frac_digits := by omega
      have h2 : (1:ℚ) ≤ (10:ℚ) ^ (k0 - 1 + frac_digits) :=
        one_le_zpow₀ (by norm_num) h1
      have h3 : (10:ℚ) ^ (k0 - 1 + (frac_digits:ℤ))
          = (10:ℚ) ^ (k0 - 1) * (10:ℚ) ^ (frac_digits:ℤ) :=
        zpow_add₀ (by norm_num) _ _
      have hppos : (0:ℚ) < (10:ℚ) ^ (frac_digits : ℤ) := zpow_pos (by norm_num) _
      have h4 : (1:ℚ) ≤ v.toQ * (10 : ℚ) ^ (frac_digits : ℤ) := by
        calc (1:ℚ) ≤ (10:ℚ) ^ (k0 - 1 + (frac_digits:ℤ)) := h2
        _ = (10:ℚ) ^ (k0 - 1) * (10:ℚ) ^ (frac_digits:ℤ) := h3
        _ ≤ v.toQ * (10 : ℚ) ^ (frac_digits : ℤ) :=
            mul_le_mul_of_nonneg_right hv1 (le_of_lt hppos)
      linarith
    have hnz : min (estimate_max_buf_len (decodedExp φ f))
        (k0 - -(frac_digits : ℤ)).toNat = 0 := by
      have : (k0 - -(frac_digits : ℤ)).toNat = 0 := by omega
      rw [this, Nat.min_zero]
    have hfe : formatExact v (estimate_max_buf_len (decodedExp φ f))
        (-(frac_digits : ℤ)) = ([], -(frac_digits : ℤ)) := by
      simp only [formatExact]
      rw [← hk0]
      rw [if_pos hnz, if_pos hk0le, neg_neg, if_neg (by omega)]
    simp only [preformat_exact_fixed]
    rw [if_neg hnan, if_neg hinf, if_neg hzero, if_pos hfr, ← hv, hfe]
    rw [if_pos (le_refl _)]
  · -- limit = i16::MIN; the hypothesis is then impossible
    exfalso
    push_neg at hfr
    have hvlow : (2:ℚ) ^ φ.emin ≤ v.toQ := by
      have hm1 : (1:ℚ) ≤ (f.mant0 φ : ℚ) := by
        have := mant0_pos φ f hfin
        exact_mod_cast this
      have hE := E0_ge_emin φ f
      calc (2:ℚ) ^ φ.emin ≤ (2:ℚ) ^ f.E0 φ := zpow_le_zpow_right₀ (by norm_num) hE
      _ = 1 * (2:ℚ) ^ f.E0 φ := by ring
      _ ≤ (f.mant0 φ : ℚ) * (2:ℚ) ^ f.E0 φ := by
          have : (0:ℚ) < (2:ℚ) ^ f.E0 φ := zpow_pos (by norm_num) _
          exact mul_le_mul_of_nonneg_right hm1 (le_of_lt this)
      _ = v.toQ := by rw [hv, Flt.magF_toQ]; rfl
    have hemin : -(1074:ℤ) ≤ φ.emin := by
      rcases hφ with h | h <;> rw [h] <;> norm_num [f32fmt, f64fmt, Fmt.emin]
    have hpow10 : ((10:ℚ) ^ ((32768:ℕ) : ℤ)) ≤ (10:ℚ) ^ (frac_digits : ℤ) := by
      apply zpow_le_zpow_right₀ (by norm_num)
      exact_mod_cast hfr
    have hkey : (1:ℚ) < (2:ℚ) ^ φ.emin * (10:ℚ) ^ ((32768:ℕ) : ℤ) := by
      have h2 : (2:ℚ) ^ ((32768:ℕ) : ℤ) ≤ (10:ℚ) ^ ((32768:ℕ) : ℤ) := by
        rw [zpow_natCast, zpow_natCast]
        apply pow_le_pow_left₀ (by norm_num) (by norm_num)
      have h3 : (2:ℚ) ^ φ.emin * (2:ℚ) ^ ((32768:ℕ) : ℤ)
          = (2:ℚ) ^ (φ.emin + 32768) := by
        rw [← zpow_add₀ (by norm_num : (2:ℚ) ≠ 0)]
        norm_num
      have h4 : (1:ℚ) < (2:ℚ) ^ (φ.emin + 32768) := by
        have : (0:ℤ) < φ.emin + 32768 := by omega
        calc (1:ℚ) = (2:ℚ) ^ (0:ℤ) := by norm_num
        _ < (2:ℚ) ^ (φ.emin + 32768) := by
              apply zpow_lt_zpow_right₀ (by norm_num)
              omega
      have h5 : (0:ℚ) < (2:ℚ) ^ φ.emin := zpow_pos (by norm_num) _
      calc (1:ℚ) < (2:ℚ) ^ (φ.emin + 32768) := h4
      _ = (2:ℚ) ^ φ.emin * (2:ℚ) ^ ((32768:ℕ) : ℤ) := by rw [h3]
      _ ≤ (2:ℚ) ^ φ.emin * (10:ℚ) ^ ((32768:ℕ) : ℤ) :=
          mul_le_mul_of_nonneg_left h2 (le_of_lt h5)
    have hx1 : (1:ℚ) < v.toQ * (10 : ℚ) ^ (frac_digits : ℤ) := by
      have h5 : (0:ℚ) < (2:ℚ) ^ φ.emin := zpow_pos (by norm_num) _
      have h6 : (0:ℚ) ≤ (10:ℚ) ^ ((32768:ℕ) : ℤ) := le_of_lt (zpow_pos (by norm_num) _)
      calc (1:ℚ) < (2:ℚ) ^ φ.emin * (10:ℚ) ^ ((32768:ℕ) : ℤ) := hkey
      _ ≤ v.toQ * (10:ℚ) ^ ((32768:ℕ) : ℤ) := mul_le_mul_of_nonneg_right hvlow h6
      _ ≤ v.toQ * (10:ℚ) ^ (frac_digits : ℤ) := by
          apply mul_le_mul_of_nonneg_left hpow10
          exact le_of_lt (Frac.toQ_pos v hn0 hd0)
    linarith

/-- Witness for C6: the f32 nearest `0.3e-4` with `frac_digits = 2`
(the doc example from `src/lib.rs`). -/
theorem preformat_exact_fixed_zero_spec_witness :
    rndHE (Frac.mul (Flt.magF f32fmt ⟨false, 111, 8104066⟩) (powF 10 (2 : ℤ))) = 0 ∧
      preformat_exact_fixed f32fmt ⟨false, 111, 8104066⟩ 2 = .Zero false := by
  constructor
  · decide
  · exact preformat_exact_fixed_zero_spec f32fmt (Or.inl rfl)
      ⟨false, 111, 8104066⟩ (by decide) (by decide) 2 (by decide)

/-- Claim C5 (amended): for a `Finite(sign, ds, tz, k)` result of
`preformat_exact_fixed`, the formula `tz = max 0 (frac_digits + k - |ds|)`
holds whenever `k > 0`; for `k ≤ 0` the code reports `tz = 0` (which can
differ from the formula when the estimator cap truncated the digits). -/
theorem preformat_exact_fixed_tz_spec (φ : Fmt)
    (hφ : φ = f32fmt ∨ φ = f64fmt)
    (f : Flt) (hwf : f.WF φ) (hfin : f.isFinNZ φ) (frac_digits : ℕ)
    (s : Bool) (ds : List ℕ) (tz : ℕ) (k : ℤ)
    (hres : preformat_exact_fixed φ f frac_digits = .Finite s ds tz k) :
    (0 < k → (tz : ℤ) = max 0 ((frac_digits : ℤ) + k - ds.length)) ∧
    (k ≤ 0 → tz = 0) := by
  obtain ⟨hnan, hinf, hzero⟩ := isFinNZ_not_special φ f hfin
  obtain ⟨hn0, hd0, hsn, hsd⟩ := magF_bounds φ f hwf hfin
    (by rcases hφ with h | h <;> rw [h] <;> norm_num [f32fmt, f64fmt])
    (by rcases hφ with h | h <;> rw [h] <;> norm_num [f32fmt, f64fmt])
    (by rcases hφ with h | h <;> rw [h] <;> norm_num [f32fmt, f64fmt])
  simp only [preformat_exact_fixed] at hres
  rw [if_neg hnan, if_neg hinf, if_neg hzero] at hres
  set v : Frac := f.magF φ with hv
  set maxlen : ℕ := estimate_max_buf_len (decodedExp φ f) with hml
  set L : ℤ := if frac_digits < 0x8000 then -(frac_digits : ℤ) else -32768 with hL
  have hLfrac : -(L : ℤ) ≤ (frac_digits : ℤ) := by
    rw [hL]
    split <;> omega
  by_cases hle : (formatExact v maxlen L).2 ≤ L
  · rw [if_pos hle] at hres
    exact absurd hres (by simp)
  · rw [if_neg hle] at hres
    simp only [PreFormatted.Finite.injEq] at hres
    obtain ⟨hs, hds, htz, hk⟩ := hres
    push_neg at hle
    have hLf : L = -(frac_digits : ℤ) ∨ L = -32768 := by
      rw [hL]
      split
      · left; rfl
      · right; rfl
    rcases formatExact_cases v hn0 hd0 hsn hsd maxlen L with
      ⟨hmin0, hk0le, hcase | hcase⟩ | ⟨hmin0, hk0lt, hcase⟩ |
      ⟨ds0, k0r, hfe, hn1, hlen, hbytes, hhead, hkk⟩
    · rw [hcase] at hle hk
      simp at hle
    · rw [hcase] at hle hk htz hds
      simp only [] at hk htz hds
      have hdsl : ds.length = 1 := by rw [← hds]; rfl
      constructor
      · intro hkpos
        rw [if_pos (by omega)] at htz
        simp only [List.length_cons, List.length_nil] at htz
        rcases hLf with h | h <;> omega
      · intro hkneg
        rw [if_neg (by omega)] at htz
        omega
    · rw [hcase] at hle hk htz hds
      simp only [] at hk htz hds
      have hdsl : ds.length = 0 := by rw [← hds]; rfl
      constructor
      · intro hkpos
        rw [if_pos (by omega)] at htz
        simp only [List.length_nil] at htz
        omega
      · intro hkneg
        rw [if_neg (by omega)] at htz
        omega
    · rw [hfe] at hle hk htz hds
      simp only [] at hk htz hds
      have hnle : ds0.length ≤ ((fracFLogB 10 v + 1) - L).toNat := by
        rw [hlen]
        exact Nat.min_le_right _ _
      have hkge : fracFLogB 10 v + 1 ≤ k0r := by omega
      have htn : 1 ≤ ((fracFLogB 10 v + 1) - L).toNat := by
        have := Nat.min_le_right maxlen ((fracFLogB 10 v + 1) - L).toNat
        omega
      have hlenk : (ds0.length : ℤ) ≤ k0r - L := by omega
      have hdsl : ds0.length = ds.length := by rw [hds]
      constructor
      · intro hkpos
        rw [if_pos (by omega)] at htz
        rcases hLf with h | h <;> omega
      · intro hkneg
        rw [if_neg (by omega)] at htz
        omega

/-- Counterexample to claim C5 as stated: for the f32 value `2^-10` with
`frac_digits = 100`, the kernel output is truncated by the estimator cap
(46 digits at `k = -3`), the code reports `trailing_zeros = 0`, but the
claimed formula gives `51`. -/
theorem preformat_exact_fixed_tz_counterexample :
    preformat_exact_fixed f32fmt ⟨false, 117, 0⟩ 100
      = .Finite false (digBytes (9765625 * 10 ^ 39) 46) 0 (-3) ∧
    max 0 ((100 : ℤ) + (-3) - ((digBytes (9765625 * 10 ^ 39) 46).length : ℤ)) = 51 ∧
    (0 : ℤ) ≠ 51 := by
  refine ⟨by decide, by decide, by decide⟩

/-- Witness for C5 at the f32 value `3.0` with three fractional digits
(result `3000`, `k = 1`). -/
theorem preformat_exact_fixed_tz_spec_witness :
    ((0 : ℤ) < 1 → ((0 : ℕ) : ℤ)
        = max 0 ((3 : ℤ) + 1 - (([51, 48, 48, 48] : List ℕ).length : ℤ))) ∧
    ((1 : ℤ) ≤ 0 → (0 : ℕ) = 0) :=
  preformat_exact_fixed_tz_spec f32fmt (Or.inl rfl) ⟨false, 128, 4194304⟩
    (by decide) (by decide) 3 false [51, 48, 48, 48] 0 1 (by decide)

/-! ### The rounding region of a finite nonzero float

Per the problem statement at the head of `src/core_num/flt2dec/mod.rs`:
any number strictly between `v - minus` and `v + plus` rounds back to
`v` (the interval is closed when the original mantissa is even).  The
upper half-gap is always half an ulp; the lower half-gap is a quarter
ulp exactly on binade boundaries above the smallest normal. -/

def Flt.regionLo (φ : Fmt) (f : Flt) : Frac :=
  if f.mbits = 0 ∧ 1 < f.be then dyF (4 * (f.mant0 φ : ℤ) - 1) (f.E0 φ - 2)
  else dyF (4 * (f.mant0 φ : ℤ) - 2) (f.E0 φ - 2)

def Flt.regionHi (φ : Fmt) (f : Flt) : Frac :=
  dyF (4 * (f.mant0 φ : ℤ) + 2) (f.E0 φ - 2)

/-- The rounding interval is closed iff the original mantissa is even
(round-to-even). -/
def Flt.inclusive (φ : Fmt) (f : Flt) : Prop :=
  f.mant0 φ % 2 = 0

instance (φ : Fmt) (f : Flt) : Decidable (Flt.inclusive φ f) := by
  unfold Flt.inclusive; infer_instance

/-- Membership in the rounding region (proof-side, on `ℚ`). -/
def inRegion (φ : Fmt) (f : Flt) (q : ℚ) : Prop :=
  if f.inclusive φ then (f.regionLo φ).toQ ≤ q ∧ q ≤ (f.regionHi φ).toQ
  else (f.regionLo φ).toQ < q ∧ q < (f.regionHi φ).toQ

/-! ### Shortest-mode candidate machinery -/

/-- Least `z` with `a ≤ 10 ^ z`, for a positive fraction. -/
def clog10F (a : Frac) : ℤ :=
  let fl := fracFLogB 10 a
  if Frac.equ a (powF 10 fl) then fl else fl + 1

/-- Smallest admissible mantissa at scale `10 ^ j` (before digit-range
clipping). -/
def candLo (φ : Fmt) (f : Flt) (j : ℤ) : ℤ :=
  if f.inclusive φ then Frac.ceil (Frac.mul (f.regionLo φ) (powF 10 (-j)))
  else Frac.floor (Frac.mul (f.regionLo φ) (powF 10 (-j))) + 1

/-- Largest admissible mantissa at scale `10 ^ j` (before digit-range
clipping). -/
def candHi (φ : Fmt) (f : Flt) (j : ℤ) : ℤ :=
  if f.inclusive φ then Frac.floor (Frac.mul (f.regionHi φ) (powF 10 (-j)))
  else Frac.ceil (Frac.mul (f.regionHi φ) (powF 10 (-j))) - 1

def candLoC (φ : Fmt) (f : Flt) (n : ℕ) (kk : ℤ) : ℤ :=
  max (candLo φ f (kk - n)) (10 ^ (n - 1))

def candHiC (φ : Fmt) (f : Flt) (n : ℕ) (kk : ℤ) : ℤ :=
  min (candHi φ f (kk - n)) (10 ^ n - 1)

/-- There is an `n`-digit decimal in the region with decade `kk`. -/
def hasAt (φ : Fmt) (f : Flt) (n : ℕ) (kk : ℤ) : Prop :=
  candLoC φ f n kk ≤ candHiC φ f n kk

instance (φ : Fmt) (f : Flt) (n : ℕ) (kk : ℤ) : Decidable (hasAt φ f n kk) := by
  unfold hasAt; infer_instance

/-- The admissible `n`-digit mantissa at decade `kk` closest to `v`. -/
def clampD (φ : Fmt) (f : Flt) (v : Frac) (n : ℕ) (kk : ℤ) : ℤ :=
  max (candLoC φ f n kk)
    (min (candHiC φ f n kk) (rndHE (Frac.mul v (powF 10 ((n : ℤ) - kk)))))

def Frac.sub (a b : Frac) : Frac :=
  ⟨a.num * b.den - b.num * a.den, a.den * b.den⟩

def Frac.absF (a : Frac) : Frac :=
  ⟨(a.num.natAbs : ℤ), a.den⟩

/-- Of two candidate/decade pairs, keep the one whose value is closer
to `v` (ties to the first). -/
def better (v : Frac) (n : ℕ) (p q : ℤ × ℤ) : ℤ × ℤ :=
  if Frac.le (Frac.absF (Frac.sub (deF p.1 (p.2 - n)) v))
      (Frac.absF (Frac.sub (deF q.1 (q.2 - n)) v)) then p else q

/-- First index at or after `start` satisfying `p`, within `fuel`
steps. -/
def searchFrom (p : ℕ → Bool) : ℕ → ℕ → Option ℕ
  | 0, _ => none
  | fuel + 1, start => if p start then some start else searchFrom p fuel (start + 1)

theorem searchFrom_some (p : ℕ → Bool) :
    ∀ fuel start n, searchFrom p fuel start = some n →
      start ≤ n ∧ n < start + fuel ∧ p n = true ∧
      ∀ m, start ≤ m → m < n → p m = false := by
  intro fuel
  induction fuel with
  | zero => intro start n h; simp [searchFrom] at h
  | succ fuel ih =>
    intro start n h
    unfold searchFrom at h
    by_cases hp : p start
    · rw [if_pos hp] at h
      cases h
      exact ⟨le_refl _, by omega, hp, fun m h1 h2 => by omega⟩
    · rw [if_neg hp] at h
      obtain ⟨h1, h2, h3, h4⟩ := ih (start + 1) n h
      refine ⟨by omega, by omega, h3, ?_⟩
      intro m hm1 hm2
      by_cases hme : m = start
      · subst hme
        exact Bool.eq_false_iff.mpr hp
      · exact h4 m (by omega) hm2

theorem searchFrom_complete (p : ℕ → Bool) :
    ∀ fuel start i, i < fuel → p (start + i) = true →
      (searchFrom p fuel start).isSome := by
  intro fuel
  induction fuel with
  | zero => intro start i h; omega
  | succ fuel ih =>
    intro start i hi hp
    unfold searchFrom
    by_cases hps : p start
    · rw [if_pos hps]; rfl
    · rw [if_neg hps]
      have hine : i ≠ 0 := by
        intro h
        subst h
        simp at hp
        exact hps hp
      exact ih (start + 1) (i - 1) (by omega)
        (by have : start + 1 + (i - 1) = start + i := by omega
            rw [this]; exact hp)

theorem foldl_better_mem (v : Frac) (n : ℕ) :
    ∀ (l : List (ℤ × ℤ)) (p : ℤ × ℤ), l.foldl (better v n) p ∈ p :: l := by
  intro l
  induction l with
  | nil => intro p; simp
  | cons q t ih =>
    intro p
    simp only [List.foldl_cons]
    have h1 := ih (better v n p q)
    have h2 : better v n p q = p ∨ better v n p q = q := by
      unfold better
      split
      · left; rfl
      · right; rfl
    rcases List.mem_cons.mp h1 with h | h
    · rcases h2 with h2 | h2
      · exact List.mem_cons.mpr (Or.inl (h.trans h2))
      · exact List.mem_cons.mpr (Or.inr (List.mem_cons.mpr (Or.inl (h.trans h2))))
    · exact List.mem_cons.mpr (Or.inr (List.mem_cons.mpr (Or.inr h)))

/-- Render the best of a list of candidate/decade pairs. -/
def pickBest (v : Frac) (n : ℕ) (l : List (ℤ × ℤ)) : List ℕ × ℤ :=
  match l with
  | [] => ([], 0)
  | p :: rest =>
    ((digBytes ((rest.foldl (better v n) p).1).toNat n),
      (rest.foldl (better v n) p).2)

/-- The candidate/decade pairs with `n` digits around decade `ks`. -/
def candList (φ : Fmt) (f : Flt) (v : Frac) (n : ℕ) (ks : ℤ) : List (ℤ × ℤ) :=
  ([ks + 1, ks, ks - 1].filter (fun kk => decide (hasAt φ f n kk))).map
    (fun kk => (clampD φ f v n kk, kk))

def shortestOf (φ : Fmt) (f : Flt) (v : Frac) (ks : ℤ) (o : Option ℕ) :
    List ℕ × ℤ :=
  match o with
  | none => ([], 0)
  | some n => pickBest v n (candList φ f v n ks)

/-- Search predicate: some `n`-digit decimal lies in the region. -/
def shortP (φ : Fmt) (f : Flt) (ks : ℤ) : ℕ → Bool :=
  fun n => decide (hasAt φ f n (ks + 1) ∨ hasAt φ f n ks ∨ hasAt φ f n (ks - 1))

/-- Modelled from the spec: `format_shortest` (the shortest-mode kernel
of `strategy/grisu.rs` with its `dragon.rs` fallback, absent from the
sources).  Per the problem statement of `src/core_num/flt2dec/mod.rs`:
return the decimal `0.d[0..n-1] * 10^k` with the fewest digits that
lies inside the rounding interval of the value, choosing among the
admissible mantissas the one closest to the value. -/
def formatShortest (φ : Fmt) (f : Flt) : List ℕ × ℤ :=
  let v := f.magF φ
  let ks := clog10F (f.regionHi φ)
  shortestOf φ f v ks (searchFrom (shortP φ f ks) φ.mb 1)

theorem shortestOf_some (φ : Fmt) (f : Flt) (v : Frac) (ks : ℤ) (n : ℕ) :
    shortestOf φ f v ks (some n) = pickBest v n (candList φ f v n ks) := rfl

theorem pickBest_cons (v : Frac) (n : ℕ) (p : ℤ × ℤ) (rest : List (ℤ × ℤ)) :
    pickBest v n (p :: rest)
      = ((digBytes ((rest.foldl (better v n) p).1).toNat n),
          (rest.foldl (better v n) p).2) := rfl

/-- Translation of `generic::preformat_shortest` from `src/lib.rs`
(decode and the kernel are modelled from the spec);
`trailing_zeros = 0`. -/
def preformat_shortest (φ : Fmt) (f : Flt) : PreFormatted :=
  if f.isNaN φ then .NaN
  else if f.isInf φ then .Inf f.sign
  else if f.isZero then .Zero f.sign
  else
    let r := formatShortest φ f
    .Finite f.sign r.1 0 r.2

/-! ### Size and ordering facts about the region bounds -/

theorem mant0_lt (φ : Fmt) (f : Flt) (hwf : f.WF φ) (hmb1 : 1 ≤ φ.mb) :
    f.mant0 φ < 2 ^ φ.mb := by
  unfold Flt.mant0
  obtain ⟨_, hm⟩ := hwf
  have hpow2 : (2:ℕ) ^ (φ.mb - 1) + 2 ^ (φ.mb - 1) = 2 ^ φ.mb := by
    have h1 : φ.mb - 1 + 1 = φ.mb := by omega
    calc (2:ℕ) ^ (φ.mb - 1) + 2 ^ (φ.mb - 1) = 2 ^ (φ.mb - 1 + 1) := by ring
    _ = 2 ^ φ.mb := by rw [h1]
  have hpow : (2:ℕ) ^ (φ.mb - 1) ≤ 2 ^ φ.mb := Nat.pow_le_pow_right (by norm_num) (by omega)
  have hp0 : 0 < (2:ℕ) ^ φ.mb := Nat.pos_pow_of_pos _ (by norm_num)
  by_cases hb : f.be = 0
  · rw [if_pos hb]; omega
  · rw [if_neg hb]; omega

theorem E0_bounds (φ : Fmt) (f : Flt) (hwf : f.WF φ)
    (hmb1 : 1 ≤ φ.mb) (hmb : φ.mb ≤ 64) (heb : φ.eb ≤ 11) :
    -5000 ≤ f.E0 φ ∧ f.E0 φ ≤ 5000 := by
  constructor
  · have := E0_ge_emin φ f
    unfold Fmt.emin at this
    have hp : (2:ℤ) ^ (φ.eb - 1) ≤ 2 ^ 12 := by
      apply pow_le_pow_right₀ (by norm_num)
      omega
    have hmb64 : (φ.mb : ℤ) ≤ 64 := by exact_mod_cast hmb
    omega
  · unfold Flt.E0 Fmt.emin Fmt.bias
    obtain ⟨hbe, _⟩ := hwf
    have hbeZ : (f.be : ℤ) < 2 ^ φ.eb := by exact_mod_cast hbe
    have hp : (2:ℤ) ^ φ.eb ≤ 2 ^ 11 := by
      apply pow_le_pow_right₀ (by norm_num)
      omega
    have hp2 : (0:ℤ) < 2 ^ (φ.eb - 1) := by positivity
    have hmbZ : (1:ℤ) ≤ (φ.mb : ℤ) := by exact_mod_cast hmb1
    by_cases hb : f.be = 0
    · rw [if_pos hb]
      omega
    · rw [if_neg hb]
      omega

/-- Size bounds on a dyadic fraction with moderate components. -/
theorem dyF_size (nz e : ℤ) (h0 : 0 < nz) (hn : nz ≤ 2 ^ 70)
    (he1 : -5100 ≤ e) (he2 : e ≤ 5100) :
    0 < (dyF nz e).num ∧ 0 < (dyF nz e).den ∧
    (dyF nz e).num.toNat < 10 ^ logFuel ∧ (dyF nz e).den.toNat < 10 ^ logFuel := by
  have hone : (1:ℕ) < 10 ^ logFuel := Nat.one_lt_pow (by norm_num [logFuel]) (by norm_num)
  have hNbig : (2 ^ 5170 : ℕ) < 10 ^ logFuel := by
    calc (2:ℕ) ^ 5170 < 2 ^ logFuel := Nat.pow_lt_pow_right (by norm_num) (by norm_num [logFuel])
    _ ≤ 10 ^ logFuel := Nat.pow_le_pow_left (by norm_num) _
  unfold dyF
  by_cases h : 0 ≤ e
  · rw [if_pos h]
    refine ⟨?_, by simp, ?_, by simpa using hone⟩
    · simp only []
      positivity
    · simp only []
      have hee : e.toNat ≤ 5100 := by omega
      have hple : (2:ℤ) ^ e.toNat ≤ 2 ^ 5100 := pow_le_pow_right₀ (by norm_num) hee
      have hmul : nz * 2 ^ e.toNat ≤ 2 ^ 70 * 2 ^ 5100 := by
        have hp0 : (0:ℤ) < 2 ^ e.toNat := by positivity
        calc nz * 2 ^ e.toNat ≤ 2 ^ 70 * 2 ^ e.toNat :=
              mul_le_mul_of_nonneg_right hn (by positivity)
        _ ≤ 2 ^ 70 * 2 ^ 5100 := mul_le_mul_of_nonneg_left hple (by positivity)
      have hc : ((2:ℤ) ^ 70 * 2 ^ 5100) = ((2 ^ 5170 : ℕ) : ℤ) := by norm_num
      rw [hc] at hmul
      have hpos : (0:ℤ) < nz * 2 ^ e.toNat := by positivity
      omega
  · rw [if_neg h]
    refine ⟨h0, by positivity, ?_, ?_⟩
    · simp only []
      have hc : ((2:ℤ) ^ 70) = ((2 ^ 70 : ℕ) : ℤ) := by norm_num
      rw [hc] at hn
      have h70 : (2 ^ 70 : ℕ) < 10 ^ logFuel := by
        calc (2:ℕ) ^ 70 < 2 ^ 5170 := Nat.pow_lt_pow_right (by norm_num) (by norm_num)
        _ < 10 ^ logFuel := hNbig
      omega
    · simp only []
      have hee : (-e).toNat ≤ 5100 := by omega
      have hcast : ((2:ℤ) ^ (-e).toNat) = ((2 ^ (-e).toNat : ℕ) : ℤ) := by
        push_cast
        ring
      rw [hcast, Int.toNat_natCast]
      calc (2:ℕ) ^ (-e).toNat ≤ 2 ^ 5100 := Nat.pow_le_pow_right (by norm_num) hee
      _ < 2 ^ 5170 := Nat.pow_lt_pow_right (by norm_num) (by norm_num)
      _ < 10 ^ logFuel := hNbig

theorem region_size (φ : Fmt) (f : Flt) (hwf : f.WF φ) (hfin : f.isFinNZ φ)
    (hmb1 : 1 ≤ φ.mb) (hmb : φ.mb ≤ 64) (heb : φ.eb ≤ 11) :
    (0 < (f.regionLo φ).num ∧ 0 < (f.regionLo φ).den ∧
      (f.regionLo φ).num.toNat < 10 ^ logFuel ∧
      (f.regionLo φ).den.toNat < 10 ^ logFuel) ∧
    (0 < (f.regionHi φ).num ∧ 0 < (f.regionHi φ).den ∧
      (f.regionHi φ).num.toNat < 10 ^ logFuel ∧
      (f.regionHi φ).den.toNat < 10 ^ logFuel) := by
  have hm0 : 0 < f.mant0 φ := mant0_pos φ f hfin
  have hmlt : f.mant0 φ < 2 ^ φ.mb := mant0_lt φ f hwf hmb1
  obtain ⟨hE1, hE2⟩ := E0_bounds φ f hwf hmb1 hmb heb
  have hmZ : (1:ℤ) ≤ (f.mant0 φ : ℤ) := by exact_mod_cast hm0
  have hmZ2 : (f.mant0 φ : ℤ) < 2 ^ 64 := by
    have h1 : (f.mant0 φ : ℤ) < ((2 ^ φ.mb : ℕ) : ℤ) := by exact_mod_cast hmlt
    have h2 : ((2 ^ φ.mb : ℕ) : ℤ) ≤ ((2 ^ 64 : ℕ) : ℤ) := by
      exact_mod_cast Nat.pow_le_pow_right (by norm_num) hmb
    have h3 : ((2 ^ 64 : ℕ) : ℤ) = 2 ^ 64 := by norm_num
    omega
  have h70 : (2:ℤ) ^ 70 = 64 * 2 ^ 64 := by norm_num
  constructor
  · unfold Flt.regionLo
    split
    · exact dyF_size _ _ (by omega) (by omega) (by omega) (by omega)
    · exact dyF_size _ _ (by omega) (by omega) (by omega) (by omega)
  · exact dyF_size _ _ (by omega) (by omega) (by omega) (by omega)

theorem regionHi_toQ (φ : Fmt) (f : Flt) :
    (f.regionHi φ).toQ = (4 * (f.mant0 φ : ℚ) + 2) * 2 ^ (f.E0 φ - 2) := by
  unfold Flt.regionHi
  rw [dyF_toQ]
  push_cast
  ring

theorem regionLo_toQ (φ : Fmt) (f : Flt) :
    (f.regionLo φ).toQ =
      (if f.mbits = 0 ∧ 1 < f.be then 4 * (f.mant0 φ : ℚ) - 1
        else 4 * (f.mant0 φ : ℚ) - 2) * 2 ^ (f.E0 φ - 2) := by
  unfold Flt.regionLo
  split <;> rw [dyF_toQ] <;> push_cast <;> ring

theorem q2_zpow_natCast (k : ℕ) : (2 : ℚ) ^ (k : ℤ) = ((2 ^ k : ℕ) : ℚ) := by
  push_cast
  rw [zpow_natCast]

theorem regionLo_pos (φ : Fmt) (f : Flt) (hfin : f.isFinNZ φ) :
    0 < (f.regionLo φ).toQ := by
  rw [regionLo_toQ]
  have hm : (1:ℚ) ≤ (f.mant0 φ : ℚ) := by exact_mod_cast mant0_pos φ f hfin
  apply mul_pos
  · split <;> linarith
  · positivity

theorem regionLo_lt_hi (φ : Fmt) (f : Flt) :
    (f.regionLo φ).toQ < (f.regionHi φ).toQ := by
  rw [regionLo_toQ, regionHi_toQ]
  have hQ : (0:ℚ) < 2 ^ (f.E0 φ - 2) := by positivity
  apply mul_lt_mul_of_pos_right _ hQ
  split <;> linarith

theorem three_regionLo (φ : Fmt) (f : Flt) (hfin : f.isFinNZ φ) :
    (f.regionHi φ).toQ ≤ 3 * (f.regionLo φ).toQ := by
  rw [regionLo_toQ, regionHi_toQ]
  have hm : (1:ℚ) ≤ (f.mant0 φ : ℚ) := by exact_mod_cast mant0_pos φ f hfin
  have hQ : (0:ℚ) < 2 ^ (f.E0 φ - 2) := by positivity
  rw [← mul_assoc]
  apply mul_le_mul_of_nonneg_right _ (le_of_lt hQ)
  split <;> linarith

theorem zpow2_E0_split (E : ℤ) : (2:ℚ) ^ E = 4 * 2 ^ (E - 2) := by
  rw [show E = (E - 2) + 2 by ring, zpow_add₀ (by norm_num : (2:ℚ) ≠ 0)]
  ring

theorem regionLo_lt_mag (φ : Fmt) (f : Flt) :
    (f.regionLo φ).toQ < f.mag φ := by
  rw [regionLo_toQ]
  unfold Flt.mag
  rw [zpow2_E0_split (f.E0 φ)]
  have hQ : (0:ℚ) < 2 ^ (f.E0 φ - 2) := by positivity
  have h : (f.mant0 φ : ℚ) * (4 * 2 ^ (f.E0 φ - 2))
      = (4 * (f.mant0 φ : ℚ)) * 2 ^ (f.E0 φ - 2) := by ring
  rw [h]
  apply mul_lt_mul_of_pos_right _ hQ
  split <;> linarith

theorem mag_lt_regionHi (φ : Fmt) (f : Flt) :
    f.mag φ < (f.regionHi φ).toQ := by
  rw [regionHi_toQ]
  unfold Flt.mag
  rw [zpow2_E0_split (f.E0 φ)]
  have hQ : (0:ℚ) < 2 ^ (f.E0 φ - 2) := by positivity
  have h : (f.mant0 φ : ℚ) * (4 * 2 ^ (f.E0 φ - 2))
      = (4 * (f.mant0 φ : ℚ)) * 2 ^ (f.E0 φ - 2) := by ring
  rw [h]
  apply mul_lt_mul_of_pos_right _ hQ
  linarith

theorem regionHi_toQ_bounds (φ : Fmt) (f : Flt) (hwf : f.WF φ)
    (hmb1 : 1 ≤ φ.mb) :
    (2:ℚ) ^ (f.E0 φ - 2) < (f.regionHi φ).toQ ∧
    (f.regionHi φ).toQ < 2 ^ (f.E0 φ + φ.mb + 1) := by
  rw [regionHi_toQ]
  have hQ : (0:ℚ) < 2 ^ (f.E0 φ - 2) := by positivity
  have hm0 : (0:ℚ) ≤ (f.mant0 φ : ℚ) := by positivity
  constructor
  · nlinarith
  · have hmlt : (f.mant0 φ : ℚ) < (2:ℚ) ^ (φ.mb : ℤ) := by
      rw [q2_zpow_natCast]
      exact_mod_cast mant0_lt φ f hwf hmb1
    have hsplit : (2:ℚ) ^ (f.E0 φ + φ.mb + 1)
        = (2:ℚ) ^ (φ.mb : ℤ) * 8 * 2 ^ (f.E0 φ - 2) := by
      rw [show f.E0 φ + φ.mb + 1 = (φ.mb : ℤ) + 3 + (f.E0 φ - 2) by ring,
        zpow_add₀ (by norm_num : (2:ℚ) ≠ 0),
        zpow_add₀ (by norm_num : (2:ℚ) ≠ 0)]
      norm_num
    rw [hsplit]
    have h8 : 4 * (f.mant0 φ : ℚ) + 2 < (2:ℚ) ^ (φ.mb : ℤ) * 8 := by
      have hp1 : (1:ℚ) ≤ (2:ℚ) ^ (φ.mb : ℤ) := one_le_zpow₀ (by norm_num) (by positivity)
      nlinarith
    exact mul_lt_mul_of_pos_right h8 hQ

theorem clog10F_spec (a : Frac) (hn : 0 < a.num) (hd : 0 < a.den)
    (hfn : a.num.toNat < 10 ^ logFuel) (hfd : a.den.toNat < 10 ^ logFuel) :
    (10:ℚ) ^ (clog10F a - 1) < a.toQ ∧ a.toQ ≤ 10 ^ (clog10F a) := by
  obtain ⟨h1, h2⟩ := fracFLogB_spec 10 (by norm_num) a hn hd hfn hfd
  unfold clog10F
  simp only []
  set fl := fracFLogB 10 a with hfl
  have hpd : 0 < (powF 10 fl).den := powF_den_pos 10 fl (by norm_num)
  have hpq : (powF 10 fl).toQ = (10:ℚ) ^ fl := powF_toQ 10 fl (by norm_num)
  by_cases he : Frac.equ a (powF 10 fl)
  · rw [if_pos he]
    have heq : a.toQ = (10:ℚ) ^ fl := by
      rw [← hpq]
      exact (Frac.equ_iff a (powF 10 fl) hd hpd).mp he
    constructor
    · rw [heq]
      apply zpow_lt_zpow_right₀ (by norm_num : (1:ℚ) < 10)
      omega
    · rw [heq]
  · rw [if_neg he]
    constructor
    · have hne : a.toQ ≠ (10:ℚ) ^ fl := by
        intro hc
        apply he
        rw [Frac.equ_iff a (powF 10 fl) hd hpd, hpq]
        exact hc
      have : (10:ℚ) ^ (fl + 1 - 1) = (10:ℚ) ^ fl := by norm_num
      rw [this]
      exact lt_of_le_of_ne h1 (fun hc => hne hc.symm)
    · exact le_of_lt h2

theorem scaled_den_pos (a : Frac) (ha : 0 < a.den) (j : ℤ) :
    0 < (Frac.mul a (powF 10 j)).den := by
  show 0 < a.den * (powF 10 j).den
  exact mul_pos ha (powF_den_pos 10 j (by norm_num))

theorem scaled_toQ (a : Frac) (j : ℤ) :
    (Frac.mul a (powF 10 j)).toQ = a.toQ * 10 ^ j := by
  rw [Frac.toQ_mul, powF_toQ 10 j (by norm_num)]
  norm_num

/-- An `n`-digit mantissa `D` at scale `10 ^ j` lies in the rounding
region exactly when it lies in the computed candidate interval. -/
theorem mem_region_iff_cand (φ : Fmt) (f : Flt)
    (hLo : 0 < (f.regionLo φ).den) (hHi : 0 < (f.regionHi φ).den)
    (j D : ℤ) :
    inRegion φ f ((D:ℚ) * 10 ^ j) ↔ (candLo φ f j ≤ D ∧ D ≤ candHi φ f j) := by
  have h10 : (0:ℚ) < (10:ℚ) ^ (-j) := by positivity
  have h10j : (0:ℚ) < (10:ℚ) ^ j := by positivity
  have hsim : ∀ q : ℚ, q * (10:ℚ) ^ j * 10 ^ (-j) = q := by
    intro q
    rw [mul_assoc, ← zpow_add₀ (by norm_num : (10:ℚ) ≠ 0)]
    simp
  have hsim2 : ∀ q : ℚ, q * (10:ℚ) ^ (-j) * 10 ^ j = q := by
    intro q
    rw [mul_assoc, ← zpow_add₀ (by norm_num : (10:ℚ) ≠ 0)]
    simp
  have hA : ∀ q : ℚ, (q ≤ (D:ℚ) * 10 ^ j ↔ q * 10 ^ (-j) ≤ (D:ℚ)) := by
    intro q
    constructor
    · intro h
      have := mul_le_mul_of_nonneg_right h (le_of_lt h10)
      rwa [hsim (D:ℚ)] at this
    · intro h
      have := mul_le_mul_of_nonneg_right h (le_of_lt h10j)
      rwa [hsim2 q] at this
  have hB : ∀ q : ℚ, ((D:ℚ) * 10 ^ j ≤ q ↔ (D:ℚ) ≤ q * 10 ^ (-j)) := by
    intro q
    constructor
    · intro h
      have := mul_le_mul_of_nonneg_right h (le_of_lt h10)
      rwa [hsim (D:ℚ)] at this
    · intro h
      have := mul_le_mul_of_nonneg_right h (le_of_lt h10j)
      rwa [hsim2 q] at this
  have hA' : ∀ q : ℚ, (q < (D:ℚ) * 10 ^ j ↔ q * 10 ^ (-j) < (D:ℚ)) := by
    intro q
    constructor
    · intro h
      have := mul_lt_mul_of_pos_right h h10
      rwa [hsim (D:ℚ)] at this
    · intro h
      have := mul_lt_mul_of_pos_right h h10j
      rwa [hsim2 q] at this
  have hB' : ∀ q : ℚ, ((D:ℚ) * 10 ^ j < q ↔ (D:ℚ) < q * 10 ^ (-j)) := by
    intro q
    constructor
    · intro h
      have := mul_lt_mul_of_pos_right h h10
      rwa [hsim (D:ℚ)] at this
    · intro h
      have := mul_lt_mul_of_pos_right h h10j
      rwa [hsim2 q] at this
  have hsloD : 0 < (Frac.mul (f.regionLo φ) (powF 10 (-j))).den :=
    scaled_den_pos _ hLo (-j)
  have hshiD : 0 < (Frac.mul (f.regionHi φ) (powF 10 (-j))).den :=
    scaled_den_pos _ hHi (-j)
  have hsloQ : (Frac.mul (f.regionLo φ) (powF 10 (-j))).toQ
      = (f.regionLo φ).toQ * 10 ^ (-j) := scaled_toQ _ _
  have hshiQ : (Frac.mul (f.regionHi φ) (powF 10 (-j))).toQ
      = (f.regionHi φ).toQ * 10 ^ (-j) := scaled_toQ _ _
  unfold inRegion candLo candHi
  by_cases hincl : f.inclusive φ
  · rw [if_pos hincl, if_pos hincl, if_pos hincl]
    constructor
    · rintro ⟨hl, hr⟩
      constructor
      · rw [Frac.ceil_eq _ hsloD, hsloQ, Int.ceil_le]
        exact (hA _).mp hl
      · rw [Frac.floor_eq _ hshiD, hshiQ, Int.le_floor]
        exact (hB _).mp hr
    · rintro ⟨hl, hr⟩
      rw [Frac.ceil_eq _ hsloD, hsloQ, Int.ceil_le] at hl
      rw [Frac.floor_eq _ hshiD, hshiQ, Int.le_floor] at hr
      exact ⟨(hA _).mpr hl, (hB _).mpr hr⟩
  · rw [if_neg hincl, if_neg hincl, if_neg hincl]
    constructor
    · rintro ⟨hl, hr⟩
      constructor
      · rw [Frac.floor_eq _ hsloD, hsloQ, Int.add_one_le_iff, Int.floor_lt]
        exact (hA' _).mp hl
      · rw [Frac.ceil_eq _ hshiD, hshiQ]
        have := (hB' _).mp hr
        have h2 : (D:ℤ) < ⌈(f.regionHi φ).toQ * 10 ^ (-j)⌉ := Int.lt_ceil.mpr this
        omega
    · rintro ⟨hl, hr⟩
      rw [Frac.floor_eq _ hsloD, hsloQ, Int.add_one_le_iff, Int.floor_lt] at hl
      rw [Frac.ceil_eq _ hshiD, hshiQ] at hr
      have h2 : (D:ℤ) < ⌈(f.regionHi φ).toQ * 10 ^ (-j)⌉ := by omega
      exact ⟨(hA' _).mpr hl, (hB' _).mpr (Int.lt_ceil.mp h2)⟩

theorem clampD_mem (φ : Fmt) (f : Flt) (v : Frac) (n : ℕ) (kk : ℤ)
    (h : hasAt φ f n kk) :
    candLoC φ f n kk ≤ clampD φ f v n kk ∧
      clampD φ f v n kk ≤ candHiC φ f n kk := by
  unfold hasAt at h
  unfold clampD
  omega

theorem hasAt_intro (φ : Fmt) (f : Flt) (n : ℕ) (kk : ℤ) (D : ℤ)
    (h1 : candLo φ f (kk - n) ≤ D) (h2 : D ≤ candHi φ f (kk - n))
    (h3 : (10:ℤ) ^ (n - 1) ≤ D) (h4 : D < 10 ^ n) :
    hasAt φ f n kk := by
  unfold hasAt candLoC candHiC
  omega

theorem decade_bounds (m : ℕ) (hm : 1 ≤ m) (D : ℤ)
    (h1 : (10:ℤ) ^ (m - 1) ≤ D) (h2 : D < 10 ^ m) (kk : ℤ) :
    (10:ℚ) ^ (kk - 1) ≤ (D:ℚ) * 10 ^ (kk - (m:ℤ)) ∧
      (D:ℚ) * 10 ^ (kk - (m:ℤ)) < 10 ^ kk := by
  have hc : ((m:ℤ) - 1) = ((m - 1 : ℕ) : ℤ) := by omega
  have hD1 : (10:ℚ) ^ ((m:ℤ) - 1) ≤ (D:ℚ) := by
    rw [hc, zpow_natCast]
    exact_mod_cast h1
  have hD2 : (D:ℚ) < 10 ^ (m:ℤ) := by
    rw [zpow_natCast]
    exact_mod_cast h2
  have h10 : (0:ℚ) < 10 ^ (kk - (m:ℤ)) := by positivity
  constructor
  · have hstep : (10:ℚ) ^ (kk - 1) = 10 ^ ((m:ℤ) - 1) * 10 ^ (kk - (m:ℤ)) := by
      rw [← zpow_add₀ (by norm_num : (10:ℚ) ≠ 0)]
      congr 1
      ring
    rw [hstep]
    exact mul_le_mul_of_nonneg_right hD1 (le_of_lt h10)
  · have hstep : (10:ℚ) ^ (m:ℤ) * 10 ^ (kk - (m:ℤ)) = 10 ^ kk := by
      rw [← zpow_add₀ (by norm_num : (10:ℚ) ≠ 0)]
      congr 1
      ring
    exact lt_of_lt_of_le (mul_lt_mul_of_pos_right hD2 h10) (le_of_eq hstep)

theorem inRegion_le (φ : Fmt) (f : Flt) (q : ℚ) (hq : inRegion φ f q) :
    (f.regionLo φ).toQ ≤ q ∧ q ≤ (f.regionHi φ).toQ := by
  unfold inRegion at hq
  split at hq
  · exact hq
  · exact ⟨le_of_lt hq.1, le_of_lt hq.2⟩

/-- A decimal in the rounding region has its decade within one of the
ceiling base-10 logarithm of the region's upper bound. -/
theorem region_decade (φ : Fmt) (f : Flt) (hwf : f.WF φ) (hfin : f.isFinNZ φ)
    (hmb1 : 1 ≤ φ.mb) (hmb : φ.mb ≤ 64) (heb : φ.eb ≤ 11)
    (q : ℚ) (hq : inRegion φ f q) (kk : ℤ)
    (h1 : (10:ℚ) ^ (kk - 1) ≤ q) (h2 : q < 10 ^ kk) :
    clog10F (f.regionHi φ) - 1 ≤ kk ∧ kk ≤ clog10F (f.regionHi φ) + 1 := by
  obtain ⟨-, hHn, hHd, hHfn, hHfd⟩ :
      True ∧ 0 < (f.regionHi φ).num ∧ 0 < (f.regionHi φ).den ∧
        (f.regionHi φ).num.toNat < 10 ^ logFuel ∧
        (f.regionHi φ).den.toNat < 10 ^ logFuel := by
    obtain ⟨-, h⟩ := region_size φ f hwf hfin hmb1 hmb heb
    exact ⟨trivial, h.1, h.2.1, h.2.2.1, h.2.2.2⟩
  obtain ⟨hks1, hks2⟩ := clog10F_spec (f.regionHi φ) hHn hHd hHfn hHfd
  set ks := clog10F (f.regionHi φ) with hks
  obtain ⟨hqlo, hqhi⟩ := inRegion_le φ f q hq
  constructor
  · -- q > 10 ^ (ks - 2), so kk > ks - 2
    have h3lo : (f.regionHi φ).toQ ≤ 3 * (f.regionLo φ).toQ :=
      three_regionLo φ f hfin
    have hsplit : (10:ℚ) ^ (ks - 1) = 10 * 10 ^ (ks - 2) := by
      rw [show ks - 1 = 1 + (ks - 2) by ring,
        zpow_add₀ (by norm_num : (10:ℚ) ≠ 0), zpow_one]
    have hP : (0:ℚ) < 10 ^ (ks - 2) := by positivity
    rw [hsplit] at hks1
    have hqgt : (10:ℚ) ^ (ks - 2) < q := by linarith
    have : (10:ℚ) ^ (ks - 2) < 10 ^ kk := lt_trans hqgt h2
    have hlt : ks - 2 < kk := by
      by_contra hc
      push_neg at hc
      have : (10:ℚ) ^ kk ≤ 10 ^ (ks - 2) :=
        zpow_le_zpow_right₀ (by norm_num : (1:ℚ) ≤ 10) hc
      linarith
    omega
  · -- 10 ^ (kk - 1) ≤ 10 ^ ks, so kk - 1 ≤ ks
    have hle : (10:ℚ) ^ (kk - 1) ≤ 10 ^ ks := le_trans h1 (le_trans hqhi hks2)
    have : kk - 1 ≤ ks := by
      by_contra hc
      push_neg at hc
      have h10 : (10:ℚ) ^ (ks + 1) ≤ 10 ^ (kk - 1) :=
        zpow_le_zpow_right₀ (by norm_num : (1:ℚ) ≤ 10) (by omega)
      have h10b : (10:ℚ) ^ ks < 10 ^ (ks + 1) :=
        zpow_lt_zpow_right₀ (by norm_num : (1:ℚ) < 10) (by omega)
      linarith
    omega

theorem mul_zpow10_le_iff (a b : ℚ) (j : ℤ) :
    a * 10 ^ j ≤ b ↔ a ≤ b * 10 ^ (-j) := by
  rw [show b * (10:ℚ) ^ (-j) = b / 10 ^ j by rw [zpow_neg, div_eq_mul_inv],
    le_div_iff (by positivity : (0:ℚ) < 10 ^ j)]

theorem mul_zpow10_lt_iff (a b : ℚ) (j : ℤ) :
    a * 10 ^ j < b ↔ a < b * 10 ^ (-j) := by
  rw [show b * (10:ℚ) ^ (-j) = b / 10 ^ j by rw [zpow_neg, div_eq_mul_inv],
    lt_div_iff (by positivity : (0:ℚ) < 10 ^ j)]

theorem le_mul_zpow10_iff (a b : ℚ) (j : ℤ) :
    b ≤ a * 10 ^ j ↔ b * 10 ^ (-j) ≤ a := by
  rw [show b * (10:ℚ) ^ (-j) = b / 10 ^ j by rw [zpow_neg, div_eq_mul_inv],
    div_le_iff (by positivity : (0:ℚ) < 10 ^ j)]

theorem lt_mul_zpow10_iff (a b : ℚ) (j : ℤ) :
    b < a * 10 ^ j ↔ b * 10 ^ (-j) < a := by
  rw [show b * (10:ℚ) ^ (-j) = b / 10 ^ j by rw [zpow_neg, div_eq_mul_inv],
    div_lt_iff (by positivity : (0:ℚ) < 10 ^ j)]

theorem hasAt_of_mem (φ : Fmt) (f : Flt)
    (hLo : 0 < (f.regionLo φ).den) (hHi : 0 < (f.regionHi φ).den)
    (maxd : ℕ) (kk : ℤ) (D : ℤ)
    (hD1 : (10:ℤ) ^ (maxd - 1) ≤ D) (hD2 : D < 10 ^ maxd)
    (hmem : inRegion φ f ((D:ℚ) * 10 ^ (kk - (maxd:ℤ)))) :
    hasAt φ f maxd kk := by
  obtain ⟨h1, h2⟩ := (mem_region_iff_cand φ f hLo hHi (kk - (maxd:ℤ)) D).mp hmem
  exact hasAt_intro φ f maxd kk D h1 h2 hD1 (by omega)

/-- Density: with enough digits the region always contains a decimal
at one of the two decades next to the ceiling log of the upper bound. -/
theorem region_density (φ : Fmt) (f : Flt) (hwf : f.WF φ) (hfin : f.isFinNZ φ)
    (hmb1 : 1 ≤ φ.mb) (hmb : φ.mb ≤ 64) (heb : φ.eb ≤ 11)
    (maxd : ℕ) (hmaxd : 1 ≤ maxd)
    (hbnd : 4 * (f.mant0 φ : ℤ) + 2 ≤
      (if f.mbits = 0 ∧ 1 < f.be then 3 else 4) * 10 ^ (maxd - 1)) :
    hasAt φ f maxd (clog10F (f.regionHi φ)) ∨
      hasAt φ f maxd (clog10F (f.regionHi φ) - 1) := by
  obtain ⟨⟨hLn, hLd, hLfn, hLfd⟩, ⟨hHn, hHd, hHfn, hHfd⟩⟩ :=
    region_size φ f hwf hfin hmb1 hmb heb
  obtain ⟨hks1, hks2⟩ := clog10F_spec (f.regionHi φ) hHn hHd hHfn hHfd
  set ks := clog10F (f.regionHi φ) with hks
  have hM1 : (1:ℚ) ≤ (f.mant0 φ : ℚ) := by exact_mod_cast mant0_pos φ f hfin
  have hP : (0:ℚ) < (2:ℚ) ^ (f.E0 φ - 2) := by positivity
  have hX : (10:ℚ) ^ ((maxd:ℤ) - 1) = (((10:ℤ) ^ (maxd - 1) : ℤ) : ℚ) := by
    rw [show (maxd:ℤ) - 1 = ((maxd - 1 : ℕ) : ℤ) by omega, zpow_natCast]
    push_cast
    ring
  have hXpos : (0:ℚ) < 10 ^ ((maxd:ℤ) - 1) := by positivity
  obtain ⟨gq, hgq1, hgq2, hloQ, hbq⟩ :
      ∃ gq : ℚ, 1 ≤ gq ∧ gq ≤ 2 ∧
        (f.regionLo φ).toQ = (4 * (f.mant0 φ : ℚ) - gq) * 2 ^ (f.E0 φ - 2) ∧
        4 * (f.mant0 φ : ℚ) + 2 ≤ (gq + 2) * (10:ℚ) ^ ((maxd:ℤ) - 1) := by
    by_cases hbd : f.mbits = 0 ∧ 1 < f.be
    · refine ⟨1, by norm_num, by norm_num, ?_, ?_⟩
      · rw [regionLo_toQ, if_pos hbd]
      · rw [if_pos hbd] at hbnd
        have hb2 : (4 * (f.mant0 φ : ℤ) + 2 : ℚ) ≤ ((3 * 10 ^ (maxd - 1) : ℤ) : ℚ) := by
          exact_mod_cast hbnd
        push_cast at hb2
        rw [hX]
        push_cast
        linarith
    · refine ⟨2, by norm_num, by norm_num, ?_, ?_⟩
      · rw [regionLo_toQ, if_neg hbd]
      · rw [if_neg hbd] at hbnd
        have hb2 : (4 * (f.mant0 φ : ℤ) + 2 : ℚ) ≤ ((4 * 10 ^ (maxd - 1) : ℤ) : ℚ) := by
          exact_mod_cast hbnd
        push_cast at hb2
        rw [hX]
        push_cast
        linarith
  have hhiQ : (f.regionHi φ).toQ
      = (4 * (f.mant0 φ : ℚ) + 2) * 2 ^ (f.E0 φ - 2) := regionHi_toQ φ f
  -- width of the region
  have hwidthval : (f.regionHi φ).toQ - (f.regionLo φ).toQ
      = (gq + 2) * 2 ^ (f.E0 φ - 2) := by
    rw [hhiQ, hloQ]
    ring
  have hsplit1 : (10:ℚ) ^ (ks - 1)
      = 10 ^ (ks - (maxd:ℤ)) * 10 ^ ((maxd:ℤ) - 1) := by
    rw [← zpow_add₀ (by norm_num : (10:ℚ) ≠ 0)]
    congr 1
    ring
  have hwidth : (10:ℚ) ^ (ks - (maxd:ℤ))
      < (f.regionHi φ).toQ - (f.regionLo φ).toQ := by
    have hchain : 10 ^ (ks - (maxd:ℤ)) * 10 ^ ((maxd:ℤ) - 1)
        < ((gq + 2) * 2 ^ (f.E0 φ - 2)) * 10 ^ ((maxd:ℤ) - 1) := by
      rw [← hsplit1]
      calc (10:ℚ) ^ (ks - 1) < (f.regionHi φ).toQ := hks1
      _ = (4 * (f.mant0 φ : ℚ) + 2) * 2 ^ (f.E0 φ - 2) := hhiQ
      _ ≤ ((gq + 2) * (10:ℚ) ^ ((maxd:ℤ) - 1)) * 2 ^ (f.E0 φ - 2) :=
          mul_le_mul_of_nonneg_right hbq (le_of_lt hP)
      _ = ((gq + 2) * 2 ^ (f.E0 φ - 2)) * 10 ^ ((maxd:ℤ) - 1) := by ring
    have := lt_of_mul_lt_mul_right hchain (le_of_lt hXpos)
    rw [hwidthval]
    exact this
  -- the candidate value just above the lower bound
  set j := ks - (maxd:ℤ) with hj
  set x := (f.regionLo φ).toQ * 10 ^ (-j) with hx
  set D0 := ⌊x⌋ + 1 with hD0
  have hD0gtx : x < (D0:ℚ) := by
    rw [hD0]
    push_cast
    exact Int.lt_floor_add_one x
  have hD0lex : (D0:ℚ) ≤ x + 1 := by
    rw [hD0]
    push_cast
    have := Int.floor_le x
    linarith
  have hxcancel : x * 10 ^ j = (f.regionLo φ).toQ := by
    rw [hx, mul_assoc, ← zpow_add₀ (by norm_num : (10:ℚ) ≠ 0)]
    simp
  have hlo_lt_V0 : (f.regionLo φ).toQ < (D0:ℚ) * 10 ^ j :=
    (lt_mul_zpow10_iff _ _ j).mpr hD0gtx
  have hV0_le : (D0:ℚ) * 10 ^ j ≤ (f.regionLo φ).toQ + 10 ^ j := by
    have h1 : (D0:ℚ) * 10 ^ j ≤ (x + 1) * 10 ^ j :=
      mul_le_mul_of_nonneg_right hD0lex (by positivity)
    have h2 : (x + 1) * (10:ℚ) ^ j = x * 10 ^ j + 10 ^ j := by ring
    rw [h2, hxcancel] at h1
    exact h1
  have hV0_lt_hi : (D0:ℚ) * 10 ^ j < (f.regionHi φ).toQ := by
    have := hwidth
    linarith
  have hmem : inRegion φ f ((D0:ℚ) * 10 ^ j) := by
    unfold inRegion
    split
    · exact ⟨le_of_lt hlo_lt_V0, le_of_lt hV0_lt_hi⟩
    · exact ⟨hlo_lt_V0, hV0_lt_hi⟩
  -- the candidate value is big: more than a hundredth of 10 ^ ks
  have hsplit2 : (10:ℚ) ^ (ks - 1) = 10 * 10 ^ (ks - 2) := by
    rw [show ks - 1 = 1 + (ks - 2) by ring,
      zpow_add₀ (by norm_num : (10:ℚ) ≠ 0), zpow_one]
  have h3lo : (f.regionHi φ).toQ ≤ 3 * (f.regionLo φ).toQ :=
    three_regionLo φ f hfin
  have hP2 : (0:ℚ) < 10 ^ (ks - 2) := by positivity
  have hV0gt : (10:ℚ) ^ (ks - 2) < (D0:ℚ) * 10 ^ j := by
    rw [hsplit2] at hks1
    linarith
  by_cases hVd : (D0:ℚ) * 10 ^ j < 10 ^ (ks - 1)
  · -- decade ks - 1: mantissa 10 * D0
    right
    apply hasAt_of_mem φ f hLd hHd maxd (ks - 1) (10 * D0)
    · -- lower digit bound
      have h1 : (10:ℚ) ^ (ks - 2) * 10 ^ (-(j - 1)) ≤ ((10 * D0 : ℤ) : ℚ) := by
        have h2 : (10:ℚ) ^ (ks - 2) ≤ ((10 * D0 : ℤ) : ℚ) * 10 ^ (j - 1) := by
          have hvv : ((10 * D0 : ℤ) : ℚ) * 10 ^ (j - 1) = (D0:ℚ) * 10 ^ j := by
            push_cast
            rw [show (10:ℚ) * (D0:ℚ) * 10 ^ (j - 1) = (D0:ℚ) * (10 ^ (1:ℤ) * 10 ^ (j - 1)) by
              rw [zpow_one]; ring, ← zpow_add₀ (by norm_num : (10:ℚ) ≠ 0)]
            congr 2
            ring
          rw [hvv]
          exact le_of_lt hV0gt
        exact (le_mul_zpow10_iff _ _ (j - 1)).mp h2
      have hcol : (10:ℚ) ^ (ks - 2) * 10 ^ (-(j - 1)) = 10 ^ ((maxd:ℤ) - 1) := by
        rw [← zpow_add₀ (by norm_num : (10:ℚ) ≠ 0)]
        congr 1
        rw [hj]
        ring
      rw [hcol, hX] at h1
      exact_mod_cast h1
    · -- upper digit bound
      have h2 : ((10 * D0 : ℤ) : ℚ) * 10 ^ (j - 1) < 10 ^ (ks - 1) := by
        have hvv : ((10 * D0 : ℤ) : ℚ) * 10 ^ (j - 1) = (D0:ℚ) * 10 ^ j := by
          push_cast
          rw [show (10:ℚ) * (D0:ℚ) * 10 ^ (j - 1) = (D0:ℚ) * (10 ^ (1:ℤ) * 10 ^ (j - 1)) by
            rw [zpow_one]; ring, ← zpow_add₀ (by norm_num : (10:ℚ) ≠ 0)]
          congr 2
          ring
        rw [hvv]
        exact hVd
      have h1 : ((10 * D0 : ℤ) : ℚ) < 10 ^ (ks - 1) * 10 ^ (-(j - 1)) :=
        (mul_zpow10_lt_iff _ _ (j - 1)).mp h2
      have hcol : (10:ℚ) ^ (ks - 1) * 10 ^ (-(j - 1)) = 10 ^ (maxd:ℤ) := by
        rw [← zpow_add₀ (by norm_num : (10:ℚ) ≠ 0)]
        congr 1
        rw [hj]
        ring
      rw [hcol, zpow_natCast] at h1
      exact_mod_cast h1
    · -- membership at the shifted scale
      have hvv : ((10 * D0 : ℤ) : ℚ) * 10 ^ (ks - 1 - (maxd:ℤ)) = (D0:ℚ) * 10 ^ j := by
        push_cast
        rw [show (10:ℚ) * (D0:ℚ) * 10 ^ (ks - 1 - (maxd:ℤ))
            = (D0:ℚ) * (10 ^ (1:ℤ) * 10 ^ (ks - 1 - (maxd:ℤ))) by rw [zpow_one]; ring,
          ← zpow_add₀ (by norm_num : (10:ℚ) ≠ 0)]
        congr 2
        rw [hj]
        ring
      rw [hvv]
      exact hmem
  · -- decade ks: mantissa D0
    left
    apply hasAt_of_mem φ f hLd hHd maxd ks D0
    · push_neg at hVd
      have h1 : (10:ℚ) ^ (ks - 1) * 10 ^ (-j) ≤ (D0:ℚ) :=
        (le_mul_zpow10_iff _ _ j).mp hVd
      have hcol : (10:ℚ) ^ (ks - 1) * 10 ^ (-j) = 10 ^ ((maxd:ℤ) - 1) := by
        rw [← zpow_add₀ (by norm_num : (10:ℚ) ≠ 0)]
        congr 1
        rw [hj]
        ring
      rw [hcol, hX] at h1
      exact_mod_cast h1
    · have h2 : (D0:ℚ) * 10 ^ j < 10 ^ ks := lt_of_lt_of_le hV0_lt_hi hks2
      have h1 : (D0:ℚ) < 10 ^ ks * 10 ^ (-j) := (mul_zpow10_lt_iff _ _ j).mp h2
      have hcol : (10:ℚ) ^ ks * 10 ^ (-j) = 10 ^ (maxd:ℤ) := by
        rw [← zpow_add₀ (by norm_num : (10:ℚ) ≠ 0)]
        congr 1
        rw [hj]
        ring
      rw [hcol, zpow_natCast] at h1
      exact_mod_cast h1
    · rw [← hj]
      exact hmem

theorem pow2_le_aux : ∀ mb : ℕ, 2 ≤ mb → (2:ℕ) ^ (mb + 2) ≤ 3 * 10 ^ (mb - 1) := by
  intro mb
  induction mb with
  | zero => intro h; omega
  | succ k ih =>
    intro h
    by_cases hk : 2 ≤ k
    · have hrec := ih hk
      have h1 : (2:ℕ) ^ (k + 1 + 2) = 2 * 2 ^ (k + 2) := by ring
      have h2 : (3:ℕ) * 10 ^ (k + 1 - 1) = 10 * (3 * 10 ^ (k - 1)) := by
        have hk2 : k + 1 - 1 = (k - 1) + 1 := by omega
        rw [hk2]
        ring
      omega
    · have hk1 : k = 1 := by omega
      subst hk1
      norm_num

/-- The density hypothesis holds generically at `maxd = mb`. -/
theorem generic_density_bound (φ : Fmt) (f : Flt) (hwf : f.WF φ)
    (hmb2 : 2 ≤ φ.mb) :
    4 * (f.mant0 φ : ℤ) + 2 ≤
      (if f.mbits = 0 ∧ 1 < f.be then 3 else 4) * 10 ^ (φ.mb - 1) := by
  have hmb1 : 1 ≤ φ.mb := by omega
  have haux := pow2_le_aux φ.mb hmb2
  have hmlt := mant0_lt φ f hwf hmb1
  have h4 : (2:ℕ) ^ (φ.mb + 2) = 4 * 2 ^ φ.mb := by ring
  have hn1 : 4 * f.mant0 φ + 2 ≤ 3 * 10 ^ (φ.mb - 1) := by omega
  have hzc : (4 * (f.mant0 φ : ℤ) + 2) ≤ ((3 * 10 ^ (φ.mb - 1) : ℕ) : ℤ) := by
    exact_mod_cast hn1
  push_cast at hzc
  have hpos : (0:ℤ) ≤ 10 ^ (φ.mb - 1) := by positivity
  split
  · exact hzc
  · linarith

/-- Structure of `formatShortest` on a finite nonzero float: it emits
`n` digits encoding a mantissa `D` and a decade `kk` such that
`D * 10 ^ (kk - n)` lies in the rounding region, and no decimal with
fewer significant digits lies in the region at any decade. -/
theorem formatShortest_spec (φ : Fmt) (f : Flt) (hwf : f.WF φ)
    (hfin : f.isFinNZ φ) (hmb2 : 2 ≤ φ.mb) (hmb : φ.mb ≤ 64) (heb : φ.eb ≤ 11) :
    ∃ n kk D,
      formatShortest φ f = (digBytes D.toNat n, kk) ∧
      1 ≤ n ∧ n ≤ φ.mb ∧
      (10:ℤ) ^ (n - 1) ≤ D ∧ D < 10 ^ n ∧
      inRegion φ f ((D:ℚ) * 10 ^ (kk - (n:ℤ))) ∧
      ∀ m : ℕ, 1 ≤ m → m < n → ∀ (kk2 D2 : ℤ),
        (10:ℤ) ^ (m - 1) ≤ D2 → D2 < 10 ^ m →
        ¬ inRegion φ f ((D2:ℚ) * 10 ^ (kk2 - (m:ℤ))) := by
  have hmb1 : 1 ≤ φ.mb := by omega
  obtain ⟨⟨hLn, hLd, hLfn, hLfd⟩, ⟨hHn, hHd, hHfn, hHfd⟩⟩ :=
    region_size φ f hwf hfin hmb1 hmb heb
  set ks := clog10F (f.regionHi φ) with hks
  set v := f.magF φ with hv
  have hdmb := region_density φ f hwf hfin hmb1 hmb heb φ.mb hmb1
    (generic_density_bound φ f hwf hmb2)
  have hpmb : shortP φ f ks φ.mb = true := by
    unfold shortP
    simp only [decide_eq_true_eq]
    rcases hdmb with h | h
    · exact Or.inr (Or.inl h)
    · exact Or.inr (Or.inr h)
  have hsome : (searchFrom (shortP φ f ks) φ.mb 1).isSome :=
    searchFrom_complete (shortP φ f ks) φ.mb 1 (φ.mb - 1) (by omega)
      (by rw [show 1 + (φ.mb - 1) = φ.mb by omega]; exact hpmb)
  obtain ⟨n, hn⟩ := Option.isSome_iff_exists.mp hsome
  obtain ⟨hn1, hn2, hpn, hmin⟩ := searchFrom_some (shortP φ f ks) φ.mb 1 n hn
  have hpn2 : hasAt φ f n (ks + 1) ∨ hasAt φ f n ks ∨ hasAt φ f n (ks - 1) := by
    unfold shortP at hpn
    simp only [decide_eq_true_eq] at hpn
    exact hpn
  have hLne : candList φ f v n ks ≠ [] := by
    unfold candList
    intro hc
    rw [List.map_eq_nil] at hc
    rw [List.filter_eq_nil] at hc
    rcases hpn2 with h | h | h
    · exact absurd (by simpa using h) (by simpa using hc (ks + 1) (by simp))
    · exact absurd (by simpa using h) (by simpa using hc ks (by simp))
    · exact absurd (by simpa using h) (by simpa using hc (ks - 1) (by simp))
  obtain ⟨q, rest, hLcons⟩ := List.exists_cons_of_ne_nil hLne
  have hbest_mem : (rest.foldl (better v n) q) ∈ q :: rest :=
    foldl_better_mem v n rest q
  rw [← hLcons] at hbest_mem
  set best := rest.foldl (better v n) q with hbest
  have hfs : formatShortest φ f = (digBytes best.1.toNat n, best.2) := by
    simp only [formatShortest]
    rw [← hks, ← hv, hn, shortestOf_some, hLcons, pickBest_cons, ← hbest]
  -- identify the best element
  have hmem2 := hbest_mem
  unfold candList at hmem2
  obtain ⟨kk2, hkk2mem, hkkeq⟩ := List.mem_map.mp hmem2
  have hkk2has : hasAt φ f n kk2 := by
    have := (List.mem_filter.mp hkk2mem).2
    exact of_decide_eq_true this
  have hb1 : best.1 = clampD φ f v n kk2 := by rw [← hkkeq]
  have hb2 : best.2 = kk2 := by rw [← hkkeq]
  obtain ⟨hc1, hc2⟩ := clampD_mem φ f v n kk2 hkk2has
  have hc1b := hc1
  have hc2b := hc2
  simp only [candLoC, candHiC] at hc1b hc2b
  have hphi : (10:ℤ) ^ (n - 1) ≤ best.1 ∧ best.1 < 10 ^ n := by
    rw [hb1]
    omega
  have hcandb : candLo φ f (kk2 - (n:ℤ)) ≤ best.1 ∧ best.1 ≤ candHi φ f (kk2 - (n:ℤ)) := by
    rw [hb1]
    omega
  refine ⟨n, kk2, best.1, ?_, by omega, by omega, hphi.1, hphi.2, ?_, ?_⟩
  · rw [hfs, hb2]
  · exact (mem_region_iff_cand φ f hLd hHd (kk2 - (n:ℤ)) best.1).mpr hcandb
  · intro m h1m h2m kk3 D2 hd1 hd2 hmemc
    obtain ⟨hdec1, hdec2⟩ := decade_bounds m h1m D2 hd1 hd2 kk3
    obtain ⟨hkr1, hkr2⟩ := region_decade φ f hwf hfin hmb1 hmb heb
      _ hmemc kk3 hdec1 hdec2
    have hhas : hasAt φ f m kk3 :=
      hasAt_of_mem φ f hLd hHd m kk3 D2 hd1 hd2 hmemc
    have hpm : shortP φ f ks m = false := hmin m (by omega) (by omega)
    unfold shortP at hpm
    simp only [decide_eq_false_iff_not] at hpm
    rw [← hks] at hkr1 hkr2
    have hcs : kk3 = ks + 1 ∨ kk3 = ks ∨ kk3 = ks - 1 := by omega
    rcases hcs with h | h | h <;> subst h
    · exact hpm (Or.inl hhas)
    · exact hpm (Or.inr (Or.inl hhas))
    · exact hpm (Or.inr (Or.inr hhas))

theorem hasAt_elim (φ : Fmt) (f : Flt)
    (hLo : 0 < (f.regionLo φ).den) (hHi : 0 < (f.regionHi φ).den)
    (m : ℕ) (kk : ℤ) (h : hasAt φ f m kk) :
    ∃ D : ℤ, (10:ℤ) ^ (m - 1) ≤ D ∧ D < 10 ^ m ∧
      inRegion φ f ((D:ℚ) * 10 ^ (kk - (m:ℤ))) := by
  have h2 := h
  unfold hasAt at h2
  simp only [candLoC, candHiC] at h2
  refine ⟨candLoC φ f m kk, ?_, ?_, ?_⟩
  · simp only [candLoC]
    omega
  · simp only [candLoC]
    omega
  · apply (mem_region_iff_cand φ f hLo hHi (kk - (m:ℤ)) _).mpr
    simp only [candLoC]
    constructor <;> omega

theorem f64_density_bound (f : Flt) (hwf : f.WF f64fmt) :
    4 * (f.mant0 f64fmt : ℤ) + 2 ≤
      (if f.mbits = 0 ∧ 1 < f.be then 3 else 4) * 10 ^ (17 - 1) := by
  split
  · rename_i h
    have hm : f.mant0 f64fmt = 2 ^ 52 := by
      unfold Flt.mant0
      rw [if_neg (by omega : ¬ f.be = 0), h.1]
      norm_num [f64fmt]
    rw [hm]
    norm_num
  · have hlt := mant0_lt f64fmt f hwf (by norm_num [f64fmt])
    have h2 : (f.mant0 f64fmt : ℤ) < 2 ^ 53 := by
      have : f.mant0 f64fmt < 2 ^ 53 := by
        have h53 : (2:ℕ) ^ f64fmt.mb = 2 ^ 53 := by norm_num [f64fmt]
        omega
      exact_mod_cast this
    have h3 : (2:ℤ) ^ 53 = 9007199254740992 := by norm_num
    have h4 : (10:ℤ) ^ (17 - 1) = 10000000000000000 := by norm_num
    omega

theorem f32_density_bound (f : Flt) (hwf : f.WF f32fmt) :
    4 * (f.mant0 f32fmt : ℤ) + 2 ≤
      (if f.mbits = 0 ∧ 1 < f.be then 3 else 4) * 10 ^ (9 - 1) := by
  split
  · rename_i h
    have hm : f.mant0 f32fmt = 2 ^ 23 := by
      unfold Flt.mant0
      rw [if_neg (by omega : ¬ f.be = 0), h.1]
      norm_num [f32fmt]
    rw [hm]
    norm_num
  · have hlt := mant0_lt f32fmt f hwf (by norm_num [f32fmt])
    have h2 : (f.mant0 f32fmt : ℤ) < 2 ^ 24 := by
      have : f.mant0 f32fmt < 2 ^ 24 := by
        have h24 : (2:ℕ) ^ f32fmt.mb = 2 ^ 24 := by norm_num [f32fmt]
        omega
      exact_mod_cast this
    have h3 : (2:ℤ) ^ 24 = 16777216 := by norm_num
    have h4 : (10:ℤ) ^ (9 - 1) = 100000000 := by norm_num
    omega

theorem estimate_ge_21 (exp : ℤ) : 21 ≤ estimate_max_buf_len exp := by
  unfold estimate_max_buf_len
  omega

/-- Lower bound on the decade of a finite nonzero float: its magnitude
is at least `10 ^ (-1675)`. -/
theorem k0_lb (φ : Fmt) (f : Flt) (hwf : f.WF φ) (hfin : f.isFinNZ φ)
    (hmb1 : 1 ≤ φ.mb) (hmb : φ.mb ≤ 64) (heb : φ.eb ≤ 11) :
    -1675 ≤ fracFLogB 10 (f.magF φ) := by
  obtain ⟨hn0, hd0, hsn, hsd⟩ := magF_bounds φ f hwf hfin hmb1 hmb heb
  obtain ⟨h1, h2⟩ := fracFLogB_spec 10 (by norm_num) _ hn0 hd0 hsn hsd
  have hE := (E0_bounds φ f hwf hmb1 hmb heb).1
  have hM1 : (1:ℚ) ≤ (f.mant0 φ : ℚ) := by exact_mod_cast mant0_pos φ f hfin
  have hv1 : (2:ℚ) ^ (-5000 : ℤ) ≤ (f.magF φ).toQ := by
    rw [Flt.magF_toQ]
    unfold Flt.mag
    have hz : (2:ℚ) ^ (-5000:ℤ) ≤ 2 ^ f.E0 φ :=
      zpow_le_zpow_right₀ (by norm_num) hE
    have hz2 : (0:ℚ) < 2 ^ f.E0 φ := by positivity
    have h3 : (1:ℚ) * 2 ^ f.E0 φ ≤ (f.mant0 φ : ℚ) * 2 ^ f.E0 φ :=
      mul_le_mul_of_nonneg_right hM1 (le_of_lt hz2)
    linarith
  have hnat : (2:ℕ) ^ 5000 ≤ 10 ^ 1675 := by
    have ha : (2:ℕ) ^ 5000 ≤ 2 ^ 5025 := Nat.pow_le_pow_right (by norm_num) (by norm_num)
    have hb : (2:ℕ) ^ 5025 = (2 ^ 3) ^ 1675 := by
      rw [← pow_mul]
    have hcc : ((2:ℕ) ^ 3) ^ 1675 ≤ 10 ^ 1675 := Nat.pow_le_pow_left (by norm_num) _
    omega
  have hcomp : (10:ℚ) ^ (-1675 : ℤ) ≤ (2:ℚ) ^ (-5000 : ℤ) := by
    rw [zpow_neg, zpow_neg]
    have hc1 : (2:ℚ) ^ (5000:ℤ) ≤ (10:ℚ) ^ (1675:ℤ) := by
      rw [show (5000:ℤ) = ((5000:ℕ):ℤ) by norm_num, zpow_natCast,
        show (1675:ℤ) = ((1675:ℕ):ℤ) by norm_num, zpow_natCast]
      exact_mod_cast hnat
    have hc2 : (0:ℚ) < (2:ℚ) ^ (5000:ℤ) := by positivity
    exact inv_le_inv_of_le hc2 hc1
  have hlt : (10:ℚ) ^ (-1675:ℤ) < 10 ^ (fracFLogB 10 (f.magF φ) + 1) :=
    lt_of_le_of_lt (le_trans hcomp hv1) h2
  by_contra hc
  push_neg at hc
  have hge : (10:ℚ) ^ (fracFLogB 10 (f.magF φ) + 1) ≤ 10 ^ (-1675:ℤ) :=
    zpow_le_zpow_right₀ (by norm_num) (by omega)
  linarith

/-- Claim C4 (amended): for every finite nonzero f32/f64 input, every
`Finite(sign, digits, trailing_zeros, k)` result of `preformat_shortest`,
of `preformat_exact_exp` with `num_digits ≥ 1`, and of
`preformat_exact_fixed` has a nonempty digit slice whose first byte is a
nonzero ASCII digit, and `preformat_shortest` emits at most 17 digits
for f64 and at most 9 for f32.  The exception (contrary to the claim) is
`preformat_exact_exp` with `num_digits = 0`, whose digit slice is
empty. -/
theorem preformat_digits_nonempty (φ : Fmt) (hφ : φ = f32fmt ∨ φ = f64fmt)
    (f : Flt) (hwf : f.WF φ) (hfin : f.isFinNZ φ) :
    (∃ ds k, preformat_shortest φ f = .Finite f.sign ds 0 k ∧
      ds ≠ [] ∧ (∃ b t, ds = b :: t ∧ 49 ≤ b ∧ b ≤ 57) ∧
      (φ = f64fmt → ds.length ≤ 17) ∧ (φ = f32fmt → ds.length ≤ 9)) ∧
    (∀ ndigits : ℕ, 1 ≤ ndigits → ∀ (ds : List ℕ) (tz : ℕ) (k : ℤ),
      preformat_exact_exp φ f ndigits = .Finite f.sign ds tz k →
      ds ≠ [] ∧ ∃ b t, ds = b :: t ∧ 49 ≤ b ∧ b ≤ 57) ∧
    (∀ (frac_digits : ℕ) (ds : List ℕ) (tz : ℕ) (k : ℤ),
      preformat_exact_fixed φ f frac_digits = .Finite f.sign ds tz k →
      ds ≠ [] ∧ ∃ b t, ds = b :: t ∧ 49 ≤ b ∧ b ≤ 57) := by
  have hmb2 : 2 ≤ φ.mb := by
    rcases hφ with h | h <;> rw [h] <;> norm_num [f32fmt, f64fmt]
  have hmb : φ.mb ≤ 64 := by
    rcases hφ with h | h <;> rw [h] <;> norm_num [f32fmt, f64fmt]
  have heb : φ.eb ≤ 11 := by
    rcases hφ with h | h <;> rw [h] <;> norm_num [f32fmt, f64fmt]
  have hmb1 : 1 ≤ φ.mb := by omega
  obtain ⟨hnan, hinf, hzero⟩ := isFinNZ_not_special φ f hfin
  obtain ⟨⟨hLn, hLd, hLfn, hLfd⟩, ⟨hHn, hHd, hHfn, hHfd⟩⟩ :=
    region_size φ f hwf hfin hmb1 hmb heb
  obtain ⟨hn0, hd0, hsn, hsd⟩ := magF_bounds φ f hwf hfin hmb1 hmb heb
  have hk0 := k0_lb φ f hwf hfin hmb1 hmb heb
  refine ⟨?_, ?_, ?_⟩
  · -- preformat_shortest
    obtain ⟨n, kk, D, hfs, hn1, hnmb, hD1, hD2, hmem, hminim⟩ :=
      formatShortest_spec φ f hwf hfin hmb2 hmb heb
    have hDpos : (0:ℤ) < D := lt_of_lt_of_le (by positivity) hD1
    have hcast1 : ((10:ℤ) ^ (n - 1)) = ((10 ^ (n - 1) : ℕ) : ℤ) := by
      push_cast
      ring
    have hcast2 : ((10:ℤ) ^ n) = ((10 ^ n : ℕ) : ℤ) := by
      push_cast
      ring
    have hDn1 : 10 ^ (n - 1) ≤ D.toNat := by omega
    have hDn2 : D.toNat < 10 ^ n := by omega
    obtain ⟨hlen, hval, hdigs, b, t, hbt, hb1, hb2⟩ :=
      digBytes_spec D.toNat n hn1 hDn1 hDn2
    refine ⟨digBytes D.toNat n, kk, ?_, ?_, ⟨b, t, hbt, hb1, hb2⟩, ?_, ?_⟩
    · unfold preformat_shortest
      rw [if_neg hnan, if_neg hinf, if_neg hzero, hfs]
    · rw [hbt]
      simp
    · intro hphi
      subst hphi
      by_contra hc
      push_neg at hc
      rw [hlen] at hc
      have hdens := region_density f64fmt f hwf hfin (by norm_num [f64fmt])
        (by norm_num [f64fmt]) (by norm_num [f64fmt]) 17 (by norm_num)
        (f64_density_bound f hwf)
      rcases hdens with h | h <;>
        obtain ⟨D2, hD21, hD22, hmem2⟩ := hasAt_elim f64fmt f hLd hHd 17 _ h <;>
        exact hminim 17 (by norm_num) (by omega) _ D2 hD21 hD22 hmem2
    · intro hphi
      subst hphi
      by_contra hc
      push_neg at hc
      rw [hlen] at hc
      have hdens := region_density f32fmt f hwf hfin (by norm_num [f32fmt])
        (by norm_num [f32fmt]) (by norm_num [f32fmt]) 9 (by norm_num)
        (f32_density_bound f hwf)
      rcases hdens with h | h <;>
        obtain ⟨D2, hD21, hD22, hmem2⟩ := hasAt_elim f32fmt f hLd hHd 9 _ h <;>
        exact hminim 9 (by norm_num) (by omega) _ D2 hD21 hD22 hmem2
  · -- preformat_exact_exp with at least one digit requested
    intro ndigits hnd ds tz k hres
    simp only [preformat_exact_exp] at hres
    rw [if_neg hnan, if_neg hinf, if_neg hzero] at hres
    simp only [PreFormatted.Finite.injEq] at hres
    obtain ⟨-, hds, -, -⟩ := hres
    set v := f.magF φ with hv
    set maxlen := estimate_max_buf_len (decodedExp φ f) with hml
    have hml21 : 21 ≤ maxlen := estimate_ge_21 _
    have htr1 : 1 ≤ min ndigits maxlen := by omega
    rcases formatExact_cases v hn0 hd0 hsn hsd (min ndigits maxlen) (-32768) with
      ⟨hmin0, hk0le, hcase⟩ | ⟨hmin0, hk0lt, hcase⟩ |
      ⟨ds0, k0r, hfe, hn1c, hlenc, hbytesc, hheadc, hkkc⟩
    · exact absurd hk0le (by omega)
    · have h1 : 1 ≤ ((fracFLogB 10 v + 1) - (-32768)).toNat := by omega
      omega
    · rw [hfe] at hds
      simp only [] at hds
      obtain ⟨b, t, hbt, hb1, hb2⟩ := hheadc
      constructor
      · rw [← hds, hbt]
        simp
      · exact ⟨b, t, by rw [← hds, hbt], hb1, hb2⟩
  · -- preformat_exact_fixed
    intro frac_digits ds tz k hres
    simp only [preformat_exact_fixed] at hres
    rw [if_neg hnan, if_neg hinf, if_neg hzero] at hres
    set v := f.magF φ with hv
    set maxlen := estimate_max_buf_len (decodedExp φ f) with hml
    set L : ℤ := if frac_digits < 0x8000 then -(frac_digits : ℤ) else -32768 with hL
    have hml21 : 21 ≤ maxlen := estimate_ge_21 _
    by_cases hle : (formatExact v maxlen L).2 ≤ L
    · rw [if_pos hle] at hres
      exact absurd hres (by simp)
    · rw [if_neg hle] at hres
      simp only [PreFormatted.Finite.injEq] at hres
      obtain ⟨-, hds, -, hk⟩ := hres
      push_neg at hle
      rcases formatExact_cases v hn0 hd0 hsn hsd maxlen L with
        ⟨hmin0, hk0le, hcase | hcase⟩ | ⟨hmin0, hk0lt, hcase⟩ |
        ⟨ds0, k0r, hfe, hn1c, hlenc, hbytesc, hheadc, hkkc⟩
      · rw [hcase] at hle
        simp at hle
      · rw [hcase] at hds
        simp only [] at hds
        constructor
        · rw [← hds]
          simp
        · exact ⟨49, [], by rw [← hds], by norm_num, by norm_num⟩
      · have h1 : 1 ≤ ((fracFLogB 10 v + 1) - L).toNat := by omega
        omega
      · rw [hfe] at hds
        simp only [] at hds
        obtain ⟨b, t, hbt, hb1, hb2⟩ := hheadc
        constructor
        · rw [← hds, hbt]
          simp
        · exact ⟨b, t, by rw [← hds, hbt], hb1, hb2⟩

/-- Counterexample to the parenthetical of claim C4: `preformat_exact_exp`
with `num_digits = 0` on the finite nonzero value `3.0f32` returns a
`Finite` result whose digit slice is empty. -/
theorem preformat_digits_nonempty_counterexample :
    preformat_exact_exp f32fmt ⟨false, 128, 4194304⟩ 0
      = .Finite false [] 0 1 := by decide

/-- Witness for C4 at the f32 value `3.0`. -/
theorem preformat_digits_nonempty_witness :
    (Flt.WF f32fmt ⟨false, 128, 4194304⟩ ∧
      Flt.isFinNZ f32fmt ⟨false, 128, 4194304⟩) ∧
    ((∃ ds k, preformat_shortest f32fmt ⟨false, 128, 4194304⟩
        = .Finite false ds 0 k ∧
      ds ≠ [] ∧ (∃ b t, ds = b :: t ∧ 49 ≤ b ∧ b ≤ 57) ∧
      (f32fmt = f64fmt → ds.length ≤ 17) ∧ (f32fmt = f32fmt → ds.length ≤ 9)) ∧
    (∀ ndigits : ℕ, 1 ≤ ndigits → ∀ (ds : List ℕ) (tz : ℕ) (k : ℤ),
      preformat_exact_exp f32fmt ⟨false, 128, 4194304⟩ ndigits
        = .Finite false ds tz k →
      ds ≠ [] ∧ ∃ b t, ds = b :: t ∧ 49 ≤ b ∧ b ≤ 57) ∧
    (∀ (frac_digits : ℕ) (ds : List ℕ) (tz : ℕ) (k : ℤ),
      preformat_exact_fixed f32fmt ⟨false, 128, 4194304⟩ frac_digits
        = .Finite false ds tz k →
      ds ≠ [] ∧ ∃ b t, ds = b :: t ∧ 49 ≤ b ∧ b ≤ 57)) :=
  ⟨⟨by decide, by decide⟩,
    preformat_digits_nonempty f32fmt (Or.inl rfl) ⟨false, 128, 4194304⟩
      (by decide) (by decide)⟩

/-! ### Correctness of the modelled rounding: region characterisation -/

theorem mul_zpow2_le_iff (a b : ℚ) (j : ℤ) :
    a * 2 ^ j ≤ b ↔ a ≤ b * 2 ^ (-j) := by
  rw [show b * (2:ℚ) ^ (-j) = b / 2 ^ j by rw [zpow_neg, div_eq_mul_inv],
    le_div_iff (by positivity : (0:ℚ) < 2 ^ j)]

theorem mul_zpow2_lt_iff (a b : ℚ) (j : ℤ) :
    a * 2 ^ j < b ↔ a < b * 2 ^ (-j) := by
  rw [show b * (2:ℚ) ^ (-j) = b / 2 ^ j by rw [zpow_neg, div_eq_mul_inv],
    lt_div_iff (by positivity : (0:ℚ) < 2 ^ j)]

theorem le_mul_zpow2_iff (a b : ℚ) (j : ℤ) :
    b ≤ a * 2 ^ j ↔ b * 2 ^ (-j) ≤ a := by
  rw [show b * (2:ℚ) ^ (-j) = b / 2 ^ j by rw [zpow_neg, div_eq_mul_inv],
    div_le_iff (by positivity : (0:ℚ) < 2 ^ j)]

theorem lt_mul_zpow2_iff (a b : ℚ) (j : ℤ) :
    b < a * 2 ^ j ↔ b * 2 ^ (-j) < a := by
  rw [show b * (2:ℚ) ^ (-j) = b / 2 ^ j by rw [zpow_neg, div_eq_mul_inv],
    div_lt_iff (by positivity : (0:ℚ) < 2 ^ j)]

/-- The rounding exponent chosen by `rndPos`. -/
def rndE1 (φ : Fmt) (a : Frac) : ℤ :=
  max φ.emin (fracILog2 a - ((φ.mb : ℤ) - 1))

/-- The scaled value rounded by `rndPos`. -/
def rndX (φ : Fmt) (a : Frac) : Frac :=
  Frac.mul a (dyF 1 (-(rndE1 φ a)))

theorem rndPos_eq_form (φ : Fmt) (a : Frac) :
    rndPos φ a =
      (if φ.emax < (if rndHE (rndX φ a) = 2 ^ φ.mb
          then (((2:ℤ) ^ (φ.mb - 1), rndE1 φ a + 1) : ℤ × ℤ)
          else (rndHE (rndX φ a), rndE1 φ a)).2
        then RndRes.overflow
        else RndRes.fin
          (if rndHE (rndX φ a) = 2 ^ φ.mb
            then (((2:ℤ) ^ (φ.mb - 1), rndE1 φ a + 1) : ℤ × ℤ)
            else (rndHE (rndX φ a), rndE1 φ a)).1.toNat
          (if rndHE (rndX φ a) = 2 ^ φ.mb
            then (((2:ℤ) ^ (φ.mb - 1), rndE1 φ a + 1) : ℤ × ℤ)
            else (rndHE (rndX φ a), rndE1 φ a)).2) := rfl

theorem rndPos_fin_inv (φ : Fmt) (a : Frac) (m : ℕ) (E : ℤ)
    (h : rndPos φ a = .fin m E) :
    (rndHE (rndX φ a) = 2 ^ φ.mb ∧ m = ((2:ℤ) ^ (φ.mb - 1)).toNat ∧
      E = rndE1 φ a + 1 ∧ ¬ φ.emax < E) ∨
    (rndHE (rndX φ a) ≠ 2 ^ φ.mb ∧ m = (rndHE (rndX φ a)).toNat ∧
      E = rndE1 φ a ∧ ¬ φ.emax < E) := by
  rw [rndPos_eq_form] at h
  by_cases hc : rndHE (rndX φ a) = 2 ^ φ.mb
  · rw [if_pos hc] at h
    simp only [] at h
    by_cases hov : φ.emax < rndE1 φ a + 1
    · rw [if_pos hov] at h
      exact absurd h (by simp)
    · rw [if_neg hov] at h
      simp only [RndRes.fin.injEq] at h
      exact Or.inl ⟨hc, h.1.symm, h.2.symm, by omega⟩
  · rw [if_neg hc] at h
    simp only [] at h
    by_cases hov : φ.emax < rndE1 φ a
    · rw [if_pos hov] at h
      exact absurd h (by simp)
    · rw [if_neg hov] at h
      simp only [RndRes.fin.injEq] at h
      exact Or.inr ⟨hc, h.1.symm, h.2.symm, by omega⟩

theorem rndPos_carry_eq (φ : Fmt) (a : Frac)
    (h : rndHE (rndX φ a) = 2 ^ φ.mb) (hov : ¬ φ.emax < rndE1 φ a + 1) :
    rndPos φ a = .fin ((2:ℤ) ^ (φ.mb - 1)).toNat (rndE1 φ a + 1) := by
  rw [rndPos_eq_form, if_pos h]
  simp only []
  rw [if_neg hov]

theorem rndPos_nocarry_eq (φ : Fmt) (a : Frac)
    (h : rndHE (rndX φ a) ≠ 2 ^ φ.mb) (hov : ¬ φ.emax < rndE1 φ a) :
    rndPos φ a = .fin (rndHE (rndX φ a)).toNat (rndE1 φ a) := by
  rw [rndPos_eq_form, if_neg h]
  simp only []
  rw [if_neg hov]

/-- Analytic facts about the scaled value rounded by `rndPos`. -/
theorem rnd_setup (φ : Fmt) (a : Frac) (han : 0 < a.num) (had : 0 < a.den)
    (hfn : a.num.toNat < 2 ^ logFuel) (hfd : a.den.toNat < 2 ^ logFuel) :
    0 < (rndX φ a).den ∧
    rndHE (rndX φ a) = rndQ (a.toQ * 2 ^ (-(rndE1 φ a))) ∧
    a.toQ * 2 ^ (-(rndE1 φ a)) < 2 ^ (φ.mb : ℤ) ∧
    (φ.emin < rndE1 φ a → 2 ^ ((φ.mb : ℤ) - 1) ≤ a.toQ * 2 ^ (-(rndE1 φ a))) ∧
    0 < a.toQ := by
  have hq0 : 0 < a.toQ := Frac.toQ_pos a han had
  obtain ⟨hil1, hil2⟩ := fracILog2_spec a han had hfn hfd
  have hden : 0 < (rndX φ a).den := by
    unfold rndX
    show 0 < a.den * (dyF 1 (-(rndE1 φ a))).den
    exact mul_pos had (dyF_den_pos 1 _)
  have htoQ : (rndX φ a).toQ = a.toQ * 2 ^ (-(rndE1 φ a)) := by
    unfold rndX
    rw [Frac.toQ_mul, dyF_toQ]
    push_cast
    ring
  have hhe : rndHE (rndX φ a) = rndQ (a.toQ * 2 ^ (-(rndE1 φ a))) := by
    rw [rndHE_eq_rndQ _ hden, htoQ]
  have he1ge : fracILog2 a - ((φ.mb : ℤ) - 1) ≤ rndE1 φ a := le_max_right _ _
  have hupper : a.toQ * 2 ^ (-(rndE1 φ a)) < 2 ^ (φ.mb : ℤ) := by
    have h1 : (2:ℚ) ^ (-(rndE1 φ a)) ≤ 2 ^ (((φ.mb:ℤ) - 1) - fracILog2 a) :=
      zpow_le_zpow_right₀ (by norm_num) (by omega)
    have h2 : a.toQ * 2 ^ (-(rndE1 φ a))
        ≤ a.toQ * 2 ^ (((φ.mb:ℤ) - 1) - fracILog2 a) :=
      mul_le_mul_of_nonneg_left h1 (le_of_lt hq0)
    have h3 : a.toQ * 2 ^ (((φ.mb:ℤ) - 1) - fracILog2 a)
        < 2 ^ (fracILog2 a + 1) * 2 ^ (((φ.mb:ℤ) - 1) - fracILog2 a) :=
      mul_lt_mul_of_pos_right hil2 (by positivity)
    have h4 : (2:ℚ) ^ (fracILog2 a + 1) * 2 ^ (((φ.mb:ℤ) - 1) - fracILog2 a)
        = 2 ^ (φ.mb : ℤ) := by
      rw [← zpow_add₀ (by norm_num : (2:ℚ) ≠ 0)]
      congr 1
      ring
    linarith
  refine ⟨hden, hhe, hupper, ?_, hq0⟩
  intro hgt
  have he1eq : rndE1 φ a = fracILog2 a - ((φ.mb : ℤ) - 1) := by
    unfold rndE1 at hgt ⊢
    omega
  have h1 : (2:ℚ) ^ (fracILog2 a) * 2 ^ (-(rndE1 φ a))
      ≤ a.toQ * 2 ^ (-(rndE1 φ a)) :=
    mul_le_mul_of_nonneg_right hil1 (by positivity)
  have h2 : (2:ℚ) ^ (fracILog2 a) * 2 ^ (-(rndE1 φ a))
      = 2 ^ ((φ.mb : ℤ) - 1) := by
    rw [← zpow_add₀ (by norm_num : (2:ℚ) ≠ 0), he1eq]
    congr 1
    ring
  linarith

theorem emin_le_emax (φ : Fmt) (heb2 : 2 ≤ φ.eb) : φ.emin ≤ φ.emax := by
  unfold Fmt.emin Fmt.emax Fmt.bias
  have h4 : (4:ℤ) ≤ 2 ^ φ.eb := by
    calc (4:ℤ) = 2 ^ 2 := by norm_num
    _ ≤ 2 ^ φ.eb := pow_le_pow_right₀ (by norm_num) heb2
  have h2 : (2:ℤ) * 2 ^ (φ.eb - 1) = 2 ^ φ.eb := by
    set k := φ.eb - 1 with hkdef
    have hk : φ.eb = k + 1 := by omega
    rw [hk, pow_succ]
    ring
  omega

theorem E0_le_emax (φ : Fmt) (f : Flt) (hwf : f.WF φ) (hfin : f.isFinNZ φ)
    (heb2 : 2 ≤ φ.eb) :
    f.E0 φ ≤ φ.emax := by
  obtain ⟨hbe, _⟩ := hwf
  obtain ⟨hne, _⟩ := hfin
  have hbeZ : (f.be : ℤ) < 2 ^ φ.eb := by
    have h := hbe
    have hcast : ((2 ^ φ.eb : ℕ) : ℤ) = 2 ^ φ.eb := by push_cast; ring
    omega
  have hp1 : (1:ℕ) ≤ 2 ^ φ.eb := Nat.one_le_two_pow
  have hneZ : (f.be : ℤ) ≠ 2 ^ φ.eb - 1 := by
    intro hc
    apply hne
    have hcast : ((2 ^ φ.eb : ℕ) : ℤ) = 2 ^ φ.eb := by push_cast; ring
    omega
  unfold Flt.E0 Fmt.emax
  by_cases hb : f.be = 0
  · rw [if_pos hb]
    exact emin_le_emax φ heb2
  · rw [if_neg hb]
    omega

theorem E0_eq_emin_of_be_le_one (φ : Fmt) (f : Flt) (h : f.be ≤ 1) :
    f.E0 φ = φ.emin := by
  unfold Flt.E0 Fmt.emin Fmt.bias
  by_cases hb : f.be = 0
  · rw [if_pos hb]
  · rw [if_neg hb]
    have hbe1 : f.be = 1 := by omega
    rw [hbe1]
    push_cast
    ring

theorem E0_gt_emin_of_be_ge_two (φ : Fmt) (f : Flt) (h : 2 ≤ f.be) :
    φ.emin < f.E0 φ := by
  unfold Flt.E0 Fmt.emin Fmt.bias
  rw [if_neg (by omega)]
  have hbeZ : (2:ℤ) ≤ (f.be : ℤ) := by exact_mod_cast h
  omega

theorem encodeFin_mant0 (φ : Fmt) (f : Flt) (hwf : f.WF φ) (hfin : f.isFinNZ φ)
    (hmb1 : 1 ≤ φ.mb) :
    encodeFin φ (f.mant0 φ) (f.E0 φ) = ⟨false, f.be, f.mbits⟩ := by
  have hm0 : 0 < f.mant0 φ := mant0_pos φ f hfin
  unfold encodeFin
  rw [if_neg (by omega)]
  by_cases hb : f.be = 0
  · have hmm : f.mant0 φ = f.mbits := by
      unfold Flt.mant0
      rw [if_pos hb]
    rw [if_pos (by rw [hmm]; exact hwf.2)]
    rw [hmm, hb]
  · have hmm : f.mant0 φ = 2 ^ (φ.mb - 1) + f.mbits := by
      unfold Flt.mant0
      rw [if_neg hb]
    rw [if_neg (by omega)]
    simp only [Flt.mk.injEq]
    refine ⟨trivial, ?_, by omega⟩
    unfold Flt.E0 Fmt.emin Fmt.bias
    rw [if_neg hb]
    omega

theorem encodeFin_inj (φ : Fmt) (f : Flt) (hwf : f.WF φ) (hfin : f.isFinNZ φ)
    (hmb1 : 1 ≤ φ.mb) (m : ℕ) (E : ℤ)
    (hEmin : φ.emin ≤ E) (hsub : m < 2 ^ (φ.mb - 1) → E = φ.emin)
    (h : encodeFin φ m E = ⟨false, f.be, f.mbits⟩) :
    m = f.mant0 φ ∧ E = f.E0 φ := by
  unfold encodeFin at h
  by_cases h0 : m = 0
  · rw [if_pos h0] at h
    simp only [Flt.mk.injEq] at h
    exact absurd ⟨h.2.1.symm, h.2.2.symm⟩ hfin.2
  · rw [if_neg h0] at h
    by_cases hlt : m < 2 ^ (φ.mb - 1)
    · rw [if_pos hlt] at h
      simp only [Flt.mk.injEq] at h
      obtain ⟨-, hbe, hmb⟩ := h
      constructor
      · unfold Flt.mant0
        rw [if_pos hbe.symm]
        omega
      · rw [hsub hlt]
        unfold Flt.E0
        rw [if_pos hbe.symm]
    · rw [if_neg hlt] at h
      simp only [Flt.mk.injEq] at h
      obtain ⟨-, hbe, hmb⟩ := h
      have hbe1 : 1 ≤ E - φ.emin + 1 := by omega
      have hbene : f.be ≠ 0 := by omega
      constructor
      · unfold Flt.mant0
        rw [if_neg hbene]
        omega
      · unfold Flt.E0
        rw [if_neg hbene]
        unfold Fmt.emin at hEmin hbe
        unfold Fmt.bias
        omega

theorem zpow2_succ (e : ℤ) : (2:ℚ) ^ e = 2 * 2 ^ (e - 1) := by
  have h := zpow_add₀ (by norm_num : (2:ℚ) ≠ 0) 1 (e - 1)
  rw [show (1:ℤ) + (e - 1) = e by ring] at h
  rw [h, zpow_one]

theorem cast_pow2_sub_one (k : ℕ) (hk : 1 ≤ k) :
    ((2 ^ (k - 1) : ℕ) : ℚ) = (2:ℚ) ^ ((k:ℤ) - 1) := by
  rw [show ((k:ℤ) - 1) = ((k - 1 : ℕ) : ℤ) by omega, zpow_natCast]
  push_cast
  ring

theorem cast_pow2 (k : ℕ) : ((2 ^ k : ℕ) : ℚ) = (2:ℚ) ^ (k:ℤ) := by
  rw [zpow_natCast]
  push_cast
  ring

theorem castZ_pow2 (k : ℕ) : (((2:ℤ) ^ k : ℤ) : ℚ) = (2:ℚ) ^ (k:ℤ) := by
  rw [zpow_natCast]
  push_cast
  ring

theorem fracILog2_eq (a : Frac) (han : 0 < a.num) (had : 0 < a.den)
    (hfn : a.num.toNat < 2 ^ logFuel) (hfd : a.den.toNat < 2 ^ logFuel)
    (c : ℤ) (h1 : (2:ℚ) ^ c ≤ a.toQ) (h2 : a.toQ < 2 ^ (c + 1)) :
    fracILog2 a = c := by
  obtain ⟨hil1, hil2⟩ := fracILog2_spec a han had hfn hfd
  by_contra hne
  rcases lt_or_gt_of_ne hne with hlt | hgt
  · have hc : (2:ℚ) ^ (fracILog2 a + 1) ≤ 2 ^ c :=
      zpow_le_zpow_right₀ (by norm_num) (by omega)
    linarith
  · have hc : (2:ℚ) ^ (c + 1) ≤ 2 ^ (fracILog2 a) :=
      zpow_le_zpow_right₀ (by norm_num) (by omega)
    linarith

/-- If `rndPos` lands exactly on the mantissa/exponent pair of a finite
nonzero float, the input value lies in that float's rounding region. -/
theorem rndPos_to_region (φ : Fmt) (f : Flt) (hwf : f.WF φ) (hfin : f.isFinNZ φ)
    (hmb2 : 2 ≤ φ.mb) (heb2 : 2 ≤ φ.eb)
    (a : Frac) (han : 0 < a.num) (had : 0 < a.den)
    (hfn : a.num.toNat < 2 ^ logFuel) (hfd : a.den.toNat < 2 ^ logFuel)
    (h : rndPos φ a = .fin (f.mant0 φ) (f.E0 φ)) :
    inRegion φ f a.toQ := by
  have hmb1 : 1 ≤ φ.mb := by omega
  obtain ⟨hden, hhe, hupper, hlowF, hq0⟩ := rnd_setup φ a han had hfn hfd
  set q := a.toQ with hqdef
  set e1 := rndE1 φ a with he1
  set x := q * 2 ^ (-e1) with hx
  have hm0 : 0 < f.mant0 φ := mant0_pos φ f hfin
  have hmlt : f.mant0 φ < 2 ^ φ.mb := mant0_lt φ f hwf hmb1
  have hqx : q = x * 2 ^ e1 := by
    rw [hx, mul_assoc, ← zpow_add₀ (by norm_num : (2:ℚ) ≠ 0)]
    simp
  have hx0 : 0 < x := by
    rw [hx]
    positivity
  have he1emin : φ.emin ≤ e1 := by
    rw [he1]
    exact le_max_left _ _
  have hE1Q : (0:ℚ) < 2 ^ (e1 - 1) := by positivity
  have hE2Q : (0:ℚ) < 2 ^ (e1 - 2) := by positivity
  have hzmb : (2:ℚ) ^ (φ.mb : ℤ) = 2 * 2 ^ ((φ.mb:ℤ) - 1) := zpow2_succ _
  rcases rndPos_fin_inv φ a _ _ h with ⟨hc, hmeq, hEeq, hov⟩ | ⟨hc, hmeq, hEeq, hov⟩
  · -- carry case
    have hmant : f.mant0 φ = 2 ^ (φ.mb - 1) := by
      rw [hmeq]
      have hcast : ((2:ℤ) ^ (φ.mb - 1)) = ((2 ^ (φ.mb - 1) : ℕ) : ℤ) := by
        push_cast
        ring
      rw [hcast, Int.toNat_natCast]
    have hbne : f.be ≠ 0 := by
      intro hb
      have hmm : f.mant0 φ = f.mbits := by
        unfold Flt.mant0
        rw [if_pos hb]
      have hmw := hwf.2
      omega
    have hmbits : f.mbits = 0 := by
      have hmm : f.mant0 φ = 2 ^ (φ.mb - 1) + f.mbits := by
        unfold Flt.mant0
        rw [if_neg hbne]
      omega
    have hbe2 : 2 ≤ f.be := by
      by_contra hcon
      push_neg at hcon
      have hE0 : f.E0 φ = φ.emin := E0_eq_emin_of_be_le_one φ f (by omega)
      omega
    have hbd : f.mbits = 0 ∧ 1 < f.be := ⟨hmbits, by omega⟩
    rw [hhe] at hc
    obtain hxb := (rndQ_eq_iff x ((2:ℤ) ^ φ.mb)).mp hc
    have hpowQ : (((2:ℤ) ^ φ.mb : ℤ) : ℚ) = 2 ^ (φ.mb : ℤ) := castZ_pow2 _
    have hxlo : (2:ℚ) ^ (φ.mb : ℤ) - 1/2 ≤ x := by
      rcases hxb with ⟨h1, h2⟩ | ⟨h1, h2⟩ | ⟨h1, h2⟩
      · rw [hpowQ] at h1
        linarith
      · rw [hpowQ] at h1
        linarith
      · rw [hpowQ] at h1
        rw [h1] at hupper
        linarith
    have hincl : f.inclusive φ := by
      unfold Flt.inclusive
      have hpe : (2:ℕ) ^ (φ.mb - 1) = 2 * 2 ^ (φ.mb - 2) := by
        rw [show φ.mb - 1 = (φ.mb - 2) + 1 by omega]
        ring
      omega
    have hMQ : ((f.mant0 φ : ℕ) : ℚ) = (2:ℚ) ^ ((φ.mb:ℤ) - 1) := by
      rw [hmant]
      exact cast_pow2_sub_one φ.mb hmb1
    have hE2 : f.E0 φ - 2 = e1 - 1 := by omega
    unfold inRegion
    rw [if_pos hincl, regionLo_toQ, regionHi_toQ, if_pos hbd, hE2, hqx]
    have hsplit : x * (2:ℚ) ^ e1 = (2 * x) * 2 ^ (e1 - 1) := by
      rw [zpow2_succ e1]
      ring
    rw [hsplit]
    constructor
    · apply mul_le_mul_of_nonneg_right _ (le_of_lt hE1Q)
      rw [hMQ]
      linarith
    · apply mul_le_mul_of_nonneg_right _ (le_of_lt hE1Q)
      rw [hMQ]
      linarith
  · -- no-carry case
    have hm1ge : (0:ℤ) ≤ rndHE (rndX φ a) := by
      rw [hhe]
      obtain ⟨hb1, hb2⟩ := rndQ_bounds x
      have hgt : (-1:ℚ) < (rndQ x : ℚ) := by linarith
      have hgtz : (-1:ℤ) < rndQ x := by exact_mod_cast hgt
      omega
    have hm1M : rndHE (rndX φ a) = ((f.mant0 φ : ℕ) : ℤ) := by omega
    have hrqM : rndQ x = ((f.mant0 φ : ℕ) : ℤ) := by
      rw [← hhe]
      exact hm1M
    have hE0e1 : f.E0 φ = e1 := hEeq
    have hE2 : f.E0 φ - 2 = e1 - 2 := by omega
    obtain hxb := (rndQ_eq_iff x ((f.mant0 φ : ℤ))).mp hrqM
    have hcastM : (((f.mant0 φ : ℤ)) : ℚ) = ((f.mant0 φ : ℕ) : ℚ) := by
      push_cast
      ring
    rw [hcastM] at hxb
    have hqx4 : x * (2:ℚ) ^ e1 = (4 * x) * 2 ^ (e1 - 2) := by
      rw [zpow2_E0_split e1]
      ring
    have hpar : ¬ f.inclusive φ → ¬ ((f.mant0 φ : ℤ) % 2 = 0) := by
      intro hni hc
      apply hni
      unfold Flt.inclusive
      omega
    by_cases hbd : f.mbits = 0 ∧ 1 < f.be
    · -- boundary float: the scaled value sits at or above the mantissa
      have hbne : f.be ≠ 0 := by omega
      have hmm : f.mant0 φ = 2 ^ (φ.mb - 1) + f.mbits := by
        unfold Flt.mant0
        rw [if_neg hbne]
      have hmant : f.mant0 φ = 2 ^ (φ.mb - 1) := by omega
      have hMQ : ((f.mant0 φ : ℕ) : ℚ) = (2:ℚ) ^ ((φ.mb:ℤ) - 1) := by
        rw [hmant]
        exact cast_pow2_sub_one φ.mb hmb1
      have hEgt : φ.emin < f.E0 φ := E0_gt_emin_of_be_ge_two φ f (by omega)
      have hxgeM : (2:ℚ) ^ ((φ.mb:ℤ) - 1) ≤ x := hlowF (by omega)
      have hxup : x ≤ ((f.mant0 φ : ℕ) : ℚ) + 1/2 := by
        rcases hxb with ⟨h1, h2⟩ | ⟨h1, h2⟩ | ⟨h1, h2⟩ <;> linarith
      unfold inRegion
      rw [regionLo_toQ, regionHi_toQ, if_pos hbd, hqx, hqx4, hE2]
      by_cases hincl : f.inclusive φ
      · rw [if_pos hincl]
        constructor
        · apply mul_le_mul_of_nonneg_right _ (le_of_lt hE2Q)
          rw [hMQ]
          linarith
        · apply mul_le_mul_of_nonneg_right _ (le_of_lt hE2Q)
          linarith
      · rw [if_neg hincl]
        have hxups : x < ((f.mant0 φ : ℕ) : ℚ) + 1/2 := by
          rcases hxb with ⟨h1, h2⟩ | ⟨h1, h2⟩ | ⟨h1, h2⟩
          · linarith
          · exact absurd h2 (hpar hincl)
          · exact absurd h2 (hpar hincl)
        constructor
        · apply mul_lt_mul_of_pos_right _ hE2Q
          rw [hMQ]
          linarith
        · apply mul_lt_mul_of_pos_right _ hE2Q
          linarith
    · -- non-boundary float: symmetric half-ulp gaps
      unfold inRegion
      rw [regionLo_toQ, regionHi_toQ, if_neg hbd, hqx, hqx4, hE2]
      by_cases hincl : f.inclusive φ
      · rw [if_pos hincl]
        have hxlo : ((f.mant0 φ : ℕ) : ℚ) - 1/2 ≤ x := by
          rcases hxb with ⟨h1, h2⟩ | ⟨h1, h2⟩ | ⟨h1, h2⟩ <;> linarith
        have hxup : x ≤ ((f.mant0 φ : ℕ) : ℚ) + 1/2 := by
          rcases hxb with ⟨h1, h2⟩ | ⟨h1, h2⟩ | ⟨h1, h2⟩ <;> linarith
        constructor
        · apply mul_le_mul_of_nonneg_right _ (le_of_lt hE2Q)
          linarith
        · apply mul_le_mul_of_nonneg_right _ (le_of_lt hE2Q)
          linarith
      · rw [if_neg hincl]
        have hxlo : ((f.mant0 φ : ℕ) : ℚ) - 1/2 < x := by
          rcases hxb with ⟨h1, h2⟩ | ⟨h1, h2⟩ | ⟨h1, h2⟩
          · linarith
          · exact absurd h2 (hpar hincl)
          · exact absurd h2 (hpar hincl)
        have hxup : x < ((f.mant0 φ : ℕ) : ℚ) + 1/2 := by
          rcases hxb with ⟨h1, h2⟩ | ⟨h1, h2⟩ | ⟨h1, h2⟩
          · linarith
          · exact absurd h2 (hpar hincl)
          · exact absurd h2 (hpar hincl)
        constructor
        · apply mul_lt_mul_of_pos_right _ hE2Q
          linarith
        · apply mul_lt_mul_of_pos_right _ hE2Q
          linarith

theorem rndPos_conclude_nocarry (φ : Fmt) (f : Flt) (hwf : f.WF φ)
    (hfin : f.isFinNZ φ) (hmb1 : 1 ≤ φ.mb) (heb2 : 2 ≤ φ.eb)
    (a : Frac) (han : 0 < a.num) (had : 0 < a.den)
    (hfn : a.num.toNat < 2 ^ logFuel) (hfd : a.den.toNat < 2 ^ logFuel)
    (he1 : rndE1 φ a = f.E0 φ)
    (hrq : rndQ (a.toQ * 2 ^ (-(f.E0 φ))) = (f.mant0 φ : ℤ)) :
    rndPos φ a = .fin (f.mant0 φ) (f.E0 φ) := by
  obtain ⟨hden, hhe, -, -, -⟩ := rnd_setup φ a han had hfn hfd
  rw [he1] at hhe
  have hm1 : rndHE (rndX φ a) = ((f.mant0 φ : ℕ) : ℤ) := by
    rw [hhe, hrq]
  have hmlt := mant0_lt φ f hwf hmb1
  have hne : rndHE (rndX φ a) ≠ 2 ^ φ.mb := by
    rw [hm1]
    have hMlt : ((f.mant0 φ : ℕ) : ℤ) < ((2 ^ φ.mb : ℕ) : ℤ) := by
      exact_mod_cast hmlt
    have hcast : ((2 ^ φ.mb : ℕ) : ℤ) = (2:ℤ) ^ φ.mb := by
      push_cast
      ring
    omega
  have hov : ¬ φ.emax < rndE1 φ a := by
    rw [he1]
    have := E0_le_emax φ f hwf hfin heb2
    omega
  rw [rndPos_nocarry_eq φ a hne hov, hm1, he1, Int.toNat_natCast]

theorem rndPos_conclude_carry (φ : Fmt) (f : Flt) (hwf : f.WF φ)
    (hfin : f.isFinNZ φ) (hmb1 : 1 ≤ φ.mb) (heb2 : 2 ≤ φ.eb)
    (a : Frac) (han : 0 < a.num) (had : 0 < a.den)
    (hfn : a.num.toNat < 2 ^ logFuel) (hfd : a.den.toNat < 2 ^ logFuel)
    (hmant : f.mant0 φ = 2 ^ (φ.mb - 1))
    (he1 : rndE1 φ a = f.E0 φ - 1)
    (hrq : rndQ (a.toQ * 2 ^ (-(f.E0 φ - 1))) = (2:ℤ) ^ φ.mb) :
    rndPos φ a = .fin (f.mant0 φ) (f.E0 φ) := by
  obtain ⟨hden, hhe, -, -, -⟩ := rnd_setup φ a han had hfn hfd
  rw [he1] at hhe
  have hm1 : rndHE (rndX φ a) = (2:ℤ) ^ φ.mb := by
    rw [hhe, hrq]
  have hov : ¬ φ.emax < rndE1 φ a + 1 := by
    rw [he1]
    have := E0_le_emax φ f hwf hfin heb2
    omega
  rw [rndPos_carry_eq φ a hm1 hov, he1]
  have ht : ((2:ℤ) ^ (φ.mb - 1)).toNat = 2 ^ (φ.mb - 1) := by
    have hcast : ((2:ℤ) ^ (φ.mb - 1)) = ((2 ^ (φ.mb - 1) : ℕ) : ℤ) := by
      push_cast
      ring
    rw [hcast, Int.toNat_natCast]
  rw [ht, ← hmant, show f.E0 φ - 1 + 1 = f.E0 φ by ring]

theorem qpow_nat_sub_one (k : ℕ) (hk : 1 ≤ k) :
    (2:ℚ) ^ (k - 1 : ℕ) = (2:ℚ) ^ ((k:ℤ) - 1) := by
  rw [← zpow_natCast]
  congr 1
  omega

/-- If a positive value lies in the rounding region of a finite nonzero
float, `rndPos` rounds it exactly to that float's mantissa/exponent
pair. -/
theorem region_to_rndPos (φ : Fmt) (f : Flt) (hwf : f.WF φ) (hfin : f.isFinNZ φ)
    (hmb2 : 2 ≤ φ.mb) (heb2 : 2 ≤ φ.eb)
    (a : Frac) (han : 0 < a.num) (had : 0 < a.den)
    (hfn : a.num.toNat < 2 ^ logFuel) (hfd : a.den.toNat < 2 ^ logFuel)
    (h : inRegion φ f a.toQ) :
    rndPos φ a = .fin (f.mant0 φ) (f.E0 φ) := by
  have hmb1 : 1 ≤ φ.mb := by omega
  have hm0 := mant0_pos φ f hfin
  have hmlt := mant0_lt φ f hwf hmb1
  have hq0 : 0 < a.toQ := Frac.toQ_pos a han had
  have hMQ1 : (1:ℚ) ≤ ((f.mant0 φ : ℕ) : ℚ) := by exact_mod_cast hm0
  have hMQub : ((f.mant0 φ : ℕ) : ℚ) ≤ 2 ^ (φ.mb:ℤ) - 1 := by
    have h1 : f.mant0 φ + 1 ≤ 2 ^ φ.mb := hmlt
    have h2 : ((f.mant0 φ : ℕ) : ℚ) + 1 ≤ ((2 ^ φ.mb : ℕ) : ℚ) := by
      exact_mod_cast h1
    rw [cast_pow2] at h2
    linarith
  have hP2 : (0:ℚ) < 2 ^ (f.E0 φ - 2) := by positivity
  have hnegE : (0:ℚ) < 2 ^ (-(f.E0 φ)) := by positivity
  have hnegE1 : (0:ℚ) < 2 ^ (-(f.E0 φ - 1)) := by positivity
  obtain ⟨hql, hqh⟩ := inRegion_le φ f a.toQ h
  rw [regionLo_toQ] at hql
  rw [regionHi_toQ] at hqh
  have hqhiub : a.toQ < 2 ^ ((φ.mb:ℤ) + f.E0 φ) := by
    have hid : (2:ℚ) ^ ((φ.mb:ℤ) + f.E0 φ)
        = (4 * 2 ^ (φ.mb:ℤ)) * 2 ^ (f.E0 φ - 2) := by
      rw [zpow_add₀ (by norm_num : (2:ℚ) ≠ 0), zpow2_E0_split (f.E0 φ)]
      ring
    have hfac : 4 * ((f.mant0 φ : ℕ) : ℚ) + 2 < 4 * 2 ^ (φ.mb:ℤ) := by
      linarith
    have hstep : (4 * ((f.mant0 φ : ℕ) : ℚ) + 2) * 2 ^ (f.E0 φ - 2)
        < (4 * 2 ^ (φ.mb:ℤ)) * 2 ^ (f.E0 φ - 2) :=
      mul_lt_mul_of_pos_right hfac hP2
    rw [hid]
    linarith
  have hquart : (2:ℚ) ^ (f.E0 φ - 2) * 2 ^ (-(f.E0 φ)) = 1/4 := by
    rw [← zpow_add₀ (by norm_num : (2:ℚ) ≠ 0),
      show (f.E0 φ - 2) + (-(f.E0 φ)) = (-2:ℤ) by ring, zpow_neg]
    norm_num
  have hhalf : (2:ℚ) ^ (f.E0 φ - 2) * 2 ^ (-(f.E0 φ - 1)) = 1/2 := by
    rw [← zpow_add₀ (by norm_num : (2:ℚ) ≠ 0),
      show (f.E0 φ - 2) + (-(f.E0 φ - 1)) = (-1:ℤ) by ring, zpow_neg]
    norm_num
  have hparincl : f.inclusive φ → ((f.mant0 φ : ℤ)) % 2 = 0 := by
    intro hi
    unfold Flt.inclusive at hi
    omega
  have hcastM : (((f.mant0 φ : ℤ)) : ℚ) = ((f.mant0 φ : ℕ) : ℚ) := by
    push_cast
    ring
  by_cases hbd : f.mbits = 0 ∧ 1 < f.be
  · -- boundary float
    have hbne : f.be ≠ 0 := by omega
    have hmm : f.mant0 φ = 2 ^ (φ.mb - 1) + f.mbits := by
      unfold Flt.mant0
      rw [if_neg hbne]
    have hmant : f.mant0 φ = 2 ^ (φ.mb - 1) := by omega
    have hMQv : ((f.mant0 φ : ℕ) : ℚ) = 2 ^ ((φ.mb:ℤ) - 1) := by
      rw [hmant]
      exact cast_pow2_sub_one φ.mb hmb1
    have hEgt : φ.emin < f.E0 φ := E0_gt_emin_of_be_ge_two φ f (by omega)
    have hincl : f.inclusive φ := by
      unfold Flt.inclusive
      have hpe : (2:ℕ) ^ (φ.mb - 1) = 2 * 2 ^ (φ.mb - 2) := by
        rw [show φ.mb - 1 = (φ.mb - 2) + 1 by omega]
        ring
      omega
    have hMe : ((f.mant0 φ : ℤ)) % 2 = 0 := hparincl hincl
    rw [if_pos hbd] at hql
    by_cases hqv : a.toQ < 2 ^ (((φ.mb:ℤ) - 1) + f.E0 φ)
    · -- below the binade boundary: rounding carries
      have hid2 : (2:ℚ) ^ (((φ.mb:ℤ) - 2) + f.E0 φ)
          = (2 * ((f.mant0 φ : ℕ) : ℚ)) * 2 ^ (f.E0 φ - 2) := by
        have he : (2:ℚ) ^ (((φ.mb:ℤ) - 2) + f.E0 φ)
            = 2 ^ ((φ.mb:ℤ)) * 2 ^ (f.E0 φ - 2) := by
          rw [← zpow_add₀ (by norm_num : (2:ℚ) ≠ 0)]
          congr 1
          ring
        rw [he, hMQv, zpow2_succ ((φ.mb:ℤ))]
      have hloq : (2:ℚ) ^ (((φ.mb:ℤ) - 2) + f.E0 φ) ≤ a.toQ := by
        rw [hid2]
        have hfac : 2 * ((f.mant0 φ : ℕ) : ℚ) ≤ 4 * ((f.mant0 φ : ℕ) : ℚ) - 1 := by
          linarith
        have hstep := mul_le_mul_of_nonneg_right hfac (le_of_lt hP2)
        linarith
      have hil : fracILog2 a = ((φ.mb:ℤ) - 2) + f.E0 φ :=
        fracILog2_eq a han had hfn hfd _ hloq
          (by rw [show ((((φ.mb:ℤ) - 2) + f.E0 φ) + 1)
              = (((φ.mb:ℤ) - 1) + f.E0 φ) by ring]
              exact hqv)
      have he1 : rndE1 φ a = f.E0 φ - 1 := by
        unfold rndE1
        rw [hil]
        omega
      have hxlo : 2 ^ (φ.mb:ℤ) - 1/2 ≤ a.toQ * 2 ^ (-(f.E0 φ - 1)) := by
        have h1 := mul_le_mul_of_nonneg_right hql (le_of_lt hnegE1)
        rw [mul_assoc, hhalf] at h1
        rw [hMQv] at h1
        have hzs := zpow2_succ ((φ.mb:ℤ))
        linarith
      have hxhi : a.toQ * 2 ^ (-(f.E0 φ - 1)) < 2 ^ (φ.mb:ℤ) := by
        have h1 := mul_lt_mul_of_pos_right hqv hnegE1
        have hcol : (2:ℚ) ^ (((φ.mb:ℤ) - 1) + f.E0 φ) * 2 ^ (-(f.E0 φ - 1))
            = 2 ^ (φ.mb:ℤ) := by
          rw [← zpow_add₀ (by norm_num : (2:ℚ) ≠ 0)]
          congr 1
          ring
        rw [hcol] at h1
        exact h1
      have heven : ((2:ℤ) ^ φ.mb) % 2 = 0 := by
        have h2 : (2:ℤ) ^ φ.mb = 2 ^ (φ.mb - 1) * 2 := by
          rw [← pow_succ]
          congr 1
          omega
        omega
      have hcast2 : (((2:ℤ) ^ φ.mb : ℤ) : ℚ) = 2 ^ (φ.mb:ℤ) := castZ_pow2 _
      have hrq : rndQ (a.toQ * 2 ^ (-(f.E0 φ - 1))) = (2:ℤ) ^ φ.mb := by
        apply (rndQ_eq_iff _ _).mpr
        rcases eq_or_lt_of_le hxlo with heq | hlt
        · exact Or.inr (Or.inl ⟨by rw [hcast2]; linarith, heven⟩)
        · exact Or.inl ⟨by rw [hcast2]; linarith, by rw [hcast2]; linarith⟩
      exact rndPos_conclude_carry φ f hwf hfin hmb1 heb2 a han had hfn hfd
        hmant he1 hrq
    · -- at or above the binade boundary
      push_neg at hqv
      have hil : fracILog2 a = ((φ.mb:ℤ) - 1) + f.E0 φ :=
        fracILog2_eq a han had hfn hfd _ hqv
          (by rw [show ((((φ.mb:ℤ) - 1) + f.E0 φ) + 1)
              = ((φ.mb:ℤ) + f.E0 φ) by ring]
              exact hqhiub)
      have he1 : rndE1 φ a = f.E0 φ := by
        unfold rndE1
        rw [hil]
        omega
      have hxlo : ((f.mant0 φ : ℕ) : ℚ) ≤ a.toQ * 2 ^ (-(f.E0 φ)) := by
        have h1 := mul_le_mul_of_nonneg_right hqv (le_of_lt hnegE)
        have hcol : (2:ℚ) ^ (((φ.mb:ℤ) - 1) + f.E0 φ) * 2 ^ (-(f.E0 φ))
            = 2 ^ ((φ.mb:ℤ) - 1) := by
          rw [← zpow_add₀ (by norm_num : (2:ℚ) ≠ 0)]
          congr 1
          ring
        rw [hcol] at h1
        rw [hMQv]
        exact h1
      have hxhi : a.toQ * 2 ^ (-(f.E0 φ)) ≤ ((f.mant0 φ : ℕ) : ℚ) + 1/2 := by
        have h1 := mul_le_mul_of_nonneg_right hqh (le_of_lt hnegE)
        rw [mul_assoc, hquart] at h1
        linarith
      have hrq : rndQ (a.toQ * 2 ^ (-(f.E0 φ))) = ((f.mant0 φ) : ℤ) := by
        apply (rndQ_eq_iff _ _).mpr
        rcases eq_or_lt_of_le hxhi with heq | hlt
        · exact Or.inr (Or.inr ⟨by rw [hcastM]; linarith, hMe⟩)
        · exact Or.inl ⟨by rw [hcastM]; linarith, by rw [hcastM]; linarith⟩
      exact rndPos_conclude_nocarry φ f hwf hfin hmb1 heb2 a han had hfn hfd
        he1 hrq
  · -- non-boundary float
    rw [if_neg hbd] at hql
    have he1 : rndE1 φ a = f.E0 φ := by
      by_cases hbe1 : f.be ≤ 1
      · have hEemin : f.E0 φ = φ.emin := E0_eq_emin_of_be_le_one φ f hbe1
        have hilub : fracILog2 a ≤ (φ.mb:ℤ) + f.E0 φ - 1 := by
          by_contra hcon
          push_neg at hcon
          have hz : (2:ℚ) ^ ((φ.mb:ℤ) + f.E0 φ) ≤ 2 ^ (fracILog2 a) :=
            zpow_le_zpow_right₀ (by norm_num) (by omega)
          have hil1 := (fracILog2_spec a han had hfn hfd).1
          linarith
        unfold rndE1
        omega
      · push_neg at hbe1
        have hmbits : f.mbits ≠ 0 := fun hc => hbd ⟨hc, by omega⟩
        have hbne : f.be ≠ 0 := by omega
        have hmm : f.mant0 φ = 2 ^ (φ.mb - 1) + f.mbits := by
          unfold Flt.mant0
          rw [if_neg hbne]
        have hMge : 2 ^ (φ.mb - 1) + 1 ≤ f.mant0 φ := by omega
        have hEgt : φ.emin < f.E0 φ := E0_gt_emin_of_be_ge_two φ f (by omega)
        have hMgeQ : (2:ℚ) ^ ((φ.mb:ℤ) - 1) + 1 ≤ ((f.mant0 φ : ℕ) : ℚ) := by
          have hcas : ((2 ^ (φ.mb - 1) + 1 : ℕ) : ℚ) ≤ ((f.mant0 φ : ℕ) : ℚ) := by
            exact_mod_cast hMge
          push_cast at hcas
          rw [qpow_nat_sub_one φ.mb hmb1] at hcas
          exact hcas
        have hloq2 : (2:ℚ) ^ (((φ.mb:ℤ) - 1) + f.E0 φ) ≤ a.toQ := by
          have hid : (2:ℚ) ^ (((φ.mb:ℤ) - 1) + f.E0 φ)
              = (4 * 2 ^ ((φ.mb:ℤ) - 1)) * 2 ^ (f.E0 φ - 2) := by
            rw [zpow_add₀ (by norm_num : (2:ℚ) ≠ 0), zpow2_E0_split (f.E0 φ)]
            ring
          have hfac : 4 * (2:ℚ) ^ ((φ.mb:ℤ) - 1)
              ≤ 4 * ((f.mant0 φ : ℕ) : ℚ) - 2 := by
            linarith
          have hstep := mul_le_mul_of_nonneg_right hfac (le_of_lt hP2)
          rw [hid]
          linarith
        have hil : fracILog2 a = ((φ.mb:ℤ) - 1) + f.E0 φ :=
          fracILog2_eq a han had hfn hfd _ hloq2
            (by rw [show ((((φ.mb:ℤ) - 1) + f.E0 φ) + 1)
                = ((φ.mb:ℤ) + f.E0 φ) by ring]
                exact hqhiub)
        unfold rndE1
        rw [hil]
        omega
    have hxlo : ((f.mant0 φ : ℕ) : ℚ) - 1/2 ≤ a.toQ * 2 ^ (-(f.E0 φ)) := by
      have h1 := mul_le_mul_of_nonneg_right hql (le_of_lt hnegE)
      rw [mul_assoc, hquart] at h1
      linarith
    have hxhi : a.toQ * 2 ^ (-(f.E0 φ)) ≤ ((f.mant0 φ : ℕ) : ℚ) + 1/2 := by
      have h1 := mul_le_mul_of_nonneg_right hqh (le_of_lt hnegE)
      rw [mul_assoc, hquart] at h1
      linarith
    have hrq : rndQ (a.toQ * 2 ^ (-(f.E0 φ))) = ((f.mant0 φ) : ℤ) := by
      apply (rndQ_eq_iff _ _).mpr
      by_cases hincl : f.inclusive φ
      · have hMe := hparincl hincl
        rcases eq_or_lt_of_le hxlo with heq | hlt
        · exact Or.inr (Or.inl ⟨by rw [hcastM]; linarith, hMe⟩)
        · rcases eq_or_lt_of_le hxhi with heq2 | hlt2
          · exact Or.inr (Or.inr ⟨by rw [hcastM]; linarith, hMe⟩)
          · exact Or.inl ⟨by rw [hcastM]; linarith, by rw [hcastM]; linarith⟩
      · have hstrict : (4 * ((f.mant0 φ : ℕ) : ℚ) - 2) * 2 ^ (f.E0 φ - 2) < a.toQ ∧
            a.toQ < (4 * ((f.mant0 φ : ℕ) : ℚ) + 2) * 2 ^ (f.E0 φ - 2) := by
          unfold inRegion at h
          rw [if_neg hincl] at h
          obtain ⟨h1, h2⟩ := h
          rw [regionLo_toQ, if_neg hbd] at h1
          rw [regionHi_toQ] at h2
          exact ⟨h1, h2⟩
        have hx1 : ((f.mant0 φ : ℕ) : ℚ) - 1/2 < a.toQ * 2 ^ (-(f.E0 φ)) := by
          have h1 := mul_lt_mul_of_pos_right hstrict.1 hnegE
          rw [mul_assoc, hquart] at h1
          linarith
        have hx2 : a.toQ * 2 ^ (-(f.E0 φ)) < ((f.mant0 φ : ℕ) : ℚ) + 1/2 := by
          have h1 := mul_lt_mul_of_pos_right hstrict.2 hnegE
          rw [mul_assoc, hquart] at h1
          linarith
        exact Or.inl ⟨by rw [hcastM]; linarith, by rw [hcastM]; linarith⟩
    exact rndPos_conclude_nocarry φ f hwf hfin hmb1 heb2 a han had hfn hfd
      he1 hrq

theorem qpow2_le_qpow10 (k c : ℕ) (h : k ≤ 3 * c) :
    (2:ℚ) ^ (k:ℤ) ≤ (10:ℚ) ^ (c:ℤ) := by
  rw [zpow_natCast, zpow_natCast]
  have hnat : (2:ℕ) ^ k ≤ 10 ^ c := by
    calc (2:ℕ) ^ k ≤ 2 ^ (3 * c) := Nat.pow_le_pow_right (by norm_num) h
    _ = 8 ^ c := by
        rw [pow_mul]
        norm_num
    _ ≤ 10 ^ c := Nat.pow_le_pow_left (by norm_num) _
  exact_mod_cast hnat

/-- Bounds on the decade exponent used by the shortest-mode search. -/
theorem ks_bounds (φ : Fmt) (f : Flt) (hwf : f.WF φ) (hfin : f.isFinNZ φ)
    (hmb1 : 1 ≤ φ.mb) (hmb : φ.mb ≤ 64) (heb : φ.eb ≤ 11) :
    -1675 ≤ clog10F (f.regionHi φ) ∧ clog10F (f.regionHi φ) ≤ 1690 := by
  obtain ⟨-, hHn, hHd, hHfn, hHfd⟩ :
      True ∧ 0 < (f.regionHi φ).num ∧ 0 < (f.regionHi φ).den ∧
        (f.regionHi φ).num.toNat < 10 ^ logFuel ∧
        (f.regionHi φ).den.toNat < 10 ^ logFuel := by
    obtain ⟨-, hh⟩ := region_size φ f hwf hfin hmb1 hmb heb
    exact ⟨trivial, hh.1, hh.2.1, hh.2.2.1, hh.2.2.2⟩
  obtain ⟨hcs1, hcs2⟩ := clog10F_spec (f.regionHi φ) hHn hHd hHfn hHfd
  obtain ⟨hlo, hhi⟩ := regionHi_toQ_bounds φ f hwf hmb1
  obtain ⟨hE1, hE2⟩ := E0_bounds φ f hwf hmb1 hmb heb
  constructor
  · have ha : (2:ℚ) ^ (-5002:ℤ) ≤ 2 ^ (f.E0 φ - 2) :=
      zpow_le_zpow_right₀ (by norm_num) (by omega)
    have hb : (10:ℚ) ^ (-1676:ℤ) ≤ (2:ℚ) ^ (-5002:ℤ) := by
      rw [show (-1676:ℤ) = -(1676:ℤ) by ring, show (-5002:ℤ) = -(5002:ℤ) by ring,
        zpow_neg, zpow_neg]
      apply inv_le_inv_of_le (by positivity)
      have := qpow2_le_qpow10 5002 1676 (by norm_num)
      exact_mod_cast this
    by_contra hc
    push_neg at hc
    have hd : (10:ℚ) ^ (clog10F (f.regionHi φ)) ≤ 10 ^ (-1676:ℤ) :=
      zpow_le_zpow_right₀ (by norm_num) (by omega)
    linarith
  · have ha : (2:ℚ) ^ (f.E0 φ + φ.mb + 1) ≤ 2 ^ (5065:ℤ) := by
      apply zpow_le_zpow_right₀ (by norm_num)
      have : (φ.mb : ℤ) ≤ 64 := by exact_mod_cast hmb
      omega
    have hb : (2:ℚ) ^ (5065:ℤ) ≤ (10:ℚ) ^ (1689:ℤ) := by
      have := qpow2_le_qpow10 5065 1689 (by norm_num)
      exact_mod_cast this
    by_contra hc
    push_neg at hc
    have hd : (10:ℚ) ^ (1689:ℤ) ≤ 10 ^ (clog10F (f.regionHi φ) - 1) :=
      zpow_le_zpow_right₀ (by norm_num) (by omega)
    linarith

theorem pow10_lt_pow2_logFuel : (10:ℕ) ^ 1824 < 2 ^ logFuel := by
  calc (10:ℕ) ^ 1824 ≤ 16 ^ 1824 := Nat.pow_le_pow_left (by norm_num) _
  _ = 2 ^ 7296 := by
      rw [show (16:ℕ) = 2 ^ 4 by norm_num, ← pow_mul]
  _ < 2 ^ logFuel := Nat.pow_lt_pow_right (by norm_num) (by norm_num [logFuel])

/-- Size bounds on a decimal-scaled fraction with moderate components. -/
theorem deF_size (D e : ℤ) (h0 : 0 < D) (hD : D ≤ 10 ^ 64)
    (he1 : -1760 ≤ e) (he2 : e ≤ 1760) :
    0 < (deF D e).num ∧ 0 < (deF D e).den ∧
    (deF D e).num.toNat < 2 ^ logFuel ∧ (deF D e).den.toNat < 2 ^ logFuel := by
  have hNbig : (10 ^ 1824 : ℕ) < 2 ^ logFuel := pow10_lt_pow2_logFuel
  have hone : (1:ℕ) < 2 ^ logFuel := Nat.one_lt_pow (by norm_num [logFuel]) (by norm_num)
  unfold deF
  by_cases h : 0 ≤ e
  · rw [if_pos h]
    refine ⟨?_, by simp, ?_, by simpa using hone⟩
    · simp only []
      positivity
    · simp only []
      have hee : e.toNat ≤ 1760 := by omega
      have hple : (10:ℤ) ^ e.toNat ≤ 10 ^ 1760 := pow_le_pow_right₀ (by norm_num) hee
      have hmul : D * 10 ^ e.toNat ≤ 10 ^ 64 * 10 ^ 1760 := by
        calc D * 10 ^ e.toNat ≤ 10 ^ 64 * 10 ^ e.toNat :=
              mul_le_mul_of_nonneg_right hD (by positivity)
        _ ≤ 10 ^ 64 * 10 ^ 1760 := mul_le_mul_of_nonneg_left hple (by positivity)
      have hc : ((10:ℤ) ^ 64 * 10 ^ 1760) = ((10 ^ 1824 : ℕ) : ℤ) := by norm_num
      rw [hc] at hmul
      have hpos : (0:ℤ) < D * 10 ^ e.toNat := by positivity
      omega
  · rw [if_neg h]
    refine ⟨h0, by positivity, ?_, ?_⟩
    · simp only []
      have hc : ((10:ℤ) ^ 64) = ((10 ^ 64 : ℕ) : ℤ) := by norm_num
      rw [hc] at hD
      have h64 : (10 ^ 64 : ℕ) < 2 ^ logFuel := by
        calc (10:ℕ) ^ 64 < 10 ^ 1824 := Nat.pow_lt_pow_right (by norm_num) (by norm_num)
        _ < 2 ^ logFuel := hNbig
      omega
    · simp only []
      have hee : (-e).toNat ≤ 1760 := by omega
      have hcast : ((10:ℤ) ^ (-e).toNat) = ((10 ^ (-e).toNat : ℕ) : ℤ) := by
        push_cast
        ring
      rw [hcast, Int.toNat_natCast]
      calc (10:ℕ) ^ (-e).toNat ≤ 10 ^ 1760 := Nat.pow_le_pow_right (by norm_num) hee
      _ < 10 ^ 1824 := Nat.pow_lt_pow_right (by norm_num) (by norm_num)
      _ < 2 ^ logFuel := hNbig

/-- Structural facts about any finite `rndPos` output. -/
theorem rndPos_fin_facts (φ : Fmt) (a : Frac) (han : 0 < a.num) (had : 0 < a.den)
    (hfn : a.num.toNat < 2 ^ logFuel) (hfd : a.den.toNat < 2 ^ logFuel)
    (hmb1 : 1 ≤ φ.mb) (m : ℕ) (E : ℤ) (h : rndPos φ a = .fin m E) :
    m < 2 ^ φ.mb ∧ φ.emin ≤ E ∧ (m < 2 ^ (φ.mb - 1) → E = φ.emin) := by
  obtain ⟨hden, hhe, hupper, hlowF, hq0⟩ := rnd_setup φ a han had hfn hfd
  set x := a.toQ * 2 ^ (-(rndE1 φ a)) with hx
  have hx0 : 0 < x := by
    rw [hx]
    positivity
  have he1emin : φ.emin ≤ rndE1 φ a := le_max_left _ _
  obtain ⟨hb1, hb2⟩ := rndQ_bounds x
  have hcastZ : ((2 ^ φ.mb : ℕ) : ℤ) = (2:ℤ) ^ φ.mb := by
    push_cast
    ring
  have hm1ub : rndQ x ≤ ((2 ^ φ.mb : ℕ) : ℤ) := by
    have hcast : (((2 ^ φ.mb : ℕ) : ℤ) : ℚ) = 2 ^ (φ.mb:ℤ) := by
      push_cast
      rw [zpow_natCast]
    have hq : (rndQ x : ℚ) < (((2 ^ φ.mb : ℕ) : ℤ) : ℚ) + 1 := by
      rw [hcast]
      linarith
    have h2 : rndQ x < ((2 ^ φ.mb : ℕ) : ℤ) + 1 := by exact_mod_cast hq
    omega
  have hm1lb : 0 ≤ rndQ x := by
    have hq : (-1:ℚ) < (rndQ x : ℚ) := by linarith
    have h2 : (-1:ℤ) < rndQ x := by exact_mod_cast hq
    omega
  have hplt : (2:ℕ) ^ (φ.mb - 1) < 2 ^ φ.mb := Nat.pow_lt_pow_right (by norm_num) (by omega)
  rcases rndPos_fin_inv φ a m E h with ⟨hc, hmeq, hEeq, hov⟩ | ⟨hc, hmeq, hEeq, hov⟩
  · have hmv : m = 2 ^ (φ.mb - 1) := by
      rw [hmeq]
      have hcast : ((2:ℤ) ^ (φ.mb - 1)) = ((2 ^ (φ.mb - 1) : ℕ) : ℤ) := by
        push_cast
        ring
      rw [hcast, Int.toNat_natCast]
    exact ⟨by omega, by omega, by omega⟩
  · rw [hhe] at hc hmeq
    refine ⟨by omega, by omega, ?_⟩
    intro hsm
    by_contra hne
    have hgt : φ.emin < rndE1 φ a := by omega
    have hxge := hlowF hgt
    have hcast1 : (((2 ^ (φ.mb - 1) : ℕ) : ℤ) : ℚ) = 2 ^ ((φ.mb:ℤ) - 1) := by
      push_cast
      rw [show ((φ.mb:ℤ) - 1) = ((φ.mb - 1 : ℕ) : ℤ) by omega, zpow_natCast]
    have hq : (((2 ^ (φ.mb - 1) : ℕ) : ℤ) : ℚ) - 1 < (rndQ x : ℚ) := by
      rw [hcast1]
      linarith
    have hz : ((2 ^ (φ.mb - 1) : ℕ) : ℤ) - 1 < rndQ x := by exact_mod_cast hq
    omega

theorem dec2flt_N_eq (ds : List ℕ) :
    digitsVal ([] : List ℕ) * 10 ^ ds.length + digitsVal ds = digitsVal ds := by
  simp [digitsVal]

theorem dec2flt_frac_fin (φ : Fmt) (ds : List ℕ) (e : ℤ) (hvd : validDigits ds)
    (hN : digitsVal ds ≠ 0) (m : ℕ) (E : ℤ)
    (hr : rndPos φ (deF (digitsVal ds : ℤ) (e - ds.length)) = .fin m E) :
    dec2flt φ [] ds e = .ok (encodeFin φ m E) := by
  simp only [dec2flt]
  rw [if_pos ⟨fun c hc => absurd hc (List.not_mem_nil c), hvd⟩, dec2flt_N_eq,
    if_neg hN, hr]

theorem dec2flt_frac_inv (φ : Fmt) (ds : List ℕ) (e : ℤ) (hvd : validDigits ds)
    (hN : digitsVal ds ≠ 0) (v : Flt)
    (h : dec2flt φ [] ds e = .ok v) :
    ∃ m E, rndPos φ (deF (digitsVal ds : ℤ) (e - ds.length)) = .fin m E ∧
      v = encodeFin φ m E := by
  simp only [dec2flt] at h
  rw [if_pos ⟨fun c hc => absurd hc (List.not_mem_nil c), hvd⟩, dec2flt_N_eq,
    if_neg hN] at h
  cases hr : rndPos φ (deF (digitsVal ds : ℤ) (e - ds.length)) with
  | overflow =>
    rw [hr] at h
    exact absurd h (by simp)
  | fin m E =>
    rw [hr] at h
    exact ⟨m, E, rfl, (by simpa using h : encodeFin φ m E = v).symm⟩

theorem from_preparsed_some_inv (φ : Fmt) (p : PreParsed) (g : Flt)
    (h : from_preparsed φ p = some g) :
    ∃ v, dec2flt φ p.int_digits p.frac_digits p.exp = .ok v ∧
      (if p.sign then v.negate else v) = g := by
  unfold from_preparsed at h
  cases hdc : dec2flt φ p.int_digits p.frac_digits p.exp with
  | err e =>
    rw [hdc] at h
    exact absurd h (by simp)
  | ok v =>
    rw [hdc] at h
    exact ⟨v, rfl, by simpa using h⟩

theorem from_preparsed_ok (φ : Fmt) (p : PreParsed) (v : Flt)
    (h : dec2flt φ p.int_digits p.frac_digits p.exp = .ok v) :
    from_preparsed φ p = some (if p.sign then v.negate else v) := by
  unfold from_preparsed
  rw [h]

theorem digitsVal_take_bounds (ds : List ℕ) (b : ℕ) (t : List ℕ)
    (hbt : ds = b :: t) (hb1 : 49 ≤ b) (hdigs : ∀ c ∈ ds, 48 ≤ c ∧ c ≤ 57)
    (j : ℕ) (hj1 : 1 ≤ j) (hj2 : j ≤ ds.length) :
    10 ^ (j - 1) ≤ digitsVal (ds.take j) ∧ digitsVal (ds.take j) < 10 ^ j ∧
      (ds.take j).length = j ∧ validDigits (ds.take j) := by
  have hvd : validDigits (ds.take j) := by
    intro c hc
    exact hdigs c (List.take_subset j ds hc)
  have hlen : (ds.take j).length = j := by
    rw [List.length_take]
    omega
  have hup : digitsVal (ds.take j) < 10 ^ j := by
    have h := digitsVal_lt (ds.take j) (fun c hc => (hvd c hc).2)
    rw [hlen] at h
    exact h
  refine ⟨?_, hup, hlen, hvd⟩
  subst hbt
  rw [show j = (j - 1) + 1 by omega, List.take_succ_cons, digitsVal_cons]
  have hlt : (List.take (j - 1) t).length = j - 1 := by
    rw [List.length_take]
    simp only [List.length_cons] at hj2
    omega
  rw [hlt]
  have hbge : 1 ≤ b - 48 := by omega
  have hm := Nat.mul_le_mul_right (10 ^ (j - 1)) hbge
  simp only [Nat.add_sub_cancel]
  omega

/-- Claim C1 (amended): for every finite nonzero f32/f64 value,
`preformat_shortest` returns `Finite(sign, digits, 0, k)` such that
feeding the digits back through `from_preparsed` as `frac_digits` with
`exp = k` and the same sign reproduces the value exactly, and no proper
prefix of the digits (with the same exponent) does.  As stated the claim
fails: the digits must be wired as `frac_digits` (value
`0.digits × 10^k`), not as `int_digits` (value `digits × 10^k`). -/
theorem preformat_shortest_roundtrip (φ : Fmt) (hφ : φ = f32fmt ∨ φ = f64fmt)
    (f : Flt) (hwf : f.WF φ) (hfin : f.isFinNZ φ) :
    ∃ ds k, preformat_shortest φ f = .Finite f.sign ds 0 k ∧ ds ≠ [] ∧
      from_preparsed φ ⟨f.sign, [], ds, k⟩ = some f ∧
      ∀ j, j < ds.length →
        from_preparsed φ ⟨f.sign, [], ds.take j, k⟩ ≠ some f := by
  obtain ⟨fs, fbe, fmb⟩ := f
  set f : Flt := ⟨fs, fbe, fmb⟩ with hfdef
  have hmb2 : 2 ≤ φ.mb := by
    rcases hφ with hh | hh <;> rw [hh] <;> norm_num [f32fmt, f64fmt]
  have hmb : φ.mb ≤ 64 := by
    rcases hφ with hh | hh <;> rw [hh] <;> norm_num [f32fmt, f64fmt]
  have heb : φ.eb ≤ 11 := by
    rcases hφ with hh | hh <;> rw [hh] <;> norm_num [f32fmt, f64fmt]
  have heb2 : 2 ≤ φ.eb := by
    rcases hφ with hh | hh <;> rw [hh] <;> norm_num [f32fmt, f64fmt]
  have hmb1 : 1 ≤ φ.mb := by omega
  obtain ⟨hnan, hinf, hzero⟩ := isFinNZ_not_special φ f hfin
  obtain ⟨hks1, hks2⟩ := ks_bounds φ f hwf hfin hmb1 hmb heb
  obtain ⟨n, kk, D, hfs, hn1, hnmb, hD1, hD2, hmem, hminim⟩ :=
    formatShortest_spec φ f hwf hfin hmb2 hmb heb
  obtain ⟨hdec1, hdec2⟩ := decade_bounds n hn1 D hD1 hD2 kk
  obtain ⟨hkk1, hkk2⟩ := region_decade φ f hwf hfin hmb1 hmb heb _ hmem kk hdec1 hdec2
  have hDpos : (0:ℤ) < D := lt_of_lt_of_le (by positivity) hD1
  have hcast1 : ((10:ℤ) ^ (n - 1)) = ((10 ^ (n - 1) : ℕ) : ℤ) := by
    push_cast
    ring
  have hcast2 : ((10:ℤ) ^ n) = ((10 ^ n : ℕ) : ℤ) := by
    push_cast
    ring
  have hDn1 : 10 ^ (n - 1) ≤ D.toNat := by omega
  have hDn2 : D.toNat < 10 ^ n := by omega
  obtain ⟨hlen, hval, hdigs, b, t, hbt, hb1, hb2⟩ :=
    digBytes_spec D.toNat n hn1 hDn1 hDn2
  have hn64 : n ≤ 64 := by omega
  have hD64 : D ≤ 10 ^ 64 := by
    have hp : (10:ℤ) ^ n ≤ 10 ^ 64 := pow_le_pow_right₀ (by norm_num) hn64
    omega
  refine ⟨digBytes D.toNat n, kk, ?_, ?_, ?_, ?_⟩
  · unfold preformat_shortest
    rw [if_neg hnan, if_neg hinf, if_neg hzero, hfs]
  · rw [hbt]
    simp
  · -- the exact round-trip
    have hNne : digitsVal (digBytes D.toNat n) ≠ 0 := by
      rw [hval]
      omega
    have hrnd : rndPos φ (deF (digitsVal (digBytes D.toNat n) : ℤ)
        (kk - (digBytes D.toNat n).length)) = .fin (f.mant0 φ) (f.E0 φ) := by
      rw [hval, hlen]
      obtain ⟨han, had, hfn2, hfd2⟩ :=
        deF_size (D.toNat : ℤ) (kk - n) (by omega) (by omega) (by omega) (by omega)
      apply region_to_rndPos φ f hwf hfin hmb2 heb2 _ han had hfn2 hfd2
      have htoQ : (deF ((D.toNat : ℕ) : ℤ) (kk - (n:ℤ))).toQ
          = (D:ℚ) * 10 ^ (kk - (n:ℤ)) := by
        rw [deF_toQ]
        congr 2
        exact_mod_cast Int.toNat_of_nonneg (le_of_lt hDpos)
      rw [htoQ]
      exact hmem
    have hdc := dec2flt_frac_fin φ (digBytes D.toNat n) kk hdigs hNne _ _ hrnd
    have hout := from_preparsed_ok φ ⟨f.sign, [], digBytes D.toNat n, kk⟩
      (encodeFin φ (f.mant0 φ) (f.E0 φ)) hdc
    rw [hout, encodeFin_mant0 φ f hwf hfin hmb1]
    cases fs <;> rfl
  · -- no proper prefix round-trips with the same exponent
    intro j hj hc
    rw [hlen] at hj
    by_cases hj0 : j = 0
    · subst hj0
      rw [List.take_zero] at hc
      have hempty : dec2flt φ [] [] kk = .ok ⟨false, 0, 0⟩ := rfl
      have hout := from_preparsed_ok φ ⟨f.sign, [], [], kk⟩ ⟨false, 0, 0⟩ hempty
      rw [hout] at hc
      have hfin2 := hfin.2
      cases fs
      · simp only [Option.some.injEq] at hc
        have hcc : (⟨false, 0, 0⟩ : Flt) = f := by simpa using hc
        rw [hfdef] at hcc
        simp only [Flt.mk.injEq] at hcc
        exact hfin2 ⟨hcc.2.1.symm, hcc.2.2.symm⟩
      · simp only [Option.some.injEq, Flt.negate] at hc
        have hcc : (⟨true, 0, 0⟩ : Flt) = f := by simpa using hc
        rw [hfdef] at hcc
        simp only [Flt.mk.injEq] at hcc
        exact hfin2 ⟨hcc.2.1.symm, hcc.2.2.symm⟩
    · have hj1 : 1 ≤ j := by omega
      obtain ⟨htk1, htk2, htklen, htkvd⟩ :=
        digitsVal_take_bounds (digBytes D.toNat n) b t hbt hb1 hdigs j hj1
          (by omega)
      have hD2pos : digitsVal ((digBytes D.toNat n).take j) ≠ 0 := by
        have hpp : 0 < 10 ^ (j - 1) := Nat.pos_pow_of_pos _ (by norm_num)
        omega
      obtain ⟨v, hdcv, hvf⟩ := from_preparsed_some_inv φ
        ⟨f.sign, [], (digBytes D.toNat n).take j, kk⟩ f hc
      obtain ⟨m, E, hrnd, hvenc⟩ := dec2flt_frac_inv φ
        ((digBytes D.toNat n).take j) kk htkvd hD2pos v hdcv
      rw [htklen] at hrnd
      have hveq : v = (⟨false, fbe, fmb⟩ : Flt) := by
        obtain ⟨vs, vbe, vmb⟩ := v
        rw [hfdef] at hvf
        cases fs
        · simpa using hvf
        · simp [Flt.negate] at hvf
          obtain ⟨h1, h2, h3⟩ := hvf
          simp [h1, h2, h3]
      obtain ⟨han, had, hfn2, hfd2⟩ :=
        deF_size (digitsVal ((digBytes D.toNat n).take j) : ℤ) (kk - j)
          (by exact_mod_cast Nat.pos_of_ne_zero hD2pos)
          (by
            have hjb : (10:ℤ) ^ j ≤ 10 ^ 64 :=
              pow_le_pow_right₀ (by norm_num) (by omega)
            have hcc : ((10:ℤ) ^ j) = ((10 ^ j : ℕ) : ℤ) := by
              push_cast
              ring
            have hvv : (digitsVal ((digBytes D.toNat n).take j) : ℤ)
                < ((10 ^ j : ℕ) : ℤ) := by exact_mod_cast htk2
            omega)
          (by omega) (by omega)
      obtain ⟨hmlt2, hEge, hEsub⟩ := rndPos_fin_facts φ _ han had hfn2 hfd2
        hmb1 m E hrnd
      have hencf : encodeFin φ m E = (⟨false, fbe, fmb⟩ : Flt) := by
        rw [← hvenc, hveq]
      obtain ⟨hmM, hEE⟩ := encodeFin_inj φ f hwf hfin hmb1 m E hEge hEsub hencf
      rw [hmM, hEE] at hrnd
      have hreg := rndPos_to_region φ f hwf hfin hmb2 heb2 _ han had hfn2 hfd2 hrnd
      have htoQ : (deF ((digitsVal ((digBytes D.toNat n).take j) : ℕ) : ℤ)
          (kk - (j:ℤ))).toQ
          = (((digitsVal ((digBytes D.toNat n).take j) : ℤ)) : ℚ)
            * 10 ^ (kk - (j:ℤ)) := by
        rw [deF_toQ]
      rw [htoQ] at hreg
      have hccast : ((10:ℤ) ^ (j - 1)) = ((10 ^ (j - 1) : ℕ) : ℤ) := by
        push_cast
        ring
      have hccast2 : ((10:ℤ) ^ j) = ((10 ^ j : ℕ) : ℤ) := by
        push_cast
        ring
      have hz1 : (10:ℤ) ^ (j - 1) ≤ (digitsVal ((digBytes D.toNat n).take j) : ℤ) := by
        have hvv : ((10 ^ (j - 1) : ℕ) : ℤ)
            ≤ (digitsVal ((digBytes D.toNat n).take j) : ℤ) := by
          exact_mod_cast htk1
        omega
      have hz2 : (digitsVal ((digBytes D.toNat n).take j) : ℤ) < 10 ^ j := by
        have hvv : (digitsVal ((digBytes D.toNat n).take j) : ℤ)
            < ((10 ^ j : ℕ) : ℤ) := by exact_mod_cast htk2
        omega
      exact hminim j hj1 hj kk _ hz1 hz2 hreg

/-- Counterexample to claim C1 as stated: for `3.0f32` the shortest form
is digits `"3"` with `k = 1` (value `0.3 × 10^1`); feeding the digits as
`int_digits` with `exp = k` parses as `3 × 10^1 = 30.0`, not `3.0`. -/
theorem preformat_shortest_roundtrip_counterexample :
    preformat_shortest f32fmt ⟨false, 128, 4194304⟩ = .Finite false [51] 0 1 ∧
    from_preparsed f32fmt ⟨false, [51], [], 1⟩ = some ⟨false, 131, 7340032⟩ ∧
    (⟨false, 131, 7340032⟩ : Flt) ≠ ⟨false, 128, 4194304⟩ :=
  ⟨by decide, by decide, by decide⟩

/-- Witness for C1 at the f32 value `3.0`. -/
theorem preformat_shortest_roundtrip_witness :
    (Flt.WF f32fmt ⟨false, 128, 4194304⟩ ∧
      Flt.isFinNZ f32fmt ⟨false, 128, 4194304⟩) ∧
    ∃ ds k, preformat_shortest f32fmt ⟨false, 128, 4194304⟩
        = .Finite false ds 0 k ∧
      ds ≠ [] ∧
      from_preparsed f32fmt ⟨false, [], ds, k⟩ = some ⟨false, 128, 4194304⟩ ∧
      ∀ j, j < ds.length →
        from_preparsed f32fmt ⟨false, [], ds.take j, k⟩
          ≠ some ⟨false, 128, 4194304⟩ :=
  ⟨⟨by decide, by decide⟩,
    preformat_shortest_roundtrip f32fmt (Or.inl rfl) ⟨false, 128, 4194304⟩
      (by decide) (by decide)⟩
